import Mathlib

/-!
Verification of the arbitrary-precision integer library `biginteger.js`.

The library stores an integer as a little-endian array of base-10^6 digit
groups plus a sign flag, with all digit arithmetic performed on JavaScript
numbers (IEEE-754 binary64 doubles).  This development gives a shallow
embedding of the source:

* Arithmetic whose intermediate JavaScript numbers are provably integers of
  magnitude at most 2^53 is modelled over `Int` (binary64 arithmetic is exact
  on such values); each such definition notes the bound.
* Arithmetic that can leave that range or produce non-integral values
  (the native division fast path, `divideByNativeNumber`, `trialDigit`)
  is modelled over `Rat` with an explicit binary64 rounding function
  `roundQ` (round to nearest, ties to even) applied after every operation,
  exactly as the hardware does.  Overflow and subnormal thresholds are
  never approached by the values the library manipulates, so the unbounded
  exponent of `roundQ` agrees with binary64 on all of them.
* JavaScript `%` on numbers is `fmod` (exact, sign of the dividend); on the
  integer ranges used it is `Int.tmod`.  `Math.floor(x / y)` on integer
  doubles is `Int.fdiv` when exact, and `qfloor (roundQ (x / y))` in general.
* `while` loops are modelled by structural recursion on an explicit fuel
  parameter; running out of fuel is a distinguished outcome `JRes.fuelOut`
  that no theorem below treats as an answer.
* Thrown JavaScript exceptions are the error outcomes of `JRes`; the
  `Math.random()` source is an explicit oracle argument.

The standard `Rat` operations are `@[irreducible]`, so kernel evaluation of
concrete values uses the `mkRat`-based operations `qadd`, `qsub`, `qmul`,
`qdiv`, `qfloor` below, each proved equal to the standard operation.
-/

/-- Kernel-evaluable rational addition (`Rat.add` is irreducible). -/
def qadd (a b : ℚ) : ℚ := mkRat (a.num * (b.den : ℤ) + b.num * (a.den : ℤ)) (a.den * b.den)

/-- Kernel-evaluable rational subtraction. -/
def qsub (a b : ℚ) : ℚ := mkRat (a.num * (b.den : ℤ) - b.num * (a.den : ℤ)) (a.den * b.den)

/-- Kernel-evaluable rational multiplication. -/
def qmul (a b : ℚ) : ℚ := mkRat (a.num * b.num) (a.den * b.den)

/-- Kernel-evaluable rational division (`a / b`; both sides are `0` when `b = 0`). -/
def qdiv (a b : ℚ) : ℚ := Rat.divInt (a.num * (b.den : ℤ)) (b.num * (a.den : ℤ))

/-- Kernel-evaluable floor of a rational. -/
def qfloor (a : ℚ) : ℤ := Int.fdiv a.num a.den

/-- Kernel-evaluable strict comparison of rationals. -/
def qlt (a b : ℚ) : Bool := a.num * (b.den : ℤ) < b.num * (a.den : ℤ)

theorem den_cast_ne (a : ℚ) : ((a.den : ℤ) : ℚ) ≠ 0 := by positivity

theorem num_cast_mul (a : ℚ) : ((a.num : ℤ) : ℚ) = a * ((a.den : ℤ) : ℚ) := by
  push_cast
  have hd : ((a.den : ℚ)) ≠ 0 := by positivity
  rw [← div_eq_iff hd]
  exact Rat.num_div_den a

theorem qadd_eq (a b : ℚ) : qadd a b = a + b := by
  unfold qadd
  rw [Rat.mkRat_eq_div]
  push_cast
  rw [div_eq_iff (by positivity), add_mul]
  have h1 := num_cast_mul a
  have h2 := num_cast_mul b
  push_cast at h1 h2
  rw [h1, h2]
  ring

theorem qsub_eq (a b : ℚ) : qsub a b = a - b := by
  unfold qsub
  rw [Rat.mkRat_eq_div]
  push_cast
  rw [div_eq_iff (by positivity), sub_mul]
  have h1 := num_cast_mul a
  have h2 := num_cast_mul b
  push_cast at h1 h2
  rw [h1, h2]
  ring

theorem qmul_eq (a b : ℚ) : qmul a b = a * b := by
  unfold qmul
  rw [Rat.mkRat_eq_div]
  push_cast
  rw [div_eq_iff (by positivity)]
  have h1 := num_cast_mul a
  have h2 := num_cast_mul b
  push_cast at h1 h2
  rw [h1, h2]
  ring

theorem qdiv_eq (a b : ℚ) : qdiv a b = a / b := by
  unfold qdiv
  rw [Rat.divInt_eq_div]
  rcases eq_or_ne b 0 with hb | hb
  · subst hb
    norm_num
  · have hbnum : ((b.num : ℤ) : ℚ) ≠ 0 := by
      simpa using Rat.num_ne_zero.mpr hb
    push_cast
    have hd : ((b.num : ℚ)) * ((a.den : ℚ)) ≠ 0 := by
      apply mul_ne_zero
      · exact_mod_cast hbnum
      · exact_mod_cast den_cast_ne a
    rw [div_eq_div_iff hd hb]
    have h1 := num_cast_mul a
    have h2 := num_cast_mul b
    push_cast at h1 h2
    rw [h1, h2]
    ring

theorem qfloor_eq (a : ℚ) : qfloor a = ⌊a⌋ := by
  unfold qfloor
  rw [Int.fdiv_eq_ediv _ (by positivity)]
  conv_rhs => rw [← Rat.num_div_den a]
  rw [Rat.floor_intCast_div_natCast]

theorem qlt_iff (a b : ℚ) : qlt a b = true ↔ a < b := by
  unfold qlt
  rw [decide_eq_true_eq]
  have hpos : (0:ℚ) < (a.den : ℚ) * (b.den : ℚ) := by positivity
  constructor
  · intro h
    have h2 : (a.num : ℚ) * (b.den : ℚ) < (b.num : ℚ) * (a.den : ℚ) := by exact_mod_cast h
    rw [num_cast_mul a, num_cast_mul b] at h2
    push_cast at h2
    have h3 : a * ((a.den : ℚ) * (b.den : ℚ)) < b * ((a.den : ℚ) * (b.den : ℚ)) := by
      calc a * ((a.den : ℚ) * (b.den : ℚ)) = a * (a.den : ℚ) * (b.den : ℚ) := by ring
        _ < b * (b.den : ℚ) * (a.den : ℚ) := h2
        _ = b * ((a.den : ℚ) * (b.den : ℚ)) := by ring
    exact lt_of_mul_lt_mul_right h3 (le_of_lt hpos)
  · intro h
    have h3 := mul_lt_mul_of_pos_right h hpos
    have h2 : (a.num : ℚ) * (b.den : ℚ) < (b.num : ℚ) * (a.den : ℚ) := by
      rw [num_cast_mul a, num_cast_mul b]
      push_cast
      calc a * (a.den : ℚ) * (b.den : ℚ) = a * ((a.den : ℚ) * (b.den : ℚ)) := by ring
        _ < b * ((a.den : ℚ) * (b.den : ℚ)) := h3
        _ = b * (b.den : ℚ) * (a.den : ℚ) := by ring
    exact_mod_cast h2

/-- Kernel-evaluable negation of a rational (`Rat.neg` inherits irreducibility issues). -/
def qneg (a : ℚ) : ℚ := mkRat (-a.num) a.den

theorem qneg_eq (a : ℚ) : qneg a = -a := by
  unfold qneg
  rw [Rat.mkRat_eq_div]
  push_cast
  rw [neg_div, Rat.num_div_den]

/-- Fuelled base-two logarithm on naturals: `natLog2F f n` counts halvings of `n`
down to `1`, correct whenever `n < 2 ^ f` (core `Nat.log2` is defined by
well-founded recursion and does not reduce in the kernel). -/
def natLog2F : ℕ → ℕ → ℕ
  | 0, _ => 0
  | f + 1, n => if n ≤ 1 then 0 else natLog2F f (n / 2) + 1

/-- `natLog2 n` is the floor of the base-two logarithm of `n` (for `1 ≤ n`). -/
def natLog2 (n : ℕ) : ℕ := natLog2F n n

/-- `natClog2 n` is the ceiling of the base-two logarithm of `n` (for `1 ≤ n`):
the least `c` with `n ≤ 2 ^ c`. -/
def natClog2 (n : ℕ) : ℕ := if n ≤ 1 then 0 else natLog2 (n - 1) + 1

/-- The binary exponent of a positive rational: the largest `e` with `2 ^ e ≤ x`. -/
def qlog2 (x : ℚ) : ℤ :=
  if (x.den : ℤ) ≤ x.num then (natLog2 (qfloor x).toNat : ℤ)
  else -(natClog2 ((x.den + x.num.toNat - 1) / x.num.toNat) : ℤ)

/-- Round a rational to the nearest integer, ties to even. -/
def roundHalfEven (m : ℚ) : ℤ :=
  let f := qfloor m
  let fr := qsub m ((f : ℤ) : ℚ)
  if qlt fr (mkRat 1 2) then f
  else if qlt (mkRat 1 2) fr then f + 1
  else if f % 2 = 0 then f else f + 1

/-- Kernel-evaluable integer power of two as a rational (`2 ^ (k : ℤ)`). -/
def pow2z (k : ℤ) : ℚ := if 0 ≤ k then ((2 ^ k.toNat : ℕ) : ℚ) else mkRat 1 (2 ^ (-k).toNat)

/-- Binary64 rounding of a positive rational: scale the 53-bit significand into
`[2^52, 2^53)`, round to nearest (ties to even), scale back.  The exponent is
unbounded: the library's values never approach overflow or subnormals, where
this agrees exactly with IEEE-754 round-to-nearest-even. -/
def roundPos (x : ℚ) : ℚ :=
  let e := qlog2 x
  qmul ((roundHalfEven (qmul x (pow2z (52 - e))) : ℤ) : ℚ) (pow2z (e - 52))

/-- Binary64 rounding of a rational (round to nearest, ties to even). -/
def roundQ (x : ℚ) : ℚ :=
  if x.num = 0 then 0 else if x.num < 0 then qneg (roundPos (qneg x)) else roundPos x

theorem natLog2F_spec (f : ℕ) : ∀ n : ℕ, 1 ≤ n → n < 2 ^ f →
    2 ^ natLog2F f n ≤ n ∧ n < 2 ^ (natLog2F f n + 1) := by
  induction f with
  | zero => intro n h1 h2; omega
  | succ f ih =>
    intro n h1 h2
    unfold natLog2F
    by_cases hn : n ≤ 1
    · rw [if_pos hn]
      constructor
      · simpa using h1
      · have : n = 1 := le_antisymm hn h1
        simp [this]
    · rw [if_neg hn]
      have h2' : n / 2 < 2 ^ f := by
        rw [Nat.div_lt_iff_lt_mul (by norm_num)]
        calc n < 2 ^ (f + 1) := h2
          _ = 2 ^ f * 2 := by ring
      have h1' : 1 ≤ n / 2 := by omega
      obtain ⟨hl, hr⟩ := ih (n / 2) h1' h2'
      constructor
      · calc 2 ^ (natLog2F f (n / 2) + 1) = 2 ^ natLog2F f (n / 2) * 2 := by ring
          _ ≤ n / 2 * 2 := by omega
          _ ≤ n := by omega
      · calc n < (n / 2 + 1) * 2 := by omega
          _ ≤ 2 ^ (natLog2F f (n / 2) + 1) * 2 := by
              have : n / 2 + 1 ≤ 2 ^ (natLog2F f (n / 2) + 1) := hr
              omega
          _ = 2 ^ (natLog2F f (n / 2) + 1 + 1) := by ring

theorem natLog2_spec (n : ℕ) (h1 : 1 ≤ n) :
    2 ^ natLog2 n ≤ n ∧ n < 2 ^ (natLog2 n + 1) :=
  natLog2F_spec n n h1 (Nat.lt_two_pow n)

theorem natClog2_spec (n : ℕ) (h1 : 1 ≤ n) :
    n ≤ 2 ^ natClog2 n ∧ (2 ≤ n → 2 ^ (natClog2 n - 1) < n) := by
  unfold natClog2
  by_cases hn : n ≤ 1
  · rw [if_pos hn]
    constructor
    · simpa using hn
    · omega
  · rw [if_neg hn]
    obtain ⟨hl, hr⟩ := natLog2_spec (n - 1) (by omega)
    constructor
    · have : n - 1 < 2 ^ (natLog2 (n - 1) + 1) := hr
      omega
    · intro _
      simpa using Nat.lt_of_le_of_lt hl (by omega)

theorem pow2z_eq (k : ℤ) : pow2z k = (2 : ℚ) ^ k := by
  unfold pow2z
  by_cases hk : 0 ≤ k
  · rw [if_pos hk]
    push_cast
    rw [← zpow_natCast (2:ℚ) k.toNat, Int.toNat_of_nonneg hk]
  · rw [if_neg hk, Rat.mkRat_eq_div]
    push_cast
    rw [← zpow_natCast (2:ℚ) (-k).toNat, Int.toNat_of_nonneg (by omega), one_div,
      ← zpow_neg, neg_neg]

theorem pow2z_pos (k : ℤ) : 0 < pow2z k := by
  rw [pow2z_eq]
  positivity

theorem one_le_rat_iff (x : ℚ) : (x.den : ℤ) ≤ x.num ↔ 1 ≤ x := by
  constructor
  · intro h
    have h2 : ((x.den : ℤ) : ℚ) ≤ ((x.num : ℤ) : ℚ) := by exact_mod_cast h
    rw [num_cast_mul x] at h2
    have hd : (0:ℚ) < ((x.den : ℤ) : ℚ) := by positivity
    nlinarith
  · intro h
    have h2 : ((x.den : ℤ) : ℚ) ≤ ((x.num : ℤ) : ℚ) := by
      rw [num_cast_mul x]
      have hd : (0:ℚ) < ((x.den : ℤ) : ℚ) := by positivity
      nlinarith
    exact_mod_cast h2

theorem ceil_div_spec (d u : ℕ) (hu : 1 ≤ u) :
    d ≤ ((d + u - 1) / u) * u ∧ ((d + u - 1) / u) * u < d + u := by
  have hdm := Nat.div_add_mod (d + u - 1) u
  have hmlt : (d + u - 1) % u < u := Nat.mod_lt _ (by omega)
  have hcomm : ((d + u - 1) / u) * u = u * ((d + u - 1) / u) := Nat.mul_comm _ _
  omega

theorem qlog2_spec (x : ℚ) (hx : 0 < x) :
    (2 : ℚ) ^ qlog2 x ≤ x ∧ x < (2 : ℚ) ^ (qlog2 x + 1) := by
  unfold qlog2
  by_cases h1 : (x.den : ℤ) ≤ x.num
  · rw [if_pos h1]
    have hx1 : 1 ≤ x := (one_le_rat_iff x).mp h1
    have hfl : 1 ≤ ⌊x⌋ := by
      rw [Int.le_floor]
      exact_mod_cast hx1
    have hknat : (qfloor x).toNat = ⌊x⌋.toNat := by rw [qfloor_eq]
    rw [hknat]
    set k : ℕ := ⌊x⌋.toNat with hk
    have hk1 : 1 ≤ k := by omega
    have hkfl : (k : ℤ) = ⌊x⌋ := Int.toNat_of_nonneg (by omega)
    obtain ⟨hl, hr⟩ := natLog2_spec k hk1
    constructor
    · calc (2:ℚ) ^ ((natLog2 k : ℕ) : ℤ) = ((2 ^ natLog2 k : ℕ) : ℚ) := by
            rw [zpow_natCast]
            push_cast
            ring
        _ ≤ (k : ℚ) := by exact_mod_cast hl
        _ ≤ x := by
            have := Int.floor_le x
            rw [← hkfl] at this
            exact_mod_cast this
    · calc x < ⌊x⌋ + 1 := Int.lt_floor_add_one x
        _ = ((k + 1 : ℕ) : ℚ) := by rw [← hkfl]; push_cast; ring
        _ ≤ ((2 ^ (natLog2 k + 1) : ℕ) : ℚ) := by exact_mod_cast hr
        _ = (2:ℚ) ^ (((natLog2 k : ℕ) : ℤ) + 1) := by
            rw [show ((natLog2 k : ℕ) : ℤ) + 1 = ((natLog2 k + 1 : ℕ) : ℤ) by push_cast; ring,
              zpow_natCast]
            push_cast
            ring
  · rw [if_neg h1]
    have hxlt1 : x < 1 := by
      by_contra hc
      exact h1 ((one_le_rat_iff x).mpr (le_of_not_lt hc))
    have hnum : 1 ≤ x.num := by
      have := Rat.num_pos.mpr hx
      omega
    set nu : ℕ := x.num.toNat with hnu
    have hnu1 : 1 ≤ nu := by omega
    have hnuc : ((nu : ℕ) : ℤ) = x.num := Int.toNat_of_nonneg (by omega)
    have hlt : nu < x.den := by
      have h2 : x.num < (x.den : ℤ) := not_le.mp h1
      omega
    obtain ⟨hceil1, hceil2⟩ := ceil_div_spec x.den nu hnu1
    set n : ℕ := (x.den + nu - 1) / nu with hn
    have hn2 : 2 ≤ n := by
      by_contra hc
      have hn1 : n ≤ 1 := by omega
      have hle : n * nu ≤ nu := by
        calc n * nu ≤ 1 * nu := Nat.mul_le_mul_right nu hn1
          _ = nu := by ring
      omega
    obtain ⟨hcl, hcr⟩ := natClog2_spec n (by omega)
    have hcr2 := hcr hn2
    have hc1 : 1 ≤ natClog2 n := by
      by_contra hc
      have h0 : natClog2 n = 0 := by omega
      rw [h0] at hcl
      omega
    set c : ℕ := natClog2 n with hc
    have hxval : x * (x.den : ℚ) = (nu : ℚ) := by
      have h := num_cast_mul x
      rw [← hnuc] at h
      push_cast at h ⊢
      linarith
    have hdpos : (0:ℚ) < (x.den : ℚ) := by positivity
    have hkey : x.den ≤ 2 ^ c * nu := by
      calc x.den ≤ n * nu := hceil1
        _ ≤ 2 ^ c * nu := Nat.mul_le_mul_right nu hcl
    have hkey2 : nu * 2 ^ (c - 1) < x.den := by
      have hsub : 2 ^ (c - 1) ≤ n - 1 := by omega
      have hstep : nu * 2 ^ (c - 1) ≤ nu * (n - 1) := Nat.mul_le_mul_left nu hsub
      have hmn : nu * (n - 1) + nu = nu * n := by
        conv_rhs => rw [show n = (n - 1) + 1 by omega]
        rw [Nat.mul_succ]
      have hcomm : nu * n = n * nu := Nat.mul_comm nu n
      omega
    constructor
    · have hpow : (0:ℚ) < (2:ℚ) ^ (c:ℕ) := by positivity
      rw [zpow_neg, zpow_natCast, inv_eq_one_div, div_le_iff hpow]
      have hq : (x.den : ℚ) ≤ (2:ℚ) ^ (c:ℕ) * (nu : ℚ) := by
        calc (x.den : ℚ) ≤ ((2 ^ c * nu : ℕ) : ℚ) := by exact_mod_cast hkey
          _ = (2:ℚ) ^ (c:ℕ) * (nu : ℚ) := by push_cast; ring
      nlinarith
    · have hpow : (0:ℚ) < (2:ℚ) ^ ((c - 1 : ℕ) : ℕ) := by positivity
      rw [show -((c:ℕ) : ℤ) + 1 = -(((c - 1 : ℕ) : ℕ) : ℤ) by omega]
      rw [zpow_neg, zpow_natCast, inv_eq_one_div, lt_div_iff hpow]
      have hq : (nu : ℚ) * (2:ℚ) ^ ((c - 1 : ℕ) : ℕ) < (x.den : ℚ) := by
        calc (nu : ℚ) * (2:ℚ) ^ ((c - 1 : ℕ) : ℕ) = ((nu * 2 ^ (c - 1) : ℕ) : ℚ) := by
              push_cast
              ring
          _ < (x.den : ℚ) := by exact_mod_cast hkey2
      nlinarith

theorem mkRat_half : (mkRat 1 2 : ℚ) = 1 / 2 := by
  rw [Rat.mkRat_eq_div]
  norm_num

theorem roundHalfEven_err (m : ℚ) : |((roundHalfEven m : ℤ) : ℚ) - m| ≤ 1 / 2 := by
  unfold roundHalfEven
  simp only [qsub_eq, qfloor_eq]
  have hfl := Int.floor_le m
  have hfu := Int.lt_floor_add_one m
  rw [abs_sub_le_iff]
  split_ifs with h1 h2 h3
  · rw [qlt_iff, mkRat_half] at h1
    push_cast at h1 ⊢
    constructor <;> linarith
  · rw [qlt_iff, mkRat_half] at h2
    push_cast at h2 ⊢
    constructor <;> linarith
  · have hn1 : ¬ ((m - ((⌊m⌋ : ℤ) : ℚ)) < 1 / 2) := by
      intro hc
      exact h1 (by rw [qlt_iff, mkRat_half]; exact hc)
    have hn2 : ¬ ((1 : ℚ) / 2 < m - ((⌊m⌋ : ℤ) : ℚ)) := by
      intro hc
      exact h2 (by rw [qlt_iff, mkRat_half]; exact hc)
    push_cast at hn1 hn2 ⊢
    constructor <;> linarith
  · have hn1 : ¬ ((m - ((⌊m⌋ : ℤ) : ℚ)) < 1 / 2) := by
      intro hc
      exact h1 (by rw [qlt_iff, mkRat_half]; exact hc)
    have hn2 : ¬ ((1 : ℚ) / 2 < m - ((⌊m⌋ : ℤ) : ℚ)) := by
      intro hc
      exact h2 (by rw [qlt_iff, mkRat_half]; exact hc)
    push_cast at hn1 hn2 ⊢
    constructor <;> linarith

theorem roundHalfEven_int (z : ℤ) : roundHalfEven ((z : ℤ) : ℚ) = z := by
  unfold roundHalfEven
  simp only [qsub_eq, qfloor_eq]
  rw [Int.floor_intCast]
  rw [if_pos]
  rw [qlt_iff, mkRat_half]
  norm_num

theorem roundPos_repr (x : ℚ) :
    roundPos x = ((roundHalfEven (x * (2:ℚ) ^ ((52 : ℤ) - qlog2 x)) : ℤ) : ℚ) *
      (2:ℚ) ^ (qlog2 x - 52) := by
  unfold roundPos
  rw [qmul_eq, qmul_eq, pow2z_eq, pow2z_eq]

theorem roundPos_err (x : ℚ) : |roundPos x - x| ≤ (2:ℚ) ^ (qlog2 x - 53) := by
  rw [roundPos_repr]
  set e := qlog2 x with he
  set m : ℚ := x * (2:ℚ) ^ ((52 : ℤ) - e) with hm
  have h := roundHalfEven_err m
  have hpos : (0:ℚ) < (2:ℚ) ^ (e - 52) := by positivity
  have hmx : m * (2:ℚ) ^ (e - 52) = x := by
    rw [hm, mul_assoc, ← zpow_add₀ (two_ne_zero : (2:ℚ) ≠ 0)]
    norm_num
  calc |((roundHalfEven m : ℤ) : ℚ) * (2:ℚ) ^ (e - 52) - x|
      = |((roundHalfEven m : ℤ) : ℚ) - m| * (2:ℚ) ^ (e - 52) := by
        rw [← abs_of_pos hpos, ← abs_mul]
        congr 1
        rw [sub_mul, hmx, abs_of_pos hpos]
    _ ≤ (1 / 2) * (2:ℚ) ^ (e - 52) := mul_le_mul_of_nonneg_right h (le_of_lt hpos)
    _ = (2:ℚ) ^ (e - 53) := by
        rw [show (1:ℚ)/2 = (2:ℚ) ^ (-1 : ℤ) by norm_num, ← zpow_add₀ (two_ne_zero : (2:ℚ) ≠ 0)]
        congr 1
        ring

theorem roundQ_of_pos (x : ℚ) (hx : 0 < x) : roundQ x = roundPos x := by
  unfold roundQ
  have hnum : 0 < x.num := Rat.num_pos.mpr hx
  rw [if_neg (by omega), if_neg (by omega)]

theorem roundQ_zero : roundQ 0 = 0 := by
  unfold roundQ
  norm_num

theorem roundQ_err (x : ℚ) (hx : 0 < x) : |roundQ x - x| ≤ x / 2 ^ 53 := by
  rw [roundQ_of_pos x hx]
  refine le_trans (roundPos_err x) ?_
  obtain ⟨hl, _⟩ := qlog2_spec x hx
  calc (2:ℚ) ^ (qlog2 x - 53) = (2:ℚ) ^ (qlog2 x) / 2 ^ (53 : ℕ) := by
        rw [sub_eq_add_neg, zpow_add₀ (two_ne_zero : (2:ℚ) ≠ 0), ← zpow_natCast (2:ℚ) 53]
        rw [zpow_neg, ← div_eq_mul_inv]
        norm_num
    _ ≤ x / 2 ^ 53 := by
        apply div_le_div_of_nonneg_right hl
        positivity

theorem roundQ_le (x : ℚ) (hx : 0 < x) : roundQ x ≤ x + x / 2 ^ 53 := by
  have h := roundQ_err x hx
  rw [abs_le] at h
  linarith [h.2]

theorem roundQ_ge (x : ℚ) (hx : 0 < x) : x - x / 2 ^ 53 ≤ roundQ x := by
  have h := roundQ_err x hx
  rw [abs_le] at h
  linarith [h.1]

theorem roundQ_pos (x : ℚ) (hx : 0 < x) : 0 < roundQ x := by
  have h := roundQ_ge x hx
  have : x - x / 2 ^ 53 > 0 := by
    have h2 : x / 2 ^ 53 < x := by
      rw [div_lt_iff (by positivity : (0:ℚ) < 2 ^ 53)]
      nlinarith
    linarith
  linarith

theorem roundQ_nonneg (x : ℚ) (hx : 0 ≤ x) : 0 ≤ roundQ x := by
  rcases eq_or_lt_of_le hx with h | h
  · rw [← h, roundQ_zero]
  · exact le_of_lt (roundQ_pos x h)

theorem zpow_le_of_le_int (a b : ℤ) (h : a ≤ b) : (2:ℚ) ^ a ≤ (2:ℚ) ^ b := by
  apply zpow_le_of_le (by norm_num) h

theorem roundQ_int (n : ℤ) (h0 : 0 ≤ n) (h53 : n ≤ 2 ^ 53) : roundQ ((n : ℤ) : ℚ) = n := by
  rcases eq_or_lt_of_le h0 with h | h
  · rw [← h]
    push_cast
    exact roundQ_zero
  · have hpos : (0:ℚ) < ((n : ℤ) : ℚ) := by exact_mod_cast h
    rw [roundQ_of_pos _ hpos, roundPos_repr]
    set e := qlog2 ((n : ℤ) : ℚ) with he
    obtain ⟨hl, hr⟩ := qlog2_spec _ hpos
    have he0 : 0 ≤ e := by
      by_contra hc
      have h1 : e + 1 ≤ 0 := by omega
      have h2 : (2:ℚ) ^ (e + 1) ≤ (2:ℚ) ^ (0 : ℤ) := zpow_le_of_le_int _ _ h1
      have h3 : ((n : ℤ) : ℚ) < 1 := by
        calc ((n : ℤ) : ℚ) < (2:ℚ) ^ (e + 1) := hr
          _ ≤ (2:ℚ) ^ (0 : ℤ) := h2
          _ = 1 := by norm_num
      have : n < 1 := by exact_mod_cast h3
      omega
    have he53 : e ≤ 53 := by
      by_contra hc
      have h1 : (54 : ℤ) ≤ e := by omega
      have h2 : (2:ℚ) ^ (54 : ℤ) ≤ (2:ℚ) ^ e := zpow_le_of_le_int _ _ h1
      have h3 : ((2 ^ 54 : ℤ) : ℚ) ≤ ((n : ℤ) : ℚ) := by
        calc ((2 ^ 54 : ℤ) : ℚ) = (2:ℚ) ^ (54 : ℤ) := by norm_num
          _ ≤ (2:ℚ) ^ e := h2
          _ ≤ ((n : ℤ) : ℚ) := hl
      have : (2 ^ 54 : ℤ) ≤ n := by exact_mod_cast h3
      omega
    have hz : ∃ z : ℤ, ((z : ℤ) : ℚ) = ((n : ℤ) : ℚ) * (2:ℚ) ^ ((52 : ℤ) - e) := by
      by_cases he52 : e ≤ 52
      · refine ⟨n * 2 ^ (52 - e).toNat, ?_⟩
        push_cast
        rw [← zpow_natCast (2:ℚ) (52 - e).toNat, Int.toNat_of_nonneg (by omega)]
      · have he' : e = 53 := by omega
        have hn53 : ((2 ^ 53 : ℤ) : ℚ) ≤ ((n : ℤ) : ℚ) := by
          calc ((2 ^ 53 : ℤ) : ℚ) = (2:ℚ) ^ (53 : ℤ) := by norm_num
            _ ≤ ((n : ℤ) : ℚ) := by rw [← he']; exact hl
        have hneq : n = 2 ^ 53 := by
          have : (2 ^ 53 : ℤ) ≤ n := by exact_mod_cast hn53
          omega
        refine ⟨2 ^ 52, ?_⟩
        rw [hneq, he']
        push_cast
        norm_num [zpow_neg]
    obtain ⟨z, hzq⟩ := hz
    rw [← hzq, roundHalfEven_int, hzq, mul_assoc, ← zpow_add₀ (two_ne_zero : (2:ℚ) ≠ 0)]
    norm_num

set_option maxHeartbeats 1000000 in
theorem floorDivExact (a b : ℕ) (hb : 0 < b) (ha : a ≤ 2 ^ 53) (hble : b ≤ 2 ^ 53) :
    qfloor (roundQ ((a : ℚ) / (b : ℚ))) = ((a / b : ℕ) : ℤ) := by
  have hbq : (0:ℚ) < (b : ℚ) := by exact_mod_cast hb
  obtain ⟨k, r, hab, hrb, hkdef, hrdef⟩ :
      ∃ k r, b * k + r = a ∧ r < b ∧ k = a / b ∧ r = a % b :=
    ⟨a / b, a % b, Nat.div_add_mod a b, Nat.mod_lt a hb, rfl, rfl⟩
  rw [← hkdef]
  have hqk : (a : ℚ) / (b : ℚ) = (k : ℚ) + (r : ℚ) / (b : ℚ) := by
    rw [← hab]
    push_cast
    field_simp
    ring
  by_cases hr0 : r = 0
  · have hqint : (a : ℚ) / (b : ℚ) = ((k : ℕ) : ℚ) := by rw [hqk, hr0]; norm_num
    rw [hqint]
    have hk53 : (k : ℤ) ≤ 2 ^ 53 := by
      have h1 : k ≤ a := by rw [hkdef]; exact Nat.div_le_self a b
      have h2 : k ≤ 2 ^ 53 := le_trans h1 ha
      exact_mod_cast h2
    rw [show ((k : ℕ) : ℚ) = (((k : ℕ) : ℤ) : ℚ) by push_cast; ring]
    rw [roundQ_int _ (by omega) hk53, qfloor_eq, Int.floor_intCast]
  · have hr1 : 1 ≤ r := by omega
    have hb2 : 2 ≤ b := by omega
    have hapos : 1 ≤ a := by
      have hbk : 0 ≤ b * k := Nat.zero_le _
      omega
    have hqpos : (0:ℚ) < (a : ℚ) / (b : ℚ) := by positivity
    have hlow : (k : ℚ) ≤ roundQ ((a : ℚ) / (b : ℚ)) := by
      have h1 := roundQ_ge _ hqpos
      have h2 : ((a : ℚ) / (b : ℚ)) / 2 ^ 53 ≤ (r : ℚ) / (b : ℚ) := by
        rw [div_div, div_le_div_iff (by positivity) hbq]
        have har : (a:ℚ) ≤ 2 ^ 53 := by exact_mod_cast ha
        have hrq : (1:ℚ) ≤ (r:ℚ) := by exact_mod_cast hr1
        nlinarith
      linarith [h1, h2, hqk]
    have hup : roundQ ((a : ℚ) / (b : ℚ)) < (k : ℚ) + 1 := by
      by_contra hc
      push_neg at hc
      by_cases hab2 : a < b
      · have hk0 : k = 0 := by rw [hkdef]; exact Nat.div_eq_of_lt hab2
        have h1 := roundQ_le _ hqpos
        have hqle : (a : ℚ) / (b : ℚ) ≤ 1 - 1 / (b : ℚ) := by
          rw [div_le_iff hbq]
          have haq : (a : ℚ) ≤ (b : ℚ) - 1 := by
            have h3 : a + 1 ≤ b := hab2
            have h4 : ((a + 1 : ℕ) : ℚ) ≤ ((b : ℕ) : ℚ) := by exact_mod_cast h3
            push_cast at h4
            linarith
          have hexp : (1 - 1/(b:ℚ)) * (b : ℚ) = (b:ℚ) - 1 := by field_simp
          rw [hexp]
          exact haq
        have hbinv : 1 / (2:ℚ) ^ 53 ≤ 1 / (b : ℚ) := by
          apply one_div_le_one_div_of_le hbq
          exact_mod_cast hble
        have hibpos : 0 < 1 / (b : ℚ) := by positivity
        have hlt1 : roundQ ((a : ℚ) / (b : ℚ)) < 1 := by
          have hmon : ((a : ℚ) / (b : ℚ)) / 2 ^ 53 ≤ (1 - 1/(b:ℚ)) / 2 ^ 53 :=
            div_le_div_of_nonneg_right hqle (by positivity)
          nlinarith [h1, hqle, hbinv, hibpos]
        rw [hk0] at hc
        push_cast at hc
        linarith
      · push_neg at hab2
        have hq1 : (1:ℚ) ≤ (a : ℚ) / (b : ℚ) := by
          rw [le_div_iff hbq]
          have : (b : ℚ) ≤ (a : ℚ) := by exact_mod_cast hab2
          linarith
        obtain ⟨hl2, hr2⟩ := qlog2_spec _ hqpos
        have he0 : 0 ≤ qlog2 ((a : ℚ) / (b : ℚ)) := by
          by_contra hce
          have h1 : qlog2 ((a : ℚ) / (b : ℚ)) + 1 ≤ 0 := by omega
          have h2 := zpow_le_of_le_int _ _ h1
          have h3 : (a : ℚ) / (b : ℚ) < 1 := by
            calc (a : ℚ) / (b : ℚ) < 2 ^ (qlog2 ((a : ℚ) / (b : ℚ)) + 1) := hr2
              _ ≤ (2:ℚ) ^ (0:ℤ) := h2
              _ = 1 := by norm_num
          linarith
        have hq52 : (a : ℚ) / (b : ℚ) ≤ (2:ℚ) ^ (52 : ℤ) := by
          rw [div_le_iff hbq]
          have har : (a:ℚ) ≤ 2 ^ 53 := by exact_mod_cast ha
          have hbq2 : (2:ℚ) ≤ (b : ℚ) := by exact_mod_cast hb2
          have h2 : ((2:ℚ) ^ (52 : ℤ)) * 2 ≤ (2:ℚ) ^ (52 : ℤ) * (b : ℚ) := by
            apply mul_le_mul_of_nonneg_left hbq2 (by positivity)
          have h3 : ((2:ℚ) ^ (52 : ℤ)) * 2 = (2:ℚ) ^ (53 : ℤ) := by
            rw [show (53 : ℤ) = 52 + 1 by norm_num, zpow_add₀ (two_ne_zero : (2:ℚ) ≠ 0)]
            norm_num
          have hz53 : (2:ℚ) ^ (53 : ℤ) = (2:ℚ) ^ (53 : ℕ) := by norm_num
          linarith
        have he52 : qlog2 ((a : ℚ) / (b : ℚ)) ≤ 52 := by
          by_contra hce
          have h1 : (53 : ℤ) ≤ qlog2 ((a : ℚ) / (b : ℚ)) := by omega
          have h2 := zpow_le_of_le_int _ _ h1
          have h3 : (2:ℚ) ^ (53 : ℤ) ≤ (2:ℚ) ^ (52 : ℤ) := le_trans (le_trans h2 hl2) hq52
          have h4 : ((2:ℚ) ^ (52 : ℤ)) < (2:ℚ) ^ (53 : ℤ) := by
            rw [show (53 : ℤ) = 52 + 1 by norm_num, zpow_add₀ (two_ne_zero : (2:ℚ) ≠ 0)]
            nlinarith [zpow_pos (show (0:ℚ) < 2 by norm_num) (52 : ℤ)]
          linarith
        have herr : roundQ ((a : ℚ) / (b : ℚ)) - (a : ℚ) / (b : ℚ) ≤
            (2:ℚ) ^ (qlog2 ((a : ℚ) / (b : ℚ)) - 53) := by
          have h1 := roundPos_err ((a : ℚ) / (b : ℚ))
          rw [← roundQ_of_pos _ hqpos] at h1
          rw [abs_le] at h1
          linarith [h1.2]
        have hgap : (k : ℚ) + 1 - (a : ℚ) / (b : ℚ) ≤
            (2:ℚ) ^ (qlog2 ((a : ℚ) / (b : ℚ)) - 53) := by linarith
        have hbr : ((b - r : ℕ) : ℚ) / (b : ℚ) ≤ (2:ℚ) ^ (qlog2 ((a : ℚ) / (b : ℚ)) - 53) := by
          have h1 : ((b - r : ℕ) : ℚ) = (b : ℚ) - (r : ℚ) := by
            have : r ≤ b := le_of_lt hrb
            push_cast [this]
            ring
          rw [h1]
          have h2 : (k : ℚ) + 1 - (a : ℚ) / (b : ℚ) = ((b : ℚ) - (r : ℚ)) / (b : ℚ) := by
            rw [hqk]
            field_simp
            ring
          rw [← h2]
          exact hgap
        have hbig : (2:ℚ) ^ ((53 : ℤ) - qlog2 ((a : ℚ) / (b : ℚ))) ≤ (b : ℚ) := by
          have h1 : (1 : ℚ) ≤ ((b - r : ℕ) : ℚ) := by
            have : 1 ≤ b - r := by omega
            exact_mod_cast this
          have h2 : (1 : ℚ) / (b : ℚ) ≤ (2:ℚ) ^ (qlog2 ((a : ℚ) / (b : ℚ)) - 53) := by
            calc (1 : ℚ) / (b : ℚ) ≤ ((b - r : ℕ) : ℚ) / (b : ℚ) :=
                div_le_div_of_nonneg_right h1 (le_of_lt hbq)
              _ ≤ _ := hbr
          have h3 : (1 : ℚ) ≤ (b : ℚ) * (2:ℚ) ^ (qlog2 ((a : ℚ) / (b : ℚ)) - 53) := by
            rw [div_le_iff hbq] at h2
            linarith
          have h4 : (0:ℚ) < (2:ℚ) ^ ((53 : ℤ) - qlog2 ((a : ℚ) / (b : ℚ))) := by positivity
          have h5 : (2:ℚ) ^ ((53 : ℤ) - qlog2 ((a : ℚ) / (b : ℚ))) *
              ((2:ℚ) ^ (qlog2 ((a : ℚ) / (b : ℚ)) - 53)) = 1 := by
            rw [← zpow_add₀ (two_ne_zero : (2:ℚ) ≠ 0)]
            norm_num
          nlinarith [h3, h4, h5, zpow_pos (show (0:ℚ) < 2 by norm_num)
            (qlog2 ((a : ℚ) / (b : ℚ)) - 53)]
        have hke : (2:ℚ) ^ (qlog2 ((a : ℚ) / (b : ℚ))) ≤ (k : ℚ) := by
          have h1 : (2:ℚ) ^ (qlog2 ((a : ℚ) / (b : ℚ))) < (k : ℚ) + 1 := by
            calc (2:ℚ) ^ (qlog2 ((a : ℚ) / (b : ℚ))) ≤ (a : ℚ) / (b : ℚ) := hl2
              _ < (k : ℚ) + 1 := by
                  rw [hqk]
                  have : (r : ℚ) / (b : ℚ) < 1 := by
                    rw [div_lt_one hbq]
                    exact_mod_cast hrb
                  linarith
          -- both sides integral: 2 ^ e ≤ k
          set en : ℕ := (qlog2 ((a : ℚ) / (b : ℚ))).toNat with hen
          have hencast : ((en : ℕ) : ℤ) = qlog2 ((a : ℚ) / (b : ℚ)) := Int.toNat_of_nonneg he0
          have h2 : (2:ℚ) ^ (qlog2 ((a : ℚ) / (b : ℚ))) = ((2 ^ en : ℕ) : ℚ) := by
            rw [← hencast, zpow_natCast]
            push_cast
            ring
          rw [h2] at h1 ⊢
          have h3 : (2 ^ en : ℕ) < k + 1 := by exact_mod_cast h1
          have h4 : (2 ^ en : ℕ) ≤ k := by omega
          exact_mod_cast h4
        -- combine: b * k ≥ 2 ^ 53, contradicting a ≤ 2 ^ 53
        have hfin : (2:ℚ) ^ (53 : ℤ) ≤ (b : ℚ) * (k : ℚ) := by
          calc (2:ℚ) ^ (53 : ℤ) = (2:ℚ) ^ ((53 : ℤ) - qlog2 ((a : ℚ) / (b : ℚ))) *
              (2:ℚ) ^ (qlog2 ((a : ℚ) / (b : ℚ))) := by
                rw [← zpow_add₀ (two_ne_zero : (2:ℚ) ≠ 0)]
                norm_num
            _ ≤ (b : ℚ) * (k : ℚ) := by
                apply mul_le_mul hbig hke (by positivity) (by positivity)
        have haq : (a : ℚ) = (b : ℚ) * (k : ℚ) + (r : ℚ) := by
          rw [← hab]
          push_cast
          ring
        have har : (a:ℚ) ≤ 2 ^ 53 := by exact_mod_cast ha
        have hrq : (1:ℚ) ≤ (r:ℚ) := by exact_mod_cast hr1
        have h253 : (2:ℚ) ^ (53 : ℤ) = (2:ℚ) ^ (53 : ℕ) := by norm_num
        have hfin2 : (2:ℚ) ^ (53 : ℕ) ≤ (b : ℚ) * (k : ℚ) := by
          rw [← h253]
          exact hfin
        linarith [hfin2, haq, har, hrq]
    rw [qfloor_eq]
    have : ⌊roundQ ((a : ℚ) / (b : ℚ))⌋ = (k : ℤ) := by
      rw [Int.floor_eq_iff]
      · constructor
        · exact_mod_cast hlow
        · push_cast
          exact_mod_cast hup
    exact this

/-- `BigInteger.BASE`: the radix of the digit representation.  `BASE ^ 2` fits
exactly in a binary64 double, which the source relies on for multiplication. -/
def BASE : ℤ := 1000000

/-- The state of a `BigInteger` object: a little-endian array of digit groups,
the sign flag, and the cached display string (`numberString`; `none` models the
JavaScript `null` stored by the digit-array constructor).  Digits are
JavaScript numbers; every digit the library computes is an integer (the buggy
complement subtraction can produce the integer `-1`), so they are modelled as
`Int`. -/
structure BigInteger where
  digits : List ℤ
  negative : Bool
  numberString : Option (List Char)
deriving DecidableEq

/-- Value of a little-endian digit array: `digitsVal [d0, d1, d2] =
d0 + BASE * (d1 + BASE * d2)`. -/
def digitsVal : List ℤ → ℤ
  | [] => 0
  | d :: ds => d + BASE * digitsVal ds

/-- The integer a `BigInteger` object denotes. -/
def val (b : BigInteger) : ℤ := (if b.negative then -1 else 1) * digitsVal b.digits

/-- Canonical form: digits in `[0, BASE)`, no most-significant zero digit
(zero is the empty array), and no negative zero. -/
def Canonical (b : BigInteger) : Prop :=
  (∀ d ∈ b.digits, 0 ≤ d ∧ d < BASE) ∧ b.digits.getLast? ≠ some 0 ∧
    (b.digits = [] → b.negative = false)

instance (b : BigInteger) : Decidable (Canonical b) := by
  unfold Canonical
  exact inferInstance

/-- `stripLeadingZeroDigits`: drop most-significant zero digits (the source
shrinks the array in place while its last entry is `=== 0`). -/
def stripLeadingZeroDigits (ds : List ℤ) : List ℤ :=
  (ds.reverse.dropWhile (fun d => decide (d = 0))).reverse

/-- `representsZero`: true when the string is empty or all zero characters. -/
def representsZero (s : List Char) : Bool := s.all (fun c => c = '0')

/-- Decimal digit characters. -/
def charDigit (c : Char) : Option ℕ :=
  if '0' ≤ c ∧ c ≤ '9' then some (c.toNat - 48) else none

/-- Value of a list of decimal digit characters (big-endian), `none` if any
character is not a decimal digit. -/
def decDigitsVal : List Char → Option ℕ
  | [] => some 0
  | c :: cs =>
    match charDigit c, decDigitsVal cs with
    | some d, some v => some (d * 10 ^ cs.length + v)
    | _, _ => none

/-- `parseInt` on a digit-group chunk.  JavaScript parses the maximal digit
prefix and yields `NaN` when there is none; chunks containing non-digit
characters arise only from constructor inputs with non-digit characters,
which no theorem below quantifies over, and are mapped to `0` here. -/
def parseIntOrZero (s : List Char) : ℤ :=
  ((decDigitsVal (s.takeWhile (fun c => '0' ≤ c ∧ c ≤ '9'))).getD 0 : ℕ)

/-- Split a string into base-`10^6` chunks from the least-significant end:
the chunk list is little-endian; the final (most-significant) chunk holds the
`excess` characters.  Fuelled structural recursion (`f ≥ s.length` suffices). -/
def chunksOf6F : ℕ → List Char → List (List Char)
  | 0, s => [s]
  | f + 1, s =>
    if s.length ≤ 6 then [s]
    else s.drop (s.length - 6) :: chunksOf6F f (s.take (s.length - 6))

/-- The little-endian digit-group chunks of a decimal string. -/
def chunksOf6 (s : List Char) : List (List Char) := chunksOf6F s.length s

/-- The string constructor `new BigInteger(string)`: strip an optional leading
minus sign, accept any all-zero remainder as canonical zero, else parse the
6-character chunks from the least-significant end.  The original string is
cached as `numberString`.  No input is ever rejected. -/
def fromString (s : List Char) : BigInteger :=
  match h : s with
  | '-' :: rest =>
    if representsZero rest then ⟨[], false, some s⟩
    else ⟨(chunksOf6 rest).map parseIntOrZero, true, some s⟩
  | _ =>
    if representsZero s then ⟨[], false, some s⟩
    else ⟨(chunksOf6 s).map parseIntOrZero, false, some s⟩

/-- Decimal character string of a natural number (fuelled; `f ≥ n` suffices). -/
def natToCharsF : ℕ → ℕ → List Char
  | 0, _ => ['0']
  | f + 1, n =>
    if n < 10 then [Char.ofNat (48 + n)]
    else natToCharsF f (n / 10) ++ [Char.ofNat (48 + n % 10)]

/-- Decimal character string of a natural number. -/
def natToChars (n : ℕ) : List Char := natToCharsF n n

/-- Decimal character string of an integer (JavaScript `Number.toString()` on
an integral value). -/
def intToChars (n : ℤ) : List Char :=
  if n < 0 then '-' :: natToChars n.natAbs else natToChars n.toNat

/-- Little-endian base-`10^6` digits of a natural number (fuelled;
`f ≥ n` suffices). -/
def toDigitsF : ℕ → ℕ → List ℤ
  | 0, _ => []
  | f + 1, n => if n = 0 then [] else ((n % 1000000 : ℕ) : ℤ) :: toDigitsF f (n / 1000000)

/-- The number constructor `new BigInteger(number)`: sign from `number < 0`,
digits by repeated `% BASE` / `Math.floor(/ BASE)` on the absolute value, the
decimal string cached.  Every number the library passes here is an integer of
magnitude at most `2^53`, where binary64 `%` and `Math.floor(/)` are exact, so
the digit loop is modelled over `ℕ`. -/
def fromNumber (n : ℤ) : BigInteger :=
  ⟨toDigitsF n.natAbs n.natAbs, decide (n < 0), some (intToChars n)⟩

/-- `BigInteger.ZERO` (the no-argument constructor). -/
def jsZERO : BigInteger := ⟨[], false, some ['0']⟩

/-- `BigInteger.ONE`. -/
def jsONE : BigInteger := fromNumber 1

/-- `BigInteger.TWO`. -/
def jsTWO : BigInteger := fromNumber 2

/-- `BigInteger.THREE`. -/
def jsTHREE : BigInteger := fromNumber 3

/-- `BigInteger.BASE_AS_BIGINTEGER`. -/
def jsBASE_BIG : BigInteger := fromNumber 1000000

/-- `BigInteger.MAX_NATIVE` (`2^53`). -/
def jsMAX_NATIVE : BigInteger := fromNumber 9007199254740992

/-- `isZero`: the digit array is empty. -/
def BigInteger.isZero (x : BigInteger) : Bool := x.digits.isEmpty

/-- `isEven`: zero is even, else the least-significant digit is even
(JavaScript `%` is `Int.tmod`). -/
def BigInteger.isEven (x : BigInteger) : Bool :=
  if x.digits.isEmpty then true else Int.tmod (x.digits.headD 0) 2 = 0

/-- `abs`: same digit array, sign `false`; the digit-array constructor stores
`null` as `numberString`. -/
def BigInteger.abs (x : BigInteger) : BigInteger := ⟨x.digits, false, none⟩

/-- `negate`: same digit array, opposite sign. -/
def BigInteger.negate (x : BigInteger) : BigInteger := ⟨x.digits, !x.negative, none⟩

/-- Most-significant-first digit comparison (the loop from index
`length - 1` down to `0`); both lists have equal length at every call site. -/
def cmpDigitsTop : List ℤ → List ℤ → ℤ
  | a :: as, b :: bs => if a < b then -1 else if b < a then 1 else cmpDigitsTop as bs
  | _, _ => 0

/-- `compare`: `0` for two zeros, then sign, then length, then digits from the
most significant end.  The source's negative-branch loops return the exact
negation of the positive-branch loops, folded here into one negation. -/
def BigInteger.compare (x y : BigInteger) : ℤ :=
  if x.digits.isEmpty ∧ y.digits.isEmpty then 0
  else if x.negative ∧ ¬y.negative then -1
  else if ¬x.negative ∧ y.negative then 1
  else
    let mag : ℤ :=
      if y.digits.length < x.digits.length then 1
      else if x.digits.length < y.digits.length then -1
      else cmpDigitsTop x.digits.reverse y.digits.reverse
    if x.negative then -mag else mag

/-- `equals`. -/
def BigInteger.equals (x y : BigInteger) : Bool := x.compare y = 0

/-- Carry propagation once one operand of long addition is exhausted, plus the
final carry digit (appended only when non-zero).  All JavaScript values here
are integers of magnitude below `2 ^ 53`, where binary64 `+`, `%` and
`Math.floor(/)` are exact; `%` is `Int.tmod` and `Math.floor(/)` is
`Int.fdiv`, also on the negative digits the complement-subtraction bug can
produce. -/
def addTail : List ℤ → ℤ → List ℤ
  | [], c => if c = 0 then [] else [c]
  | d :: ds, c => Int.tmod (d + c) BASE :: addTail ds (Int.fdiv (d + c) BASE)

/-- The digit loop of `longAddition`. -/
def addAux : List ℤ → List ℤ → ℤ → List ℤ
  | [], bs, c => addTail bs c
  | as, [], c => addTail as c
  | a :: as, b :: bs, c =>
    Int.tmod (a + b + c) BASE :: addAux as bs (Int.fdiv (a + b + c) BASE)

/-- `longAddition`: digit-wise addition with carry, sign `false`. -/
def longAddition (first second : BigInteger) : BigInteger :=
  ⟨addAux first.digits second.digits 0, false, none⟩

/-- `subtractionByComplement minuend subtrahend` (both arguments are `.abs()`
results, sign `false`; the minuend is at least the subtrahend whenever the
inputs are canonical, as the callers dispatch on `compare`).  The complement
has exactly the subtrahend's length; after adding it and one, the source
decrements the digit at the position just past the subtrahend — without any
borrow, which is the source of the negative-digit bug.  The two `add` calls
always reach `add`'s long-addition branch (the second operand is checked
non-zero and both signs are `false`), inlined here.  When the decremented
index is out of range JavaScript would store `NaN` in a hole; that requires a
minuend below the subtrahend and never arises below (`List.set` is the
identity there). -/
def subtractionByComplement (minuend subtrahend : BigInteger) : BigInteger :=
  let complement : List ℤ := subtrahend.digits.map (fun d => BASE - 1 - d)
  let r1 : BigInteger :=
    if complement.isEmpty then minuend else longAddition minuend ⟨complement, false, none⟩
  let r2 : BigInteger := longAddition r1 jsONE
  let d3 : List ℤ :=
    r2.digits.set complement.length ((r2.digits.getD complement.length 0) - 1)
  ⟨stripLeadingZeroDigits d3, false, none⟩

/-- The equal-sign branch of `add`, used by `subtract` for opposite-sign
operands as `this.add(other.negate())` (the operand is checked non-zero
before the call, and negating it makes the signs equal). -/
def addSameSign (x y : BigInteger) : BigInteger :=
  if x.negative then { longAddition x y with negative := true } else longAddition x y

/-- `subtract`: zero check, opposite signs to addition, same signs to
complement subtraction with the magnitudes ordered by `compare` and the
result's sign fixed accordingly. -/
def BigInteger.subtract (x y : BigInteger) : BigInteger :=
  if y.digits.isEmpty then x
  else if x.negative ≠ y.negative then addSameSign x y.negate
  else if x.negative then
    if x.compare y < 0 then { subtractionByComplement x.abs y.abs with negative := true }
    else { subtractionByComplement y.abs x.abs with negative := false }
  else
    if 0 ≤ x.compare y then { subtractionByComplement x.abs y.abs with negative := false }
    else { subtractionByComplement y.abs x.abs with negative := true }

/-- `add`: zero check, same-sign long addition, opposite signs to
subtraction of the absolute value. -/
def BigInteger.add (x y : BigInteger) : BigInteger :=
  if y.digits.isEmpty then x
  else if x.negative ∧ y.negative then { longAddition x y with negative := true }
  else if ¬x.negative ∧ ¬y.negative then longAddition x y
  else if x.negative then y.subtract x.abs
  else x.subtract y.abs

/-- The digit loop of `multiplyOneDigit`: `digit * d + carry` stays below
`BASE ^ 2 + BASE < 2 ^ 53`, where binary64 arithmetic is exact
(`Math.floor` applied to the integral `%` result is the identity). -/
def mulDigitAux : List ℤ → ℤ → ℤ → List ℤ
  | [], _, c => if c = 0 then [] else [c]
  | d :: ds, g, c => Int.tmod (g * d + c) BASE :: mulDigitAux ds g (Int.fdiv (g * d + c) BASE)

/-- `multiplyOneDigit number digit magnitude`: multiply by a single digit and
shift by `magnitude` zero digits; the trailing carry slot is kept only when
the carry is non-zero.  The source passes no sign to the constructor
(JavaScript `undefined`, falsy, modelled `false`). -/
def multiplyOneDigit (number : BigInteger) (digit : ℤ) (magnitude : ℕ) : BigInteger :=
  ⟨List.replicate magnitude 0 ++ mulDigitAux number.digits digit 0, false, none⟩

/-- `multiply`: accumulate single-digit products, then overwrite the sign with
the XOR of the operand signs — also on the shared `ZERO` accumulator when the
right operand is zero, which produces a negative zero. -/
def BigInteger.multiply (x y : BigInteger) : BigInteger :=
  let result := (List.range y.digits.length).foldl
    (fun acc i => acc.add (multiplyOneDigit x (y.digits.getD i 0) i)) jsZERO
  { result with negative := xor x.negative y.negative }

/-- The exceptions the source throws, by their message strings:
`divisionByZero` = "Division by zero." (in `divideByNativeNumber`),
`modulusZero` = "Modulus cannot be zero." (in `modulo`),
`valueTooLarge` = "Value is to large to be represented by a Number."
(in `toNumber`), `negativeExponent` = "Negative exponent." (in `modPow`),
`invalidBase` = "Base not in acceptable range of [2, 36]" (in `toString`),
`invalidWitnessCount` = "Number of witness loops must be a positive integer."
(in `isPrime`). -/
inductive JsError where
  | divisionByZero
  | modulusZero
  | valueTooLarge
  | negativeExponent
  | invalidBase
  | invalidWitnessCount
deriving DecidableEq

/-- Outcome of running a piece of the source: a value, a thrown exception, an
infinite loop (`diverge`), a digit array containing undefined entries
(`holey`), or exhaustion of the model's fuel (`fuelOut`, an artifact of the
fuel-bounded loop model — never treated as an answer by any theorem). -/
inductive JRes (α : Type) where
  | ok (a : α)
  | err (e : JsError)
  | diverge
  | holey
  | fuelOut
deriving DecidableEq

/-- Sequencing: exceptions and the other non-value outcomes propagate. -/
def JRes.bind {α β : Type} : JRes α → (α → JRes β) → JRes β
  | ok a, f => f a
  | err e, _ => err e
  | diverge, _ => diverge
  | holey, _ => holey
  | fuelOut, _ => fuelOut

/-- `toNumber`: throws when the magnitude exceeds `MAX_NATIVE`; within the
guard the summation loop `value += digits[i] * multiplier` is exact in
binary64 (each partial sum is an integer of magnitude at most `2^53` for
in-range digits), so the result is the denoted value. -/
def BigInteger.toNumber (x : BigInteger) : JRes ℤ :=
  if x.abs.compare jsMAX_NATIVE > 0 then .err .valueTooLarge
  else .ok ((if x.negative then -1 else 1) * digitsVal x.digits)

/-- `firstTwoDigits`: the value of the two most-significant digits (zero for
an empty array, the single digit for a one-digit array).  The value is below
`BASE ^ 2 < 2 ^ 53`, exact in binary64. -/
def firstTwoDigits (number : BigInteger) : ℤ :=
  if number.digits.length = 0 then 0
  else
    let part := number.digits.getD (number.digits.length - 1) 0
    if 1 < number.digits.length then
      part * BASE + number.digits.getD (number.digits.length - 2) 0
    else part

/-- `trialDigit`: the estimated quotient digit.  The three-digit adjustment
divides by `BASE`, producing non-integral doubles; every operation is rounded
with `roundQ` exactly as the hardware rounds it. -/
def trialDigit (dividend : BigInteger) (firstTwoDivisorDigits : ℤ) (useThreeDigits : Bool) : ℤ :=
  let ftDividend : ℚ := ((firstTwoDigits dividend : ℤ) : ℚ)
  let pair : ℚ × ℚ :=
    if useThreeDigits ∧ 2 < dividend.digits.length then
      (roundQ (qdiv ((firstTwoDivisorDigits : ℤ) : ℚ) ((BASE : ℤ) : ℚ)),
       roundQ (qadd ftDividend (roundQ (qdiv
         ((dividend.digits.getD (dividend.digits.length - 3) 0 : ℤ) : ℚ) ((BASE : ℤ) : ℚ)))))
    else (((firstTwoDivisorDigits : ℤ) : ℚ), ftDividend)
  qfloor (roundQ (qdiv pair.2 pair.1))

/-- The digit loop of `divideByNativeNumber`, most-significant digit first:
`result = BASE * carry + digit` (each operation binary64-rounded — for
divisors above `BASE ^ 2 / BASE` these products exceed `2 ^ 53` and the
rounding is lossy), quotient digit `Math.floor(result / number)` (rounded
division, then floor), carry `result % number` (`fmod` is exact: the true
remainder of the rounded operands).  Returns the little-endian quotient
digits and the final carry. -/
def divNativeAux : List ℤ → ℤ → ℚ → List ℤ × ℚ
  | [], _, c => ([], c)
  | d :: ds, n, c =>
    let r : ℚ := roundQ (qadd (roundQ (qmul ((BASE : ℤ) : ℚ) c)) ((d : ℤ) : ℚ))
    let q : ℤ := qfloor (roundQ (qdiv r ((n : ℤ) : ℚ)))
    let c2 : ℚ := qsub r (qmul ((n : ℤ) : ℚ) ((qfloor (qdiv r ((n : ℤ) : ℚ)) : ℤ) : ℚ))
    let rest := divNativeAux ds n c2
    (rest.1 ++ [q], rest.2)

/-- `divideByNativeNumber`: throws on a zero divisor, else runs the digit
loop on the absolute divisor, attaches the XOR sign and strips leading
zeros.  (Its comment requires `number < BASE ^ 2`; `divide` calls it for any
divisor below `2 ^ 53`.) -/
def divideByNativeNumber (bigIntegerDividend : BigInteger) (number : ℤ) : JRes BigInteger :=
  if number = 0 then .err .divisionByZero
  else
    let numNeg : Bool := decide (number < 0)
    let qs := (divNativeAux bigIntegerDividend.digits.reverse |number| 0).1
    .ok ⟨stripLeadingZeroDigits qs, xor bigIntegerDividend.negative numNeg, none⟩

/-- One-digit-at-a-time modulo for divisors below `BASE` (the carry stays
below the divisor, so `carry * BASE + digit < BASE ^ 2 < 2 ^ 53` is exact;
JavaScript `%` is `Int.tmod`, also for a negative divisor). -/
def smallModAux : List ℤ → ℤ → ℤ → ℤ
  | [], _, c => c
  | d :: ds, m, c => smallModAux ds m (Int.tmod (c * BASE + d) m)

/-- The general long-division loop shared by `divide` (which records quotient
digits) and `modulo`.  This is `divide`'s loop: trial digit, product, at most
one decrement when the product exceeds the working dividend, skip on a zero
digit, else subtract and record the digit at `pos` (later writes win).  The
fuel only bounds the number of iterations of the model. -/
def divideLoop (divisor : BigInteger) (ftv : ℤ) :
    ℕ → BigInteger → ℤ → Bool → List (ℤ × ℤ) → JRes (List (ℤ × ℤ))
  | 0, _, _, _, _ => .fuelOut
  | fuel + 1, dividend, pos, flag, assigns =>
    if pos < 0 then .ok assigns
    else
      let qt0 := trialDigit dividend ftv flag
      let corr : Bool := (multiplyOneDigit divisor qt0 pos.toNat).compare dividend > 0
      let qt := if corr then qt0 - 1 else qt0
      let product := multiplyOneDigit divisor qt pos.toNat
      if qt = 0 then divideLoop divisor ftv fuel dividend (pos - 1) true assigns
      else
        let dividend2 := dividend.subtract product
        let assigns2 := (pos, qt) :: assigns
        let pos2 : ℤ := (dividend2.digits.length : ℤ) - (divisor.digits.length : ℤ)
        if 0 ≤ pos2 ∧ firstTwoDigits dividend2 < ftv then
          divideLoop divisor ftv fuel dividend2 (pos2 - 1) true assigns2
        else
          divideLoop divisor ftv fuel dividend2 pos2 false assigns2

/-- Assemble the quotient array of length `n` from the recorded digit writes
(first match = last write).  `none` when some entry was never written — a
hole holding `undefined` in the JavaScript array. -/
def assembleQuotient (n : ℕ) (assigns : List (ℤ × ℤ)) : Option (List ℤ) :=
  if (List.range n).all (fun i => (assigns.find? (fun p => p.1 = (i : ℤ))).isSome) then
    some ((List.range n).map
      (fun i => ((assigns.find? (fun p => p.1 = (i : ℤ))).map Prod.snd).getD 0))
  else none

/-- `divide`: quotient-zero fast path, native fast path for dividends below
`MAX_NATIVE` (where `toNumber` cannot throw: `|y| ≤ |x| < 2^53`; JavaScript
divides the signed doubles, takes `Math.abs` then `Math.floor`, equal to
flooring the rounded quotient of the magnitudes since rounding is
sign-symmetric; a zero divisor gives `NaN` for a zero dividend — the
constructor then builds a zero with cached string "NaN" — and `±Infinity`
otherwise, on which the constructor's digit loop never terminates),
`divideByNativeNumber` for divisors below `MAX_NATIVE`, else the general
loop.  The general path's quotient array is not stripped; unwritten entries
make the result `holey`. -/
def BigInteger.divide (x y : BigInteger) (fuel : ℕ) : JRes BigInteger :=
  let dividend := x.abs
  let divisor := y.abs
  if dividend.compare divisor < 0 then .ok jsZERO
  else if dividend.compare jsMAX_NATIVE < 0 then
    x.toNumber.bind fun aN =>
    y.toNumber.bind fun bN =>
    if bN = 0 then
      if aN = 0 then .ok ⟨[], false, some ['N', 'a', 'N']⟩ else .diverge
    else
      let negativeMultiplier : ℤ := if xor x.negative y.negative then -1 else 1
      .ok (fromNumber (negativeMultiplier *
        qfloor (roundQ (qdiv ((aN.natAbs : ℤ) : ℚ) ((bN.natAbs : ℤ) : ℚ)))))
  else if divisor.compare jsMAX_NATIVE < 0 then
    y.toNumber.bind fun bN => divideByNativeNumber x bN
  else
    let ftv := firstTwoDigits divisor
    let pos0 : ℤ := (dividend.digits.length : ℤ) - (divisor.digits.length : ℤ)
    let start : ℤ × Bool :=
      if firstTwoDigits dividend < ftv then (pos0 - 1, true) else (pos0, false)
    (divideLoop divisor ftv fuel dividend start.1 start.2 []).bind fun assigns =>
    match assembleQuotient (start.1 + 1).toNat assigns with
    | some qdigits => .ok ⟨qdigits, xor x.negative y.negative, none⟩
    | none => .holey

/-- `modulo`'s general loop: identical to `divideLoop` but records nothing
and returns the final working dividend. -/
def moduloLoop (divisor : BigInteger) (ftv : ℤ) :
    ℕ → BigInteger → ℤ → Bool → JRes BigInteger
  | 0, _, _, _ => .fuelOut
  | fuel + 1, dividend, pos, flag =>
    if pos < 0 then .ok dividend
    else
      let qt0 := trialDigit dividend ftv flag
      let corr : Bool := (multiplyOneDigit divisor qt0 pos.toNat).compare dividend > 0
      let qt := if corr then qt0 - 1 else qt0
      let product := multiplyOneDigit divisor qt pos.toNat
      if qt = 0 then moduloLoop divisor ftv fuel dividend (pos - 1) true
      else
        let dividend2 := dividend.subtract product
        let pos2 : ℤ := (dividend2.digits.length : ℤ) - (divisor.digits.length : ℤ)
        if 0 ≤ pos2 ∧ firstTwoDigits dividend2 < ftv then
          moduloLoop divisor ftv fuel dividend2 (pos2 - 1) true
        else
          moduloLoop divisor ftv fuel dividend2 pos2 false

/-- `modulo`: throws on a zero modulus; dividend-below-divisor fast path;
native path for dividends below `MAX_NATIVE`
(`Math.floor(Math.abs(aN % bN))`: `fmod` is exact and follows the dividend's
sign, so this is the magnitude remainder `|aN| tmod |bN|`); the single-digit
loop for divisors below `BASE`; else the general loop on the absolute
values.  The result is always non-negative. -/
def BigInteger.modulo (x y : BigInteger) (fuel : ℕ) : JRes BigInteger :=
  if y.digits.isEmpty then .err .modulusZero
  else
    let dividend := x.abs
    let divisor := y.abs
    if dividend.compare divisor < 0 then .ok dividend
    else if dividend.compare jsMAX_NATIVE < 0 then
      x.toNumber.bind fun aN =>
      y.toNumber.bind fun bN =>
      .ok (fromNumber ((Int.tmod aN bN).natAbs))
    else if divisor.compare jsBASE_BIG < 0 then
      y.toNumber.bind fun m =>
      .ok (fromNumber (smallModAux x.digits.reverse m 0))
    else
      let ftv := firstTwoDigits divisor
      let pos0 : ℤ := (dividend.digits.length : ℤ) - (divisor.digits.length : ℤ)
      let start : ℤ × Bool :=
        if firstTwoDigits dividend < ftv then (pos0 - 1, true) else (pos0, false)
      moduloLoop divisor ftv fuel dividend start.1 start.2

/-- The square-and-multiply loop of `modPow` (`fuel0` is handed to the inner
`divide`/`modulo` calls). -/
def modPowLoop (modulus : BigInteger) (fuel0 : ℕ) :
    ℕ → BigInteger → BigInteger → BigInteger → JRes BigInteger
  | 0, _, _, _ => .fuelOut
  | fuel + 1, result, base, exponent =>
    if exponent.compare jsZERO > 0 then
      if exponent.isEven then
        ((base.multiply base).modulo modulus fuel0).bind fun base2 =>
        (exponent.divide jsTWO fuel0).bind fun exp2 =>
        modPowLoop modulus fuel0 fuel result base2 exp2
      else
        ((result.multiply base).modulo modulus fuel0).bind fun result2 =>
        modPowLoop modulus fuel0 fuel result2 base (exponent.subtract jsONE)
    else .ok result

/-- `modPow`: throws on a negative exponent, else runs the loop starting from
the `ONE` constant.  A zero exponent returns `ONE` unreduced. -/
def BigInteger.modPow (x exponent modulus : BigInteger) (fuel : ℕ) : JRes BigInteger :=
  if exponent.negative then .err .negativeExponent
  else modPowLoop modulus fuel fuel jsONE x exponent

/-- `BigInteger.random limit draws`: one draw per digit of the limit, the
most-significant digit first (`draws 0` is that first call; `draws (i + 1)`
is the draw for digit `i`).  Each `draws k` models
`Math.floor(Math.random() * numLim)`, a value in `[0, numLim)`; theorems
carry that range as a hypothesis.  Leading zeros are stripped. -/
def jsRandom (limit : BigInteger) (draws : ℕ → ℤ) : BigInteger :=
  let len := limit.digits.length
  let randDigits := (List.range len).map
    (fun i => if i = len - 1 then draws 0 else draws (i + 1))
  ⟨stripLeadingZeroDigits randDigits, false, none⟩

/-- The inner squaring loop of a Miller-Rabin witness: square modulo `n` up
to `count - 1` times; hitting `1` proves compositeness (witness fails),
hitting `n - 1` passes the witness; after the iterations the witness passes
exactly when `x = n - 1`. -/
def squaringLoop (n nSub1 : BigInteger) (fuel0 : ℕ) : ℕ → BigInteger → JRes Bool
  | 0, x => .ok (x.compare nSub1 = 0)
  | j + 1, x =>
    ((x.multiply x).modulo n fuel0).bind fun x2 =>
    if x2.compare jsONE = 0 then .ok false
    else if x2.compare nSub1 = 0 then .ok true
    else squaringLoop n nSub1 fuel0 j x2

/-- The witness loop of `isPrime`: `w` remaining witnesses, `i` the index of
the current one (`draws i` feeds its `BigInteger.random` call). -/
def witnessLoop (n nSub1 d : BigInteger) (count : ℕ) (draws : ℕ → ℕ → ℤ) (fuel0 : ℕ) :
    ℕ → ℕ → JRes Bool
  | 0, _ => .ok true
  | w + 1, i =>
    let a := (jsRandom (n.subtract jsTHREE) (draws i)).add jsTWO
    (a.modPow d n fuel0).bind fun x =>
    if x.compare jsONE = 0 ∨ x.compare nSub1 = 0 then
      witnessLoop n nSub1 d count draws fuel0 w (i + 1)
    else
      (squaringLoop n nSub1 fuel0 (count - 1) x).bind fun pass =>
      if pass then witnessLoop n nSub1 d count draws fuel0 w (i + 1) else .ok false

/-- Factor the powers of two out of `n - 1` (`d` halved while even). -/
def halveLoop (fuel0 : ℕ) : ℕ → BigInteger → ℕ → JRes (BigInteger × ℕ)
  | 0, _, _ => .fuelOut
  | f + 1, d, count =>
    if d.isEven then (d.divide jsTWO fuel0).bind fun d2 => halveLoop fuel0 f d2 (count + 1)
    else .ok (d, count)

/-- `isPrime`: validates the witness count, handles `n ≤ 3`, then the cheap
filter.  The source's divisible-by-three test is
`this.modulo(BigInteger.THREE) === 0` — strict equality between an object
and the number `0`, which is always `false` in JavaScript; the literal
`false` below models that dead test.  Then Miller-Rabin with `witnessLoops`
random witnesses (default 5). -/
def BigInteger.isPrime (x : BigInteger) (witnessLoops : Option ℤ) (draws : ℕ → ℕ → ℤ)
    (fuel : ℕ) : JRes Bool :=
  if (match witnessLoops with | some w => decide (w < 1) | none => false) then
    .err .invalidWitnessCount
  else if x.compare jsONE ≤ 0 then .ok false
  else if x.compare jsTHREE ≤ 0 then .ok true
  else if x.isEven || false || decide (Int.tmod (x.digits.headD 0) 5 = 0) then .ok false
  else
    let w := ((witnessLoops.getD 5).toNat)
    let nSub1 := x.subtract jsONE
    (halveLoop fuel fuel nSub1 0).bind fun dc =>
    witnessLoop x nSub1 dc.1 dc.2 draws fuel w 0

/-- The digit characters for bases above ten. -/
def upperAlphabet : List Char :=
  ['A', 'B', 'C', 'D', 'E', 'F', 'G', 'H', 'I', 'J', 'K', 'L', 'M',
   'N', 'O', 'P', 'Q', 'R', 'S', 'T', 'U', 'V', 'W', 'X', 'Y', 'Z']

/-- The digit-to-character helper inside `toString`: `digit.toString()` below
ten, else `charAt(digit - 10)` of the alphabet. -/
def digitCharJS (digit : ℤ) : Char :=
  if digit < 10 then (intToChars digit).headD '0'
  else upperAlphabet.getD (digit - 10).toNat 'A'

/-- Six-character zero-padded decimal form of a digit group:
`(digit + BASE).toString().substr(1)`. -/
def padTo6 (d : ℤ) : List Char := (intToChars (d + BASE)).drop 1

/-- The decimal string built from the digit array when no cached string
exists: the most-significant digit unpadded, the lower digit groups
six-character padded, a minus sign for negative values. -/
def decimalBuild (x : BigInteger) : List Char :=
  let low := (x.digits.take (x.digits.length - 1)).foldl (fun acc d => padTo6 d ++ acc) []
  (if x.negative then ['-'] else []) ++
    intToChars (x.digits.getD (x.digits.length - 1) 0) ++ low

/-- The repeated-division loop of `toString` for bases other than ten: the
next character is the remainder modulo the base, the value is divided by the
base, characters are prepended. -/
def toStringLoop (bigBase : BigInteger) (fuel0 : ℕ) : ℕ → BigInteger → List Char → JRes (List Char)
  | 0, cv, acc => if cv.isZero then .ok acc else .fuelOut
  | f + 1, cv, acc =>
    if cv.isZero then .ok acc
    else
      (cv.modulo bigBase fuel0).bind fun m =>
      m.toNumber.bind fun digit =>
      (cv.divide bigBase fuel0).bind fun cv2 =>
      toStringLoop bigBase fuel0 f cv2 (digitCharJS digit :: acc)

/-- `toString` with an explicit base argument (the claims use bases in
`[2, 36]`; in the source `null` throws and `undefined` takes the decimal
path).  Base ten returns the cached `numberString` when present, else builds
the decimal string from the digits; other bases run the division loop on the
signed value — which never prepends a minus sign. -/
def BigInteger.toString (x : BigInteger) (base : ℤ) (fuel : ℕ) : JRes (List Char) :=
  if base < 2 ∨ 36 < base then .err .invalidBase
  else if x.isZero then .ok ['0']
  else if base = 10 then
    match x.numberString with
    | some s => .ok s
    | none => .ok (decimalBuild x)
  else
    toStringLoop (fromNumber base) fuel fuel x []

/-- The character-value helper inside `valueOf`: decimal digits parse as
themselves; any other character is uppercased and looked up in the alphabet,
`indexOf` returning `-1` when absent, plus ten. -/
def charValJS (c : Char) : ℤ :=
  if '0' ≤ c ∧ c ≤ '9' then ((c.toNat - 48 : ℕ) : ℤ)
  else
    let i := upperAlphabet.indexOf c.toUpper
    (if i = upperAlphabet.length then -1 else (i : ℤ)) + 10

/-- The accumulation loop of `valueOf`, over the characters from the
least-significant end: non-zero digits contribute `digit * multiplier`, and
the multiplier is multiplied by the base every iteration. -/
def valueOfAux (bigBase : BigInteger) : List Char → BigInteger → BigInteger → BigInteger
  | [], result, _ => result
  | c :: cs, result, multiplier =>
    let bigDigit := fromNumber (charValJS c)
    let result2 := if bigDigit.isZero then result else result.add (bigDigit.multiply multiplier)
    valueOfAux bigBase cs result2 (multiplier.multiply bigBase)

/-- `BigInteger.valueOf(str, base)`: zero strings give the `ZERO` constant; a
leading minus sign sets the sign flag on the shared `ZERO` accumulator
(mutating the global constant in the source — modelled functionally), but
the first `add` replaces the accumulator and the sign is lost. -/
def valueOf (s : List Char) (base : ℤ) : BigInteger :=
  if representsZero s then jsZERO
  else
    match s with
    | '-' :: rest => valueOfAux (fromNumber base) rest.reverse { jsZERO with negative := true } jsONE
    | _ => valueOfAux (fromNumber base) s.reverse { jsZERO with negative := false } jsONE

theorem digitsVal_nonneg (ds : List ℤ) (h : ∀ d ∈ ds, 0 ≤ d) : 0 ≤ digitsVal ds := by
  induction ds with
  | nil => simp [digitsVal]
  | cons d ds ih =>
    have hd := h d (by simp)
    have hds := ih (fun e he => h e (by simp [he]))
    unfold digitsVal
    have : (0:ℤ) < BASE := by norm_num [BASE]
    nlinarith

theorem digitsVal_lt_pow (ds : List ℤ) (h : ∀ d ∈ ds, 0 ≤ d ∧ d < BASE) :
    digitsVal ds < BASE ^ ds.length := by
  induction ds with
  | nil => simp [digitsVal]
  | cons d ds ih =>
    have hd := h d (by simp)
    have hds := ih (fun e he => h e (by simp [he]))
    unfold digitsVal
    have hB : (0:ℤ) < BASE := by norm_num [BASE]
    have hlen : BASE ^ (d :: ds).length = BASE * BASE ^ ds.length := by
      rw [List.length_cons, pow_succ]
      ring
    rw [hlen]
    nlinarith

theorem digitsVal_append (ds es : List ℤ) :
    digitsVal (ds ++ es) = digitsVal ds + BASE ^ ds.length * digitsVal es := by
  induction ds with
  | nil => simp [digitsVal]
  | cons d ds ih =>
    simp only [List.cons_append, digitsVal, List.length_cons, pow_succ, List.append_eq]
    rw [ih]
    ring

theorem digitsVal_strip (ds : List ℤ) :
    digitsVal (stripLeadingZeroDigits ds) = digitsVal ds := by
  unfold stripLeadingZeroDigits
  induction ds using List.reverseRecOn with
  | nil => rfl
  | append_singleton ds d ih =>
    by_cases hd : d = 0
    · subst hd
      rw [List.reverse_append]
      simp only [List.reverse_singleton, List.singleton_append, List.dropWhile_cons]
      rw [if_pos (by decide)]
      rw [ih, digitsVal_append]
      simp [digitsVal]
    · rw [List.reverse_append]
      simp only [List.reverse_singleton, List.singleton_append, List.dropWhile_cons]
      rw [show (decide (d = 0)) = false by simp [hd]]
      simp

theorem digitsVal_last_ge (ds : List ℤ) (t : ℤ) (h : ∀ d ∈ ds, 0 ≤ d) :
    t * BASE ^ ds.length ≤ digitsVal (ds ++ [t]) := by
  rw [digitsVal_append]
  have h1 : digitsVal [t] = t := by simp [digitsVal]
  have h2 : 0 ≤ digitsVal ds := digitsVal_nonneg ds h
  rw [h1, mul_comm (BASE ^ ds.length) t]
  linarith

theorem cmpDigitsTop_spec (as : List ℤ) : ∀ bs : List ℤ, as.length = bs.length →
    (∀ d ∈ as, 0 ≤ d ∧ d < BASE) → (∀ d ∈ bs, 0 ≤ d ∧ d < BASE) →
    cmpDigitsTop as bs =
      (if digitsVal as.reverse < digitsVal bs.reverse then -1
       else if digitsVal bs.reverse < digitsVal as.reverse then 1 else 0) := by
  induction as with
  | nil =>
    intro bs hlen _ _
    have : bs = [] := by
      cases bs with
      | nil => rfl
      | cons b bs => simp at hlen
    subst this
    simp [cmpDigitsTop, digitsVal]
  | cons a as ih =>
    intro bs hlen ha hb
    cases bs with
    | nil => simp at hlen
    | cons b bs =>
      have hlen2 : as.length = bs.length := by simpa using hlen
      have haa := ha a (by simp)
      have hbb := hb b (by simp)
      have hva : digitsVal as.reverse < BASE ^ as.length := by
        have := digitsVal_lt_pow as.reverse (fun d hd => ha d (by simp at hd; simp [hd]))
        simpa using this
      have hvb : digitsVal bs.reverse < BASE ^ bs.length := by
        have := digitsVal_lt_pow bs.reverse (fun d hd => hb d (by simp at hd; simp [hd]))
        simpa using this
      have hva0 : 0 ≤ digitsVal as.reverse := by
        apply digitsVal_nonneg
        intro d hd
        simp at hd
        exact (ha d (by simp [hd])).1
      have hvb0 : 0 ≤ digitsVal bs.reverse := by
        apply digitsVal_nonneg
        intro d hd
        simp at hd
        exact (hb d (by simp [hd])).1
      rw [← hlen2] at hvb
      have hda : digitsVal (a :: as).reverse = digitsVal as.reverse + a * BASE ^ as.length := by
        simp only [List.reverse_cons]
        rw [digitsVal_append]
        simp [digitsVal]
        ring
      have hdb : digitsVal (b :: bs).reverse = digitsVal bs.reverse + b * BASE ^ bs.length := by
        simp only [List.reverse_cons]
        rw [digitsVal_append]
        simp [digitsVal]
        ring
      unfold cmpDigitsTop
      rw [hda, hdb, ← hlen2]
      by_cases hab : a < b
      · rw [if_pos hab]
        have hkey : digitsVal as.reverse + a * BASE ^ as.length <
            digitsVal bs.reverse + b * BASE ^ as.length := by
          have h1 : a + 1 ≤ b := by omega
          have hBp : (0:ℤ) ≤ BASE ^ as.length :=
            pow_nonneg (by norm_num [BASE]) _
          have h2 : (a + 1) * BASE ^ as.length ≤ b * BASE ^ as.length :=
            mul_le_mul_of_nonneg_right h1 hBp
          nlinarith
        rw [if_pos hkey]
      · rw [if_neg hab]
        by_cases hba : b < a
        · rw [if_pos hba]
          have hkey : digitsVal bs.reverse + b * BASE ^ as.length <
              digitsVal as.reverse + a * BASE ^ as.length := by
            have h1 : b + 1 ≤ a := by omega
            have hBp : (0:ℤ) ≤ BASE ^ as.length :=
              pow_nonneg (by norm_num [BASE]) _
            have h2 : (b + 1) * BASE ^ as.length ≤ a * BASE ^ as.length :=
              mul_le_mul_of_nonneg_right h1 hBp
            nlinarith
          rw [if_neg (by linarith), if_pos hkey]
        · have hab2 : a = b := by omega
          subst hab2
          rw [ih bs hlen2 (fun d hd => ha d (by simp [hd])) (fun d hd => hb d (by simp [hd]))]
          simp

theorem canonical_digitsVal_pos (ds : List ℤ) (hr : ∀ d ∈ ds, 0 ≤ d ∧ d < BASE)
    (hl : ds.getLast? ≠ some 0) (hne : ds ≠ []) :
    BASE ^ (ds.length - 1) ≤ digitsVal ds := by
  rcases List.eq_nil_or_concat ds with h | ⟨init, t, rfl⟩
  · exact absurd h hne
  · simp only [List.concat_eq_append] at hr hl ⊢
    have hts : (init ++ [t]).getLast? = some t := by simp
    have ht0 : t ≠ 0 := by
      intro h0
      apply hl
      rw [hts, h0]
    have ht1 : 1 ≤ t := by
      have := (hr t (by simp)).1
      omega
    have hge := digitsVal_last_ge init t (fun d hd => (hr d (by simp [hd])).1)
    have hlen : (init ++ [t]).length - 1 = init.length := by simp
    rw [hlen]
    have hp : (0:ℤ) < BASE ^ init.length := pow_pos (by norm_num [BASE]) _
    nlinarith

theorem digitsVal_lt_of_length_lt (as bs : List ℤ)
    (ha : ∀ d ∈ as, 0 ≤ d ∧ d < BASE) (hb : ∀ d ∈ bs, 0 ≤ d ∧ d < BASE)
    (hlb : bs.getLast? ≠ some 0) (hlen : as.length < bs.length) :
    digitsVal as < digitsVal bs := by
  have hbne : bs ≠ [] := by
    intro h
    subst h
    simp at hlen
  have h1 : digitsVal as < BASE ^ as.length := digitsVal_lt_pow as ha
  have h2 : BASE ^ (bs.length - 1) ≤ digitsVal bs := canonical_digitsVal_pos bs hb hlb hbne
  have h3 : BASE ^ as.length ≤ BASE ^ (bs.length - 1) :=
    pow_le_pow_right (by norm_num [BASE]) (by omega)
  linarith

theorem compare_val (x y : BigInteger) (hx : Canonical x) (hy : Canonical y) :
    x.compare y = if val x < val y then -1 else if val y < val x then 1 else 0 := by
  obtain ⟨hxr, hxl, hxz⟩ := hx
  obtain ⟨hyr, hyl, hyz⟩ := hy
  have hdx0 : 0 ≤ digitsVal x.digits := digitsVal_nonneg _ (fun d hd => (hxr d hd).1)
  have hdy0 : 0 ≤ digitsVal y.digits := digitsVal_nonneg _ (fun d hd => (hyr d hd).1)
  have hposx : x.digits ≠ [] → 0 < digitsVal x.digits := by
    intro hne
    have h1 := canonical_digitsVal_pos x.digits hxr hxl hne
    have h2 : (0:ℤ) < BASE ^ (x.digits.length - 1) := pow_pos (by norm_num [BASE]) _
    linarith
  have hposy : y.digits ≠ [] → 0 < digitsVal y.digits := by
    intro hne
    have h1 := canonical_digitsVal_pos y.digits hyr hyl hne
    have h2 : (0:ℤ) < BASE ^ (y.digits.length - 1) := pow_pos (by norm_num [BASE]) _
    linarith
  by_cases hex : x.digits = []
  · by_cases hey : y.digits = []
    · have hnx : x.negative = false := hxz hex
      have hny : y.negative = false := hyz hey
      simp [BigInteger.compare, hex, hey, val, hnx, hny, digitsVal]
    · have hnx : x.negative = false := hxz hex
      have hvx : val x = 0 := by simp [val, hex, digitsVal]
      have hpy := hposy hey
      cases hy1 : y.negative with
      | true =>
        have hvy : val y = -digitsVal y.digits := by simp [val, hy1]
        have hcl : x.compare y = 1 := by
          simp [BigInteger.compare, hnx, hy1, List.isEmpty_iff, hey]
        rw [hcl, hvx, hvy, if_neg (by linarith), if_pos (by linarith)]
      | false =>
        have hvy : val y = digitsVal y.digits := by simp [val, hy1]
        have hcl : x.compare y = -1 := by
          have hlen : x.digits.length < y.digits.length := by
            rw [hex]
            simp [List.length_pos, hey]
          simp [BigInteger.compare, hnx, hy1, List.isEmpty_iff, hey, hlen,
            Nat.not_lt.mpr (Nat.le_of_lt hlen)]
        rw [hcl, hvx, hvy, if_pos (by linarith)]
  · by_cases hey : y.digits = []
    · have hny : y.negative = false := hyz hey
      have hvy : val y = 0 := by simp [val, hey, digitsVal]
      have hpx := hposx hex
      cases hx1 : x.negative with
      | true =>
        have hvx : val x = -digitsVal x.digits := by simp [val, hx1]
        have hcl : x.compare y = -1 := by
          simp [BigInteger.compare, hx1, hny, List.isEmpty_iff, hex]
        rw [hcl, hvx, hvy, if_pos (by linarith)]
      | false =>
        have hvx : val x = digitsVal x.digits := by simp [val, hx1]
        have hcl : x.compare y = 1 := by
          have hlen : y.digits.length < x.digits.length := by
            rw [hey]
            simp [List.length_pos, hex]
          simp [BigInteger.compare, hx1, hny, List.isEmpty_iff, hex, hlen]
        rw [hcl, hvx, hvy, if_neg (by linarith), if_pos (by linarith)]
    · have hpx := hposx hex
      have hpy := hposy hey
      have hmag : (if y.digits.length < x.digits.length then (1:ℤ)
          else if x.digits.length < y.digits.length then -1
          else cmpDigitsTop x.digits.reverse y.digits.reverse) =
          (if digitsVal x.digits < digitsVal y.digits then -1
           else if digitsVal y.digits < digitsVal x.digits then 1 else 0) := by
        rcases lt_trichotomy x.digits.length y.digits.length with hl | hl | hl
        · have hv := digitsVal_lt_of_length_lt x.digits y.digits hxr hyr hyl hl
          rw [if_neg (by omega), if_pos hl, if_pos hv]
        · have hspec := cmpDigitsTop_spec x.digits.reverse y.digits.reverse
            (by simp [hl])
            (fun d hd => hxr d (by simpa using hd))
            (fun d hd => hyr d (by simpa using hd))
          simp only [List.reverse_reverse] at hspec
          rw [if_neg (by omega), if_neg (by omega), hspec]
        · have hv := digitsVal_lt_of_length_lt y.digits x.digits hyr hxr hxl hl
          rw [if_pos hl,
            if_neg (show ¬ digitsVal x.digits < digitsVal y.digits by omega),
            if_pos hv]
      cases hx1 : x.negative with
      | true =>
        cases hy1 : y.negative with
        | true =>
          have hvx : val x = -digitsVal x.digits := by simp [val, hx1]
          have hvy : val y = -digitsVal y.digits := by simp [val, hy1]
          have hcl : x.compare y =
              -(if y.digits.length < x.digits.length then (1:ℤ)
                else if x.digits.length < y.digits.length then -1
                else cmpDigitsTop x.digits.reverse y.digits.reverse) := by
            simp [BigInteger.compare, hx1, hy1, List.isEmpty_iff, hex]
          rw [hcl, hmag, hvx, hvy]
          rcases lt_trichotomy (digitsVal x.digits) (digitsVal y.digits) with hv | hv | hv
          · rw [if_pos hv,
              if_neg (show ¬ -digitsVal x.digits < -digitsVal y.digits by omega),
              if_pos (show -digitsVal y.digits < -digitsVal x.digits by omega)]
            norm_num
          · rw [hv]
            simp
          · rw [if_neg (show ¬ digitsVal x.digits < digitsVal y.digits by omega),
              if_pos hv,
              if_pos (show -digitsVal x.digits < -digitsVal y.digits by omega)]
        | false =>
          have hvx : val x = -digitsVal x.digits := by simp [val, hx1]
          have hvy : val y = digitsVal y.digits := by simp [val, hy1]
          have hcl : x.compare y = -1 := by
            simp [BigInteger.compare, hx1, hy1, List.isEmpty_iff, hex]
          rw [hcl, hvx, hvy, if_pos (by linarith)]
      | false =>
        cases hy1 : y.negative with
        | true =>
          have hvx : val x = digitsVal x.digits := by simp [val, hx1]
          have hvy : val y = -digitsVal y.digits := by simp [val, hy1]
          have hcl : x.compare y = 1 := by
            simp [BigInteger.compare, hx1, hy1, List.isEmpty_iff, hex]
          rw [hcl, hvx, hvy, if_neg (by linarith), if_pos (by linarith)]
        | false =>
          have hvx : val x = digitsVal x.digits := by simp [val, hx1]
          have hvy : val y = digitsVal y.digits := by simp [val, hy1]
          have hcl : x.compare y =
              (if y.digits.length < x.digits.length then (1:ℤ)
               else if x.digits.length < y.digits.length then -1
               else cmpDigitsTop x.digits.reverse y.digits.reverse) := by
            simp [BigInteger.compare, hx1, hy1, List.isEmpty_iff, hex]
          rw [hcl, hmag, hvx, hvy]

theorem equals_iff_val (x y : BigInteger) (hx : Canonical x) (hy : Canonical y) :
    (x.equals y = true) ↔ val x = val y := by
  simp only [BigInteger.equals, decide_eq_true_eq]
  rw [compare_val x y hx hy]
  rcases lt_trichotomy (val x) (val y) with h | h | h
  · rw [if_pos h]
    constructor
    · intro hc
      exact absurd hc (by norm_num)
    · intro hc
      omega
  · rw [if_neg (by omega), if_neg (by omega)]
    simp [h]
  · rw [if_neg (by omega), if_pos h]
    constructor
    · intro hc
      exact absurd hc (by norm_num)
    · intro hc
      omega

theorem canonical_abs (x : BigInteger) (hx : Canonical x) : Canonical x.abs := by
  obtain ⟨h1, h2, _⟩ := hx
  exact ⟨h1, h2, fun _ => rfl⟩

theorem val_abs (x : BigInteger) (hx : Canonical x) : val x.abs = |val x| := by
  obtain ⟨h1, _, _⟩ := hx
  have h0 : 0 ≤ digitsVal x.digits := digitsVal_nonneg _ (fun d hd => (h1 d hd).1)
  cases hx1 : x.negative <;>
    simp [val, BigInteger.abs, hx1, abs_neg, abs_of_nonneg h0]

theorem toNumber_ok (x : BigInteger) (hx : Canonical x) (h : |val x| ≤ 2 ^ 53) :
    x.toNumber = .ok (val x) := by
  have hcm : Canonical jsMAX_NATIVE := by decide
  have hvm : val jsMAX_NATIVE = 2 ^ 53 := by decide
  unfold BigInteger.toNumber
  rw [compare_val x.abs jsMAX_NATIVE (canonical_abs x hx) hcm, val_abs x hx, hvm]
  rcases (by omega : |val x| < 2 ^ 53 ∨ |val x| = 2 ^ 53) with h1 | h1
  · rw [if_pos h1, if_neg (show ¬ ((-1:ℤ) > 0) by norm_num)]
    rfl
  · rw [if_neg (show ¬ |val x| < 2 ^ 53 by omega),
      if_neg (show ¬ (2:ℤ) ^ 53 < |val x| by omega),
      if_neg (show ¬ ((0:ℤ) > 0) by norm_num)]
    rfl

theorem digits_nil_of_val_zero (x : BigInteger) (hx : Canonical x) (h : val x = 0) :
    x.digits = [] := by
  obtain ⟨h1, h2, _⟩ := hx
  by_contra hne
  have hpos := canonical_digitsVal_pos x.digits h1 h2 hne
  have hp : (0:ℤ) < BASE ^ (x.digits.length - 1) := pow_pos (by norm_num [BASE]) _
  have hdv : digitsVal x.digits = 0 ∨ digitsVal x.digits = -0 := by
    unfold val at h
    cases hx1 : x.negative <;> rw [hx1] at h <;> simp at h <;> omega
  omega

/-- C10: `modPow` with a zero exponent immediately returns the `ONE` constant
without reducing it modulo the modulus; when the modulus denotes `1` the
returned value `1` is not in `[0, 1)`. -/
theorem c10_modPow_zero_exponent (a m : BigInteger) (fuel : ℕ) (hf : 1 ≤ fuel) :
    a.modPow jsZERO m fuel = .ok jsONE ∧ val jsONE = 1 ∧
      (val m = 1 → ¬ val jsONE < val m) := by
  obtain ⟨f, rfl⟩ : ∃ f, fuel = f + 1 := ⟨fuel - 1, by omega⟩
  refine ⟨?_, by decide, ?_⟩
  · show BigInteger.modPow a jsZERO m (f + 1) = .ok jsONE
    unfold BigInteger.modPow
    rw [if_neg (show ¬ (jsZERO.negative = true) by decide)]
    simp only [modPowLoop]
    rw [if_neg (show ¬ (jsZERO.compare jsZERO > 0) by decide)]
  · intro hm
    have h1 : val jsONE = 1 := by decide
    omega

theorem c10_modPow_zero_exponent_witness :
    (fromNumber 7).modPow jsZERO (fromNumber 1) 5 = .ok jsONE ∧ val jsONE = 1 ∧
      (val (fromNumber 1) = 1 → ¬ val jsONE < val (fromNumber 1)) :=
  c10_modPow_zero_exponent (fromNumber 7) (fromNumber 1) 5 (by norm_num)

/-- C3: the add/subtract round-trip fails at `a = 4999999999999`, `b = 1`:
`a.add(b)` is `5 * 10^12` and subtracting `1` by complement leaves the
non-canonical digit array `[999999, -1, 5]`, which `equals` reports as
different from `a`. -/
theorem c3_roundtrip_fails :
    ((fromNumber 4999999999999).add jsONE).subtract jsONE =
        ⟨[999999, -1, 5], false, none⟩ ∧
      (((fromNumber 4999999999999).add jsONE).subtract jsONE).equals
        (fromNumber 4999999999999) = false := by
  refine ⟨by decide, by decide⟩

/-- C4: two violations of canonical form by public arithmetic: `subtract`
leaves the out-of-range digit `-1` in `5 * 10^12 - 1`, and `multiply` of `-1`
by the `ZERO` constant returns a negative zero (empty digits, sign `true`). -/
theorem c4_canonical_violations :
    ¬ Canonical ((fromNumber 5000000000000).subtract jsONE) ∧
      (fromNumber (-1)).multiply jsZERO = ⟨[], true, some ['0']⟩ ∧
      ¬ Canonical ((fromNumber (-1)).multiply jsZERO) := by
  refine ⟨by decide, by decide, by decide⟩

/-- C6: `561 = 3 * 11 * 17` is divisible by 3 yet `isPrime` returns `true`
when every witness draw is `48` (Miller-Rabin base `50`): the source's
divisibility-by-3 test compares a `BigInteger` object to the number `0` with
`===`, which is always false.  The draw `48` is valid: it lies in
`[0, 558)` for the `random(n - 3)` call. -/
theorem c6_isPrime_misses_multiple_of_3 :
    val (fromNumber 561) = 561 ∧ Int.tmod 561 3 = 0 ∧
      val ((fromNumber 561).subtract jsTHREE) = 558 ∧
      ((0:ℤ) ≤ 48 ∧ (48:ℤ) < 558) ∧
      (fromNumber 561).isPrime none (fun _ _ => 48) 60 = .ok true := by
  refine ⟨by decide, by decide, by decide, by decide, by decide⟩

/-- C1: at `a = 864691128455134977000000`, `b = 9007199254740991` the
division contract fails: `modulo` returns the correct remainder in
`[0, |b|)`, but `divide` returns `96999999` where the true quotient is
`95999999` (the divisor exceeds the `BASE^2` bound `divideByNativeNumber`'s
documentation assumes, and binary64 rounding of `BASE * carry + digit`
corrupts a quotient digit), so `|a| = |b| * |q| + r` fails. -/
theorem c1_division_contract_fails :
    ∃ q r : BigInteger,
      (⟨[0, 134977, 128455, 864691], false, none⟩ : BigInteger).divide
          ⟨[740991, 199254, 9007], false, none⟩ 20 = .ok q ∧
      (⟨[0, 134977, 128455, 864691], false, none⟩ : BigInteger).modulo
          ⟨[740991, 199254, 9007], false, none⟩ 20 = .ok r ∧
      0 ≤ val r ∧
      val r < |val (⟨[740991, 199254, 9007], false, none⟩ : BigInteger)| ∧
      val (⟨[0, 134977, 128455, 864691], false, none⟩ : BigInteger) /
          val (⟨[740991, 199254, 9007], false, none⟩ : BigInteger) = 95999999 ∧
      val q = 96999999 ∧
      |val (⟨[0, 134977, 128455, 864691], false, none⟩ : BigInteger)| ≠
        |val (⟨[740991, 199254, 9007], false, none⟩ : BigInteger)| * |val q| + val r := by
  refine ⟨⟨[999999, 96], false, none⟩, ⟨[740991, 199095, 9007], false, none⟩,
    by decide, by decide, by decide, by decide, by decide, by decide, by decide⟩

/-- C8: the string constructor never fails: the empty string is accepted and
yields canonical zero (with the empty string cached), not a
`MalformedInput` error. -/
theorem c8_empty_string_accepted :
    fromString [] = ⟨[], false, some []⟩ ∧ Canonical (fromString []) ∧
      val (fromString []) = 0 := by
  refine ⟨by decide, by decide, by decide⟩

/-- C8 (amended): construction from a decimal string strips one leading `-`
and never fails; a remainder that is empty or all `'0'` characters yields
canonical zero with sign `false`, even with the leading `-`. -/
theorem c8_amended_zero_strings (s rest : List Char)
    (h : (s = '-' :: rest ∧ representsZero rest = true) ∨
         (s = rest ∧ representsZero rest = true)) :
    fromString s = ⟨[], false, some s⟩ ∧ Canonical (fromString s) ∧
      val (fromString s) = 0 := by
  have hfs : fromString s = ⟨[], false, some s⟩ := by
    rcases h with ⟨rfl, hz⟩ | ⟨rfl, hz⟩
    · simp [fromString, hz]
    · cases s with
      | nil => rfl
      | cons c cs =>
        have hc : c = '0' := by
          simp [representsZero] at hz
          exact hz.1
        subst hc
        simp [fromString, hz]
  refine ⟨hfs, ?_, ?_⟩
  · rw [hfs]
    exact ⟨by simp, by simp, fun _ => rfl⟩
  · rw [hfs]
    rfl

theorem c8_amended_zero_strings_witness :
    fromString ['-', '0', '0'] = ⟨[], false, some ['-', '0', '0']⟩ ∧
      Canonical (fromString ['-', '0', '0']) ∧
      val (fromString ['-', '0', '0']) = 0 :=
  c8_amended_zero_strings ['-', '0', '0'] ['0', '0'] (Or.inl ⟨rfl, by decide⟩)

/-- C5: `divide` does not fail on a zero divisor when the dividend is also
zero: it returns a `NaN`-cached zero object instead of raising
division-by-zero. -/
theorem c5_divide_zero_no_error :
    jsZERO.divide jsZERO 10 = .ok ⟨[], false, some ['N', 'a', 'N']⟩ := by decide

/-- C5 (amended): `modulo` with a zero divisor always fails, but with the
distinct modulus-zero error; `divide` with a zero divisor fails (with the
division-by-zero raised inside `divideByNativeNumber`) only when the
dividend magnitude is at least `2^53`: a zero dividend returns a
`NaN`-cached zero object, and a dividend with `0 < |a| < 2^53` sends the
constructor into its non-terminating `Infinity` digit loop. -/
theorem c5_amended_zero_divisor (a : BigInteger) (fuel : ℕ) (ha : Canonical a) :
    a.modulo jsZERO fuel = .err .modulusZero ∧
      (val a = 0 → a.divide jsZERO fuel = .ok ⟨[], false, some ['N', 'a', 'N']⟩) ∧
      (val a ≠ 0 → |val a| < 2 ^ 53 → a.divide jsZERO fuel = .diverge) ∧
      (2 ^ 53 ≤ |val a| → a.divide jsZERO fuel = .err .divisionByZero) := by
  have hcab : Canonical a.abs := canonical_abs a ha
  have hcz : Canonical (BigInteger.abs jsZERO) := by decide
  have hvz : val (BigInteger.abs jsZERO) = 0 := by decide
  have hcm : Canonical jsMAX_NATIVE := by decide
  have hvm : val jsMAX_NATIVE = 2 ^ 53 := by decide
  have hvabs := val_abs a ha
  have habs0 : 0 ≤ |val a| := abs_nonneg _
  have htz : jsZERO.toNumber = .ok 0 := by decide
  refine ⟨?_, ?_, ?_, ?_⟩
  · simp [BigInteger.modulo, jsZERO]
  · intro h0
    have hd : a.digits = [] := digits_nil_of_val_zero a ha h0
    have hn : a.negative = false := ha.2.2 hd
    obtain ⟨da, na, sa⟩ := a
    simp only at hd hn
    subst hd
    subst hn
    rfl
  · intro hne hlt
    have hc1 : a.abs.compare (BigInteger.abs jsZERO) = 1 := by
      rw [compare_val _ _ hcab hcz, hvz, hvabs]
      rw [if_neg (show ¬ |val a| < 0 by omega), if_pos (abs_pos.mpr hne)]
    have hc2 : a.abs.compare jsMAX_NATIVE = -1 := by
      rw [compare_val _ _ hcab hcm, hvm, hvabs, if_pos hlt]
    have htn := toNumber_ok a ha (le_of_lt hlt)
    simp only [BigInteger.divide]
    rw [hc1, if_neg (show ¬ ((1:ℤ) < 0) by norm_num)]
    rw [hc2, if_pos (show ((-1:ℤ) < 0) by norm_num)]
    rw [htn]
    simp only [JRes.bind]
    rw [htz]
    simp only [JRes.bind]
    rw [if_pos trivial, if_neg hne]
  · intro hge
    have hne0 : val a ≠ 0 := by
      intro h0
      rw [h0] at hge
      norm_num at hge
    have hc1 : a.abs.compare (BigInteger.abs jsZERO) = 1 := by
      rw [compare_val _ _ hcab hcz, hvz, hvabs]
      rw [if_neg (show ¬ |val a| < 0 by omega), if_pos (abs_pos.mpr hne0)]
    have hc2 : ¬ a.abs.compare jsMAX_NATIVE < 0 := by
      rw [compare_val _ _ hcab hcm, hvm, hvabs]
      rcases (by omega : |val a| = 2 ^ 53 ∨ 2 ^ 53 < |val a|) with h | h
      · rw [if_neg (show ¬ |val a| < 2 ^ 53 by omega),
          if_neg (show ¬ (2:ℤ) ^ 53 < |val a| by omega)]
        norm_num
      · rw [if_neg (show ¬ |val a| < 2 ^ 53 by omega), if_pos h]
        norm_num
    have hc3 : (BigInteger.abs jsZERO).compare jsMAX_NATIVE = -1 := by decide
    simp only [BigInteger.divide]
    rw [hc1, if_neg (show ¬ ((1:ℤ) < 0) by norm_num)]
    rw [if_neg hc2]
    rw [hc3, if_pos (show ((-1:ℤ) < 0) by norm_num)]
    rw [htz]
    simp only [JRes.bind]
    rfl

theorem c5_amended_zero_divisor_witness :
    (fromNumber 5).modulo jsZERO 10 = .err .modulusZero ∧
      (val (fromNumber 5) = 0 →
        (fromNumber 5).divide jsZERO 10 = .ok ⟨[], false, some ['N', 'a', 'N']⟩) ∧
      (val (fromNumber 5) ≠ 0 → |val (fromNumber 5)| < 2 ^ 53 →
        (fromNumber 5).divide jsZERO 10 = .diverge) ∧
      (2 ^ 53 ≤ |val (fromNumber 5)| →
        (fromNumber 5).divide jsZERO 10 = .err .divisionByZero) :=
  c5_amended_zero_divisor (fromNumber 5) 10 (by decide)

theorem head_dropWhile_zero_ne (ds : List ℤ) :
    (ds.dropWhile (fun d => decide (d = 0))).head? ≠ some 0 := by
  induction ds with
  | nil => simp
  | cons d ds ih =>
    rw [List.dropWhile_cons]
    by_cases hd : d = 0
    · rw [if_pos (by simp [hd])]
      exact ih
    · rw [if_neg (by simp [hd])]
      simp [hd]

theorem strip_getLast_ne (ds : List ℤ) :
    (stripLeadingZeroDigits ds).getLast? ≠ some 0 := by
  unfold stripLeadingZeroDigits
  rw [List.getLast?_reverse]
  exact head_dropWhile_zero_ne ds.reverse

theorem dropWhile_mem (p : ℤ → Bool) (l : List ℤ) (d : ℤ) (hd : d ∈ l.dropWhile p) :
    d ∈ l := by
  induction l with
  | nil => simpa using hd
  | cons a l ih =>
    rw [List.dropWhile_cons] at hd
    by_cases ha : p a = true
    · rw [if_pos ha] at hd
      exact List.mem_cons_of_mem a (ih hd)
    · rw [if_neg ha] at hd
      exact hd

theorem strip_mem (ds : List ℤ) (d : ℤ) (hd : d ∈ stripLeadingZeroDigits ds) : d ∈ ds := by
  unfold stripLeadingZeroDigits at hd
  rw [List.mem_reverse] at hd
  have h2 := dropWhile_mem _ _ _ hd
  simpa using h2

theorem digitsVal_nat_decompose : ∀ (k : ℕ) (n : ℕ),
    digitsVal ((List.range (k + 1)).map
      (fun i => if i = k then ((n / 1000000 ^ k : ℕ) : ℤ)
                else ((n / 1000000 ^ i % 1000000 : ℕ) : ℤ))) = n := by
  intro k
  induction k with
  | zero =>
    intro n
    simp [digitsVal, BASE]
  | succ k ih =>
    intro n
    rw [List.range_succ_eq_map, List.map_cons, List.map_map]
    have hmap : (List.range (k + 1)).map
        ((fun i => if i = k + 1 then ((n / 1000000 ^ (k + 1) : ℕ) : ℤ)
                   else ((n / 1000000 ^ i % 1000000 : ℕ) : ℤ)) ∘ Nat.succ) =
        (List.range (k + 1)).map
        (fun i => if i = k then ((n / 1000000 / 1000000 ^ k : ℕ) : ℤ)
                  else ((n / 1000000 / 1000000 ^ i % 1000000 : ℕ) : ℤ)) := by
      apply List.map_congr_left
      intro i hi
      simp only [Function.comp]
      by_cases hik : i = k
      · subst hik
        rw [if_pos (by omega), if_pos rfl, Nat.div_div_eq_div_mul, ← pow_succ']
      · rw [if_neg (by omega), if_neg hik, Nat.div_div_eq_div_mul, ← pow_succ']
    rw [hmap]
    simp only [digitsVal]
    rw [ih (n / 1000000)]
    rw [if_neg (by omega : ¬ (0:ℕ) = k + 1)]
    norm_num [BASE]
    omega

/-- C9: with limit `1000005` the value `1000000` lies in `[0, limit)` yet no
valid draw sequence produces it: the most significant digit is drawn from
`[0, 1)` — every output is below `BASE`, so `random` is not uniform on
`[0, limit)` and not every value in that range is attainable. -/
theorem c9_not_every_value_reachable :
    (0:ℤ) ≤ 1000000 ∧ (1000000:ℤ) < val (fromNumber 1000005) ∧
      ∀ draws : ℕ → ℤ,
        (0 ≤ draws 0 ∧ draws 0 < 1 ∧ 0 ≤ draws 1 ∧ draws 1 < 1000000) →
        val (jsRandom (fromNumber 1000005) draws) ≠ 1000000 := by
  refine ⟨by norm_num, by decide, ?_⟩
  rintro draws ⟨h1, h2, h3, h4⟩
  have hd0 : draws 0 = 0 := by omega
  have hform : jsRandom (fromNumber 1000005) draws =
      ⟨stripLeadingZeroDigits [draws 1, draws 0], false, none⟩ := rfl
  rw [hform, hd0]
  simp [val, digitsVal_strip, digitsVal, BASE]
  omega

theorem jsRandom_val (limit : BigInteger) (draws : ℕ → ℤ) :
    val (jsRandom limit draws) = digitsVal ((List.range limit.digits.length).map
      (fun i => if i = limit.digits.length - 1 then draws 0 else draws (i + 1))) := by
  unfold jsRandom val
  simp [digitsVal_strip]

theorem jsRandom_digits (limit : BigInteger) (draws : ℕ → ℤ) :
    (jsRandom limit draws).digits = stripLeadingZeroDigits
      ((List.range limit.digits.length).map
        (fun i => if i = limit.digits.length - 1 then draws 0 else draws (i + 1))) := rfl

/-- C9 (amended): for a canonical non-negative non-zero limit, `random`
returns a canonical non-negative value strictly below `t * BASE^(k-1)`
(`t` the most significant digit, `k` the digit count of the limit); every
value in `[0, t * BASE^(k-1))` is attainable by some valid draw sequence;
and `t * BASE^(k-1) ≤ limit`, so values in `[t * BASE^(k-1), limit)` are
never produced and the output is uniform on `[0, limit)` only when every
lower digit of the limit is zero. -/
theorem c9_amended_random_range (limit : BigInteger) (h : Canonical limit)
    (hneg : limit.negative = false) (hne : limit.digits ≠ []) :
    (∀ draws : ℕ → ℤ,
        (0 ≤ draws 0 ∧ draws 0 < limit.digits.getLast?.getD 0 ∧
          ∀ i : ℕ, 0 ≤ draws (i + 1) ∧ draws (i + 1) < BASE) →
        Canonical (jsRandom limit draws) ∧
          0 ≤ val (jsRandom limit draws) ∧
          val (jsRandom limit draws) <
            limit.digits.getLast?.getD 0 * BASE ^ (limit.digits.length - 1)) ∧
      (∀ v : ℤ, 0 ≤ v →
          v < limit.digits.getLast?.getD 0 * BASE ^ (limit.digits.length - 1) →
          ∃ draws : ℕ → ℤ,
            (0 ≤ draws 0 ∧ draws 0 < limit.digits.getLast?.getD 0 ∧
              ∀ i : ℕ, 0 ≤ draws (i + 1) ∧ draws (i + 1) < BASE) ∧
            val (jsRandom limit draws) = v) ∧
      limit.digits.getLast?.getD 0 * BASE ^ (limit.digits.length - 1) ≤ val limit := by
  obtain ⟨hr, hl, _⟩ := h
  obtain ⟨m, hm⟩ : ∃ m, limit.digits.length = m + 1 := by
    cases hd : limit.digits with
    | nil => exact absurd hd hne
    | cons a l => exact ⟨l.length, by simp [hd]⟩
  rcases List.eq_nil_or_concat limit.digits with hnil | ⟨init, t, hconcat⟩
  · exact absurd hnil hne
  simp only [List.concat_eq_append] at hconcat
  have hT : limit.digits.getLast?.getD 0 = t := by
    rw [hconcat]
    simp
  have htmem : t ∈ limit.digits := by
    rw [hconcat]
    simp
  have ht_range := hr t htmem
  have ht0 : t ≠ 0 := by
    intro h0
    apply hl
    rw [hconcat, h0]
    simp
  have ht1 : 1 ≤ t := by omega
  have hinitlen : init.length = m := by
    have h2 : (init ++ [t]).length = m + 1 := by rw [← hconcat, hm]
    simpa using h2
  have hBm : (0:ℤ) < BASE ^ m := pow_pos (by norm_num [BASE]) m
  refine ⟨?_, ?_, ?_⟩
  · rintro draws ⟨hd0a, hd0b, hdi⟩
    rw [hT] at hd0b
    have hrange : ∀ d ∈ (List.range limit.digits.length).map
        (fun i => if i = limit.digits.length - 1 then draws 0 else draws (i + 1)),
        0 ≤ d ∧ d < BASE := by
      intro d hd2
      rw [List.mem_map] at hd2
      obtain ⟨i, _, rfl⟩ := hd2
      by_cases hi : i = limit.digits.length - 1
      · rw [if_pos hi]
        exact ⟨hd0a, by omega⟩
      · rw [if_neg hi]
        exact hdi i
    refine ⟨⟨?_, ?_, fun _ => rfl⟩, ?_, ?_⟩
    · intro d hd2
      rw [jsRandom_digits] at hd2
      exact hrange d (strip_mem _ _ hd2)
    · rw [jsRandom_digits]
      exact strip_getLast_ne _
    · rw [jsRandom_val]
      exact digitsVal_nonneg _ (fun d hd2 => (hrange d hd2).1)
    · rw [jsRandom_val, hT, hm]
      simp only [Nat.add_sub_cancel]
      rw [List.range_succ, List.map_append]
      rw [digitsVal_append]
      simp only [List.map_cons, List.map_nil, List.length_map, List.length_range]
      rw [if_pos trivial]
      have hA : digitsVal ((List.range m).map
          (fun i => if i = m then draws 0 else draws (i + 1))) < BASE ^ m := by
        have h2 := digitsVal_lt_pow ((List.range m).map
          (fun i => if i = m then draws 0 else draws (i + 1)))
          (by
            intro d hd2
            rw [List.mem_map] at hd2
            obtain ⟨i, hi, rfl⟩ := hd2
            rw [List.mem_range] at hi
            rw [if_neg (by omega)]
            exact hdi i)
        simpa using h2
      have hA0 : 0 ≤ digitsVal ((List.range m).map
          (fun i => if i = m then draws 0 else draws (i + 1))) := by
        apply digitsVal_nonneg
        intro d hd2
        rw [List.mem_map] at hd2
        obtain ⟨i, hi, rfl⟩ := hd2
        rw [List.mem_range] at hi
        rw [if_neg (by omega)]
        exact (hdi i).1
      have hdv1 : digitsVal [draws 0] = draws 0 := by simp [digitsVal]
      rw [hdv1]
      nlinarith [mul_le_mul_of_nonneg_left (show draws 0 ≤ t - 1 by omega) (le_of_lt hBm)]
  · intro v hv0 hvlt
    rw [hT, hm] at hvlt
    simp only [Nat.add_sub_cancel] at hvlt
    have ht0' : (0:ℤ) ≤ t := ht_range.1
    have hBmn : (0:ℕ) < 1000000 ^ m := pow_pos (by norm_num) m
    obtain ⟨D, hD0, hDs⟩ : ∃ D : ℕ → ℤ, D 0 = ((v.toNat / 1000000 ^ m : ℕ) : ℤ) ∧
        ∀ i : ℕ, D (i + 1) = ((v.toNat / 1000000 ^ i % 1000000 : ℕ) : ℤ) :=
      ⟨fun j => if j = 0 then ((v.toNat / 1000000 ^ m : ℕ) : ℤ)
          else ((v.toNat / 1000000 ^ (j - 1) % 1000000 : ℕ) : ℤ),
        by norm_num, fun i => by norm_num⟩
    refine ⟨D, ⟨?_, ?_, ?_⟩, ?_⟩
    · rw [hD0]
      exact Int.natCast_nonneg _
    · rw [hT, hD0]
      have hlt2 : v.toNat < t.toNat * 1000000 ^ m := by
        have h1 : ((v.toNat : ℕ) : ℤ) < ((t.toNat * 1000000 ^ m : ℕ) : ℤ) := by
          push_cast
          rw [Int.toNat_of_nonneg hv0, Int.toNat_of_nonneg ht0']
          calc v < t * BASE ^ m := hvlt
          _ = t * 1000000 ^ m := by norm_num [BASE]
        exact_mod_cast h1
      have h3 := (Nat.div_lt_iff_lt_mul hBmn).mpr hlt2
      calc ((v.toNat / 1000000 ^ m : ℕ) : ℤ) < (t.toNat : ℤ) := by exact_mod_cast h3
      _ = t := Int.toNat_of_nonneg ht0'
    · intro i
      rw [hDs i]
      refine ⟨Int.natCast_nonneg _, ?_⟩
      have h2 := Nat.mod_lt (v.toNat / 1000000 ^ i)
        (show 0 < 1000000 by norm_num)
      calc ((v.toNat / 1000000 ^ i % 1000000 : ℕ) : ℤ) < ((1000000 : ℕ) : ℤ) := by
            exact_mod_cast h2
      _ = BASE := by norm_num [BASE]
    · rw [jsRandom_val, hm]
      simp only [Nat.add_sub_cancel]
      have hfun : ∀ i ∈ List.range (m + 1),
          (if i = m then D 0 else D (i + 1)) =
          (if i = m then ((v.toNat / 1000000 ^ m : ℕ) : ℤ)
            else ((v.toNat / 1000000 ^ i % 1000000 : ℕ) : ℤ)) := by
        intro i _
        by_cases hik : i = m
        · rw [if_pos hik, if_pos hik, hD0]
        · rw [if_neg hik, if_neg hik, hDs i]
      rw [List.map_congr_left hfun, digitsVal_nat_decompose m v.toNat,
        Int.toNat_of_nonneg hv0]
  · rw [hT, hm]
    simp only [Nat.add_sub_cancel]
    have hval : val limit = digitsVal limit.digits := by simp [val, hneg]
    rw [hval, hconcat]
    have hge := digitsVal_last_ge init t
      (fun d hd2 => (hr d (by rw [hconcat]; simp [hd2])).1)
    rw [hinitlen] at hge
    exact hge

theorem c9_amended_random_range_witness :
    (∀ draws : ℕ → ℤ,
        (0 ≤ draws 0 ∧ draws 0 < (fromNumber 2000000).digits.getLast?.getD 0 ∧
          ∀ i : ℕ, 0 ≤ draws (i + 1) ∧ draws (i + 1) < BASE) →
        Canonical (jsRandom (fromNumber 2000000) draws) ∧
          0 ≤ val (jsRandom (fromNumber 2000000) draws) ∧
          val (jsRandom (fromNumber 2000000) draws) <
            (fromNumber 2000000).digits.getLast?.getD 0 *
              BASE ^ ((fromNumber 2000000).digits.length - 1)) ∧
      (∀ v : ℤ, 0 ≤ v →
          v < (fromNumber 2000000).digits.getLast?.getD 0 *
              BASE ^ ((fromNumber 2000000).digits.length - 1) →
          ∃ draws : ℕ → ℤ,
            (0 ≤ draws 0 ∧ draws 0 < (fromNumber 2000000).digits.getLast?.getD 0 ∧
              ∀ i : ℕ, 0 ≤ draws (i + 1) ∧ draws (i + 1) < BASE) ∧
            val (jsRandom (fromNumber 2000000) draws) = v) ∧
      (fromNumber 2000000).digits.getLast?.getD 0 *
          BASE ^ ((fromNumber 2000000).digits.length - 1) ≤ val (fromNumber 2000000) :=
  c9_amended_random_range (fromNumber 2000000) (by decide) (by decide) (by decide)

/-- C7: the format/parse round-trip fails for negative values: `(-5)` prints
as `"-5"`, but `valueOf` applies the minus sign by mutating the shared `ZERO`
accumulator, which the first `add` discards — the parse yields `+5`. -/
theorem c7_roundtrip_fails_negative :
    (fromNumber (-5)).toString 10 100 = .ok ['-', '5'] ∧
      val (valueOf ['-', '5'] 10) = 5 ∧
      (valueOf ['-', '5'] 10).equals (fromNumber (-5)) = false := by
  refine ⟨by decide, by decide, by decide⟩

theorem tmodBase_split (x : ℤ) (hx : 0 ≤ x) :
    Int.tmod x BASE = x % BASE ∧ Int.fdiv x BASE = x / BASE := by
  constructor
  · rw [Int.tmod_eq_emod hx (by norm_num [BASE])]
  · rw [Int.fdiv_eq_ediv _ (by norm_num [BASE])]

theorem getLast?_cons_ne_nil {t : ℤ} {rest : List ℤ} (h : rest ≠ []) :
    (t :: rest).getLast? = rest.getLast? := by
  cases rest with
  | nil => exact absurd rfl h
  | cons a l => simp [List.getLast?_cons_cons]

theorem getLast_ne_zero_of_value (ds : List ℤ) (hr : ∀ d ∈ ds, 0 ≤ d ∧ d < BASE)
    (hv : BASE ^ (ds.length - 1) ≤ digitsVal ds) : ds.getLast? ≠ some 0 := by
  rcases List.eq_nil_or_concat ds with rfl | ⟨init, t, rfl⟩
  · simp
  · simp only [List.concat_eq_append] at hr hv ⊢
    intro hlast
    have ht : t = 0 := by simpa using hlast
    subst ht
    rw [digitsVal_append] at hv
    have h1 : digitsVal init < BASE ^ init.length :=
      digitsVal_lt_pow init (fun d hd => hr d (by simp [hd]))
    have hlen : (init ++ [(0:ℤ)]).length - 1 = init.length := by simp
    rw [hlen] at hv
    simp [digitsVal] at hv
    linarith

theorem addTail_spec : ∀ (ds : List ℤ) (c : ℤ),
    (∀ d ∈ ds, 0 ≤ d ∧ d < BASE) → 0 ≤ c → c ≤ 1 →
    digitsVal (addTail ds c) = digitsVal ds + c ∧
    (∀ d ∈ addTail ds c, 0 ≤ d ∧ d < BASE) ∧
    ds.length ≤ (addTail ds c).length ∧
    (addTail ds c).length ≤ ds.length + 1 ∧
    ((addTail ds c).length = ds.length + 1 → (addTail ds c).getLast? ≠ some 0) := by
  intro ds
  induction ds with
  | nil =>
    intro c hr hc0 hc1
    by_cases hc : c = 0
    · subst hc
      norm_num [addTail, digitsVal]
    · have hc1' : c = 1 := by omega
      subst hc1'
      refine ⟨by norm_num [addTail, digitsVal], ?_, by norm_num [addTail],
        by norm_num [addTail], ?_⟩
      · intro d hd
        norm_num [addTail] at hd
        subst hd
        norm_num [BASE]
      · intro _
        norm_num [addTail]
  | cons d ds ih =>
    intro c hr hc0 hc1
    have hd := hr d (by simp)
    have hsum0 : 0 ≤ d + c := by omega
    obtain ⟨hsm, hsd⟩ := tmodBase_split (d + c) hsum0
    have hBpos : (0:ℤ) < BASE := by norm_num [BASE]
    have ht0 : 0 ≤ Int.tmod (d + c) BASE := by
      rw [hsm]
      exact Int.emod_nonneg _ (by norm_num [BASE])
    have ht1 : Int.tmod (d + c) BASE < BASE := by
      rw [hsm]
      exact Int.emod_lt_of_pos _ hBpos
    have hc'0 : 0 ≤ Int.fdiv (d + c) BASE := by
      rw [hsd]
      exact Int.ediv_nonneg hsum0 (le_of_lt hBpos)
    have hc'1 : Int.fdiv (d + c) BASE ≤ 1 := by
      rw [hsd]
      have hdb : d < BASE := hd.2
      norm_num [BASE] at hdb ⊢
      omega
    have hsplit : Int.tmod (d + c) BASE + BASE * Int.fdiv (d + c) BASE = d + c := by
      rw [hsm, hsd]
      exact Int.emod_add_ediv _ _
    obtain ⟨ihv, ihr, ihlo, ihhi, ihlast⟩ :=
      ih (Int.fdiv (d + c) BASE) (fun e he => hr e (by simp [he])) hc'0 hc'1
    refine ⟨?_, ?_, ?_, ?_, ?_⟩
    · show digitsVal (Int.tmod (d + c) BASE :: addTail ds (Int.fdiv (d + c) BASE)) = _
      unfold digitsVal
      rw [ihv]
      unfold digitsVal
      linarith [hsplit]
    · intro e he
      simp only [addTail, List.mem_cons] at he
      rcases he with rfl | he
      · exact ⟨ht0, ht1⟩
      · exact ihr e he
    · show ds.length + 1 ≤ (Int.tmod (d + c) BASE :: addTail ds (Int.fdiv (d + c) BASE)).length
      simp only [List.length_cons]
      omega
    · show (Int.tmod (d + c) BASE :: addTail ds (Int.fdiv (d + c) BASE)).length ≤ ds.length + 1 + 1
      simp only [List.length_cons]
      omega
    · intro hlen
      show (Int.tmod (d + c) BASE :: addTail ds (Int.fdiv (d + c) BASE)).getLast? ≠ some 0
      have hred : addTail (d :: ds) c =
          Int.tmod (d + c) BASE :: addTail ds (Int.fdiv (d + c) BASE) := by
        simp only [addTail]
      rw [hred] at hlen
      simp only [List.length_cons] at hlen
      have hlen2 : (addTail ds (Int.fdiv (d + c) BASE)).length = ds.length + 1 := by omega
      have hne : addTail ds (Int.fdiv (d + c) BASE) ≠ [] := by
        intro h0
        rw [h0] at hlen2
        simp at hlen2
      rw [getLast?_cons_ne_nil hne]
      exact ihlast hlen2

theorem addAux_spec : ∀ (as bs : List ℤ) (c : ℤ),
    (∀ d ∈ as, 0 ≤ d ∧ d < BASE) → (∀ d ∈ bs, 0 ≤ d ∧ d < BASE) → 0 ≤ c → c ≤ 1 →
    digitsVal (addAux as bs c) = digitsVal as + digitsVal bs + c ∧
    (∀ d ∈ addAux as bs c, 0 ≤ d ∧ d < BASE) ∧
    max as.length bs.length ≤ (addAux as bs c).length ∧
    (addAux as bs c).length ≤ max as.length bs.length + 1 ∧
    ((addAux as bs c).length = max as.length bs.length + 1 →
      (addAux as bs c).getLast? ≠ some 0) := by
  intro as
  induction as with
  | nil =>
    intro bs c har hbr hc0 hc1
    obtain ⟨hv, hrng, hlo, hhi, hlast⟩ := addTail_spec bs c hbr hc0 hc1
    have he : addAux [] bs c = addTail bs c := by simp only [addAux]
    rw [he]
    refine ⟨by rw [hv]; simp [digitsVal], hrng, by simpa using hlo, by simpa using hhi, ?_⟩
    intro hlen
    exact hlast (by simpa using hlen)
  | cons a as ih =>
    intro bs c har hbr hc0 hc1
    cases bs with
    | nil =>
      obtain ⟨hv, hrng, hlo, hhi, hlast⟩ := addTail_spec (a :: as) c har hc0 hc1
      have he : addAux (a :: as) [] c = addTail (a :: as) c := by simp only [addAux]
      rw [he]
      refine ⟨by rw [hv]; simp [digitsVal], hrng, by simpa using hlo,
        by simpa using hhi, ?_⟩
      intro hlen
      exact hlast (by simpa using hlen)
    | cons b bs =>
      have ha := har a (by simp)
      have hb := hbr b (by simp)
      have hsum0 : 0 ≤ a + b + c := by omega
      obtain ⟨hsm, hsd⟩ := tmodBase_split (a + b + c) hsum0
      have hBpos : (0:ℤ) < BASE := by norm_num [BASE]
      have ht0 : 0 ≤ Int.tmod (a + b + c) BASE := by
        rw [hsm]
        exact Int.emod_nonneg _ (by norm_num [BASE])
      have ht1 : Int.tmod (a + b + c) BASE < BASE := by
        rw [hsm]
        exact Int.emod_lt_of_pos _ hBpos
      have hc'0 : 0 ≤ Int.fdiv (a + b + c) BASE := by
        rw [hsd]
        exact Int.ediv_nonneg hsum0 (le_of_lt hBpos)
      have hc'1 : Int.fdiv (a + b + c) BASE ≤ 1 := by
        rw [hsd]
        have hab : a < BASE := ha.2
        have hbb : b < BASE := hb.2
        norm_num [BASE] at hab hbb ⊢
        omega
      have hsplit : Int.tmod (a + b + c) BASE + BASE * Int.fdiv (a + b + c) BASE
          = a + b + c := by
        rw [hsm, hsd]
        exact Int.emod_add_ediv _ _
      obtain ⟨ihv, ihr, ihlo, ihhi, ihlast⟩ :=
        ih bs (Int.fdiv (a + b + c) BASE) (fun e he => har e (by simp [he]))
          (fun e he => hbr e (by simp [he])) hc'0 hc'1
      refine ⟨?_, ?_, ?_, ?_, ?_⟩
      · show digitsVal (Int.tmod (a + b + c) BASE ::
            addAux as bs (Int.fdiv (a + b + c) BASE)) = _
        unfold digitsVal
        rw [ihv]
        unfold digitsVal
        linarith [hsplit]
      · intro e he
        simp only [addAux, List.mem_cons] at he
        rcases he with rfl | he
        · exact ⟨ht0, ht1⟩
        · exact ihr e he
      · show max (as.length + 1) (bs.length + 1) ≤
            (Int.tmod (a + b + c) BASE :: addAux as bs (Int.fdiv (a + b + c) BASE)).length
        simp only [List.length_cons]
        omega
      · show (Int.tmod (a + b + c) BASE ::
            addAux as bs (Int.fdiv (a + b + c) BASE)).length ≤
            max (as.length + 1) (bs.length + 1) + 1
        simp only [List.length_cons]
        omega
      · intro hlen
        show (Int.tmod (a + b + c) BASE ::
            addAux as bs (Int.fdiv (a + b + c) BASE)).getLast? ≠ some 0
        have hred : addAux (a :: as) (b :: bs) c =
            Int.tmod (a + b + c) BASE :: addAux as bs (Int.fdiv (a + b + c) BASE) := by
          simp only [addAux]
        rw [hred] at hlen
        simp only [List.length_cons] at hlen
        have hlen2 : (addAux as bs (Int.fdiv (a + b + c) BASE)).length =
            max as.length bs.length + 1 := by omega
        have hne : addAux as bs (Int.fdiv (a + b + c) BASE) ≠ [] := by
          intro h0
          rw [h0] at hlen2
          simp at hlen2
        rw [getLast?_cons_ne_nil hne]
        exact ihlast hlen2

theorem longAddition_spec (x y : BigInteger)
    (hx : ∀ d ∈ x.digits, 0 ≤ d ∧ d < BASE) (hy : ∀ d ∈ y.digits, 0 ≤ d ∧ d < BASE)
    (hval : BASE ^ (max x.digits.length y.digits.length - 1) ≤
      digitsVal x.digits + digitsVal y.digits) :
    digitsVal (longAddition x y).digits = digitsVal x.digits + digitsVal y.digits ∧
    Canonical (longAddition x y) ∧ (longAddition x y).negative = false := by
  obtain ⟨hv, hrng, hlo, hhi, hcarry⟩ := addAux_spec x.digits y.digits 0 hx hy le_rfl
    zero_le_one
  have hdig : (longAddition x y).digits = addAux x.digits y.digits 0 := rfl
  refine ⟨by rw [hdig, hv]; ring, ⟨by rw [hdig]; exact hrng, ?_, fun _ => rfl⟩, rfl⟩
  rw [hdig]
  rcases (by omega : (addAux x.digits y.digits 0).length =
      max x.digits.length y.digits.length ∨
      (addAux x.digits y.digits 0).length = max x.digits.length y.digits.length + 1)
    with hL | hL
  · apply getLast_ne_zero_of_value _ hrng
    rw [hL, hv]
    linarith
  · exact hcarry hL

theorem add_nonneg_spec (x y : BigInteger) (hx : Canonical x) (hy : Canonical y)
    (hxn : x.negative = false) (hyn : y.negative = false) :
    val (x.add y) = val x + val y ∧ Canonical (x.add y) ∧ (x.add y).negative = false := by
  obtain ⟨hxr, hxl, hxz⟩ := hx
  obtain ⟨hyr, hyl, hyz⟩ := hy
  have hvx : val x = digitsVal x.digits := by simp [val, hxn]
  have hvy : val y = digitsVal y.digits := by simp [val, hyn]
  by_cases hye : y.digits = []
  · have h1 : x.add y = x := by simp [BigInteger.add, hye]
    have h2 : val y = 0 := by simp [hvy, hye, digitsVal]
    rw [h1, h2]
    exact ⟨by ring, ⟨hxr, hxl, hxz⟩, hxn⟩
  · have hx0 := digitsVal_nonneg x.digits (fun d hd => (hxr d hd).1)
    have hy0 := digitsVal_nonneg y.digits (fun d hd => (hyr d hd).1)
    have hy1 := canonical_digitsVal_pos y.digits hyr hyl hye
    have hmaxv : BASE ^ (max x.digits.length y.digits.length - 1) ≤
        digitsVal x.digits + digitsVal y.digits := by
      by_cases hxe : x.digits = []
      · rw [hxe]
        simp only [digitsVal, List.length_nil, Nat.max_eq_right (Nat.zero_le _),
          Nat.zero_max]
        linarith
      · have hx1 := canonical_digitsVal_pos x.digits hxr hxl hxe
        rcases le_total x.digits.length y.digits.length with h | h
        · rw [Nat.max_eq_right h]
          linarith
        · rw [Nat.max_eq_left h]
          linarith
    obtain ⟨hlv, hlc, hln⟩ := longAddition_spec x y hxr hyr hmaxv
    have hadd : x.add y = longAddition x y := by
      simp [BigInteger.add, hye, hxn, hyn]
    rw [hadd, hvx, hvy]
    refine ⟨?_, hlc, hln⟩
    rw [show val (longAddition x y) = digitsVal (longAddition x y).digits by
      simp [val, hln]]
    exact hlv

theorem mulDigitAux_spec : ∀ (ds : List ℤ) (g c : ℤ),
    (∀ d ∈ ds, 0 ≤ d ∧ d < BASE) → 0 ≤ g → g < BASE → 0 ≤ c → c < BASE →
    digitsVal (mulDigitAux ds g c) = g * digitsVal ds + c ∧
    (∀ d ∈ mulDigitAux ds g c, 0 ≤ d ∧ d < BASE) ∧
    ds.length ≤ (mulDigitAux ds g c).length ∧
    (mulDigitAux ds g c).length ≤ ds.length + 1 ∧
    ((mulDigitAux ds g c).length = ds.length + 1 →
      (mulDigitAux ds g c).getLast? ≠ some 0) := by
  intro ds
  induction ds with
  | nil =>
    intro g c hr hg0 hgB hc0 hcB
    by_cases hc : c = 0
    · subst hc
      norm_num [mulDigitAux, digitsVal]
    · refine ⟨?_, ?_, ?_, ?_, ?_⟩
      · rw [show mulDigitAux [] g c = [c] by simp [mulDigitAux, hc]]
        simp [digitsVal]
      · intro d hd
        rw [show mulDigitAux [] g c = [c] by simp [mulDigitAux, hc]] at hd
        simp at hd
        subst hd
        exact ⟨hc0, hcB⟩
      · simp [mulDigitAux]
      · rw [show mulDigitAux [] g c = [c] by simp [mulDigitAux, hc]]
        simp
      · intro _
        rw [show mulDigitAux [] g c = [c] by simp [mulDigitAux, hc]]
        simp [hc]
  | cons d ds ih =>
    intro g c hr hg0 hgB hc0 hcB
    have hd := hr d (by simp)
    have hp0 : 0 ≤ g * d + c := by
      have := mul_nonneg hg0 hd.1
      linarith
    obtain ⟨hsm, hsd⟩ := tmodBase_split (g * d + c) hp0
    have hBpos : (0:ℤ) < BASE := by norm_num [BASE]
    have ht0 : 0 ≤ Int.tmod (g * d + c) BASE := by
      rw [hsm]
      exact Int.emod_nonneg _ (by norm_num [BASE])
    have ht1 : Int.tmod (g * d + c) BASE < BASE := by
      rw [hsm]
      exact Int.emod_lt_of_pos _ hBpos
    have hpB : g * d + c < BASE * BASE := by nlinarith
    have hc'0 : 0 ≤ Int.fdiv (g * d + c) BASE := by
      rw [hsd]
      exact Int.ediv_nonneg hp0 (le_of_lt hBpos)
    have hc'B : Int.fdiv (g * d + c) BASE < BASE := by
      rw [hsd]
      exact Int.ediv_lt_of_lt_mul hBpos (by linarith)
    have hsplit : Int.tmod (g * d + c) BASE + BASE * Int.fdiv (g * d + c) BASE
        = g * d + c := by
      rw [hsm, hsd]
      exact Int.emod_add_ediv _ _
    obtain ⟨ihv, ihr, ihlo, ihhi, ihlast⟩ :=
      ih g (Int.fdiv (g * d + c) BASE) (fun e he => hr e (by simp [he])) hg0 hgB hc'0 hc'B
    have hred : mulDigitAux (d :: ds) g c =
        Int.tmod (g * d + c) BASE :: mulDigitAux ds g (Int.fdiv (g * d + c) BASE) := by
      simp only [mulDigitAux]
    rw [hred]
    refine ⟨?_, ?_, ?_, ?_, ?_⟩
    · unfold digitsVal
      rw [ihv]
      unfold digitsVal
      have h2 : Int.tmod (g * d + c) BASE =
          g * d + c - BASE * Int.fdiv (g * d + c) BASE := by linarith
      rw [h2]
      ring
    · intro e he
      simp only [List.mem_cons] at he
      rcases he with rfl | he
      · exact ⟨ht0, ht1⟩
      · exact ihr e he
    · simp only [List.length_cons]
      omega
    · simp only [List.length_cons]
      omega
    · intro hlen
      simp only [List.length_cons] at hlen
      have hlen2 : (mulDigitAux ds g (Int.fdiv (g * d + c) BASE)).length =
          ds.length + 1 := by omega
      have hne : mulDigitAux ds g (Int.fdiv (g * d + c) BASE) ≠ [] := by
        intro h0
        rw [h0] at hlen2
        simp at hlen2
      rw [getLast?_cons_ne_nil hne]
      exact ihlast hlen2

theorem digitsVal_replicate_zero (n : ℕ) : digitsVal (List.replicate n 0) = 0 := by
  induction n with
  | zero => simp [digitsVal]
  | succ n ih => simp [List.replicate_succ, digitsVal, ih]

theorem getLast?_append_ne_nil (A L : List ℤ) (h : L ≠ []) :
    (A ++ L).getLast? = L.getLast? := by
  induction A with
  | nil => simp
  | cons a A ih =>
    rw [List.cons_append, getLast?_cons_ne_nil (by simp [h]), ih]

theorem multiplyOneDigit_spec (number : BigInteger) (g : ℤ) (mag : ℕ)
    (hr : ∀ d ∈ number.digits, 0 ≤ d ∧ d < BASE) (hg0 : 0 ≤ g) (hgB : g < BASE) :
    digitsVal (multiplyOneDigit number g mag).digits =
      g * digitsVal number.digits * BASE ^ mag ∧
    (∀ d ∈ (multiplyOneDigit number g mag).digits, 0 ≤ d ∧ d < BASE) ∧
    mag + number.digits.length ≤ (multiplyOneDigit number g mag).digits.length ∧
    (multiplyOneDigit number g mag).digits.length ≤ mag + number.digits.length + 1 ∧
    ((multiplyOneDigit number g mag).digits.length = mag + number.digits.length + 1 →
      (multiplyOneDigit number g mag).digits.getLast? ≠ some 0) ∧
    (multiplyOneDigit number g mag).negative = false := by
  obtain ⟨hv, hrng, hlo, hhi, hlast⟩ :=
    mulDigitAux_spec number.digits g 0 hr hg0 hgB le_rfl (by norm_num [BASE])
  have hdig : (multiplyOneDigit number g mag).digits =
      List.replicate mag 0 ++ mulDigitAux number.digits g 0 := rfl
  refine ⟨?_, ?_, ?_, ?_, ?_, rfl⟩
  · rw [hdig, digitsVal_append, digitsVal_replicate_zero, hv]
    simp [List.length_replicate]
    ring
  · intro d hd
    rw [hdig, List.mem_append] at hd
    rcases hd with hd | hd
    · rw [List.eq_of_mem_replicate hd]
      norm_num [BASE]
    · exact hrng d hd
  · rw [hdig]
    simp only [List.length_append, List.length_replicate]
    omega
  · rw [hdig]
    simp only [List.length_append, List.length_replicate]
    omega
  · intro hlen
    rw [hdig] at hlen ⊢
    simp only [List.length_append, List.length_replicate] at hlen
    have hlen2 : (mulDigitAux number.digits g 0).length = number.digits.length + 1 := by
      omega
    have hne : mulDigitAux number.digits g 0 ≠ [] := by
      intro h0
      rw [h0] at hlen2
      simp at hlen2
    rw [getLast?_append_ne_nil _ _ hne]
    exact hlast hlen2

theorem digitsVal_take_succ : ∀ (ds : List ℤ) (n : ℕ), n < ds.length →
    digitsVal (ds.take (n + 1)) = digitsVal (ds.take n) + ds.getD n 0 * BASE ^ n := by
  intro ds
  induction ds with
  | nil =>
    intro n hn
    simp at hn
  | cons d ds ih =>
    intro n hn
    cases n with
    | zero => norm_num [digitsVal]
    | succ n =>
      simp only [List.take_succ_cons, digitsVal, List.getD_cons_succ]
      rw [ih n (by simpa using hn), pow_succ]
      ring

theorem getD_mem_list : ∀ (ds : List ℤ) (n : ℕ), n < ds.length → ds.getD n 0 ∈ ds := by
  intro ds
  induction ds with
  | nil =>
    intro n hn
    simp at hn
  | cons d ds ih =>
    intro n hn
    cases n with
    | zero => simp
    | succ n =>
      simp only [List.getD_cons_succ]
      exact List.mem_cons_of_mem _ (ih n (by simpa using hn))

/-- The accumulation loop inside `multiply`, stopped after `n` digits of the
right operand. -/
def mulAcc (x y : BigInteger) (n : ℕ) : BigInteger :=
  (List.range n).foldl (fun acc i => acc.add (multiplyOneDigit x (y.digits.getD i 0) i))
    jsZERO

theorem multiply_eq_mulAcc (x y : BigInteger) :
    x.multiply y = { mulAcc x y y.digits.length with
      negative := xor x.negative y.negative } := rfl

theorem mulAcc_succ (x y : BigInteger) (n : ℕ) :
    mulAcc x y (n + 1) = (mulAcc x y n).add (multiplyOneDigit x (y.digits.getD n 0) n) := by
  unfold mulAcc
  rw [List.range_succ, List.foldl_append]
  simp

theorem mulAcc_spec (x y : BigInteger) (g : ℤ) (hxd : x.digits = [g])
    (hg1 : 1 ≤ g) (hgB : g < BASE)
    (hyr : ∀ d ∈ y.digits, 0 ≤ d ∧ d < BASE) :
    ∀ n : ℕ, n ≤ y.digits.length →
    (mulAcc x y n).negative = false ∧
    (∀ d ∈ (mulAcc x y n).digits, 0 ≤ d ∧ d < BASE) ∧
    digitsVal (mulAcc x y n).digits = g * digitsVal (y.digits.take n) ∧
    (mulAcc x y n).digits.length ≤ n + 1 := by
  have hgx : digitsVal x.digits = g := by
    rw [hxd]
    simp [digitsVal]
  intro n
  induction n with
  | zero =>
    intro _
    refine ⟨?_, ?_, ?_, ?_⟩ <;> simp [mulAcc, jsZERO, digitsVal]
  | succ n ih =>
    intro hn
    obtain ⟨ihneg, ihrng, ihval, ihlen⟩ := ih (by omega)
    have hdn := hyr (y.digits.getD n 0) (getD_mem_list y.digits n (by omega))
    obtain ⟨pv, prng, plo, phi, pcarry, pneg⟩ :=
      multiplyOneDigit_spec x (y.digits.getD n 0) n
        (by rw [hxd]; intro d hd; simp at hd; subst hd; omega) hdn.1 hdn.2
    rw [hgx] at pv
    have hpne : (multiplyOneDigit x (y.digits.getD n 0) n).digits ≠ [] := by
      intro h0
      rw [h0] at plo
      simp [hxd] at plo
    have haddeq : (mulAcc x y n).add (multiplyOneDigit x (y.digits.getD n 0) n) =
        longAddition (mulAcc x y n) (multiplyOneDigit x (y.digits.getD n 0) n) := by
      unfold BigInteger.add
      rw [if_neg (show ¬ ((multiplyOneDigit x (y.digits.getD n 0) n).digits.isEmpty = true)
          by simp only [List.isEmpty_iff]; exact hpne),
        if_neg (show ¬ ((mulAcc x y n).negative = true ∧
          (multiplyOneDigit x (y.digits.getD n 0) n).negative = true)
          by intro hc; rw [ihneg] at hc; simp at hc),
        if_pos (show ¬ ((mulAcc x y n).negative = true) ∧
          ¬ ((multiplyOneDigit x (y.digits.getD n 0) n).negative = true)
          by exact ⟨by rw [ihneg]; simp, by rw [pneg]; simp⟩)]
    obtain ⟨av, arng, alo, ahi, acarry⟩ :=
      addAux_spec (mulAcc x y n).digits (multiplyOneDigit x (y.digits.getD n 0) n).digits
        0 ihrng prng le_rfl zero_le_one
    have hlmul : (longAddition (mulAcc x y n)
        (multiplyOneDigit x (y.digits.getD n 0) n)).digits =
        addAux (mulAcc x y n).digits
          (multiplyOneDigit x (y.digits.getD n 0) n).digits 0 := rfl
    rw [mulAcc_succ, haddeq]
    have hvalnew : digitsVal (addAux (mulAcc x y n).digits
        (multiplyOneDigit x (y.digits.getD n 0) n).digits 0) =
        g * digitsVal (y.digits.take (n + 1)) := by
      rw [av, ihval, pv, digitsVal_take_succ y.digits n (by omega)]
      ring
    refine ⟨rfl, by rw [hlmul]; exact arng, by rw [hlmul]; exact hvalnew, ?_⟩
    rw [hlmul]
    have hxlen : x.digits.length = 1 := by rw [hxd]; rfl
    have htklen : (y.digits.take (n + 1)).length = n + 1 := by
      rw [List.length_take]
      omega
    have hvb : digitsVal (addAux (mulAcc x y n).digits
        (multiplyOneDigit x (y.digits.getD n 0) n).digits 0) < BASE ^ (n + 2) := by
      rw [hvalnew]
      have h1 : digitsVal (y.digits.take (n + 1)) < BASE ^ (n + 1) := by
        have := digitsVal_lt_pow (y.digits.take (n + 1))
          (fun d hd => hyr d (List.mem_of_mem_take hd))
        rwa [htklen] at this
      have h2 : (0:ℤ) ≤ digitsVal (y.digits.take (n + 1)) :=
        digitsVal_nonneg _ (fun d hd => (hyr d (List.mem_of_mem_take hd)).1)
      have h3 : BASE ^ (n + 2) = BASE * BASE ^ (n + 1) := by
        rw [pow_succ]
        ring
      rw [h3]
      nlinarith
    rcases (by omega : (addAux (mulAcc x y n).digits
        (multiplyOneDigit x (y.digits.getD n 0) n).digits 0).length =
        max (mulAcc x y n).digits.length
          (multiplyOneDigit x (y.digits.getD n 0) n).digits.length ∨
        (addAux (mulAcc x y n).digits
          (multiplyOneDigit x (y.digits.getD n 0) n).digits 0).length =
        max (mulAcc x y n).digits.length
          (multiplyOneDigit x (y.digits.getD n 0) n).digits.length + 1) with hL | hL
    · rw [hxlen] at phi
      omega
    · have hlast := acarry hL
      have hvlo := canonical_digitsVal_pos _ arng hlast (by
        intro h0
        rw [h0] at hL
        simp at hL)
      have hcmp : BASE ^ ((addAux (mulAcc x y n).digits
          (multiplyOneDigit x (y.digits.getD n 0) n).digits 0).length - 1) <
          BASE ^ (n + 2) := by
        calc BASE ^ ((addAux (mulAcc x y n).digits
            (multiplyOneDigit x (y.digits.getD n 0) n).digits 0).length - 1) ≤
            digitsVal (addAux (mulAcc x y n).digits
              (multiplyOneDigit x (y.digits.getD n 0) n).digits 0) := hvlo
        _ < BASE ^ (n + 2) := hvb
      have := (pow_lt_pow_iff_right (by norm_num [BASE] : (1:ℤ) < BASE)).mp hcmp
      omega

theorem setNeg_self (b : BigInteger) (hb : b.negative = false) :
    { b with negative := false } = b := by
  cases b
  simp_all

theorem getD_concat_self : ∀ (init : List ℤ) (t : ℤ),
    (init ++ [t]).getD init.length 0 = t := by
  intro init t
  induction init with
  | nil => rfl
  | cons a init ih => simpa using ih

theorem multiply_singleDigit_left (x y : BigInteger) (g : ℤ) (hxd : x.digits = [g])
    (hg1 : 1 ≤ g) (hgB : g < BASE) (hxn : x.negative = false)
    (hy : Canonical y) (hyn : y.negative = false) (hye : y.digits ≠ []) :
    val (x.multiply y) = val x * val y ∧ Canonical (x.multiply y) ∧
      (x.multiply y).negative = false := by
  obtain ⟨hyr, hyl, _⟩ := hy
  obtain ⟨m, hm⟩ : ∃ m, y.digits.length = m + 1 := ⟨y.digits.length - 1, by
    cases hd : y.digits with
    | nil => exact absurd hd hye
    | cons a l => simp [hd]⟩
  obtain ⟨ihneg, ihrng, ihval, ihlen⟩ := mulAcc_spec x y g hxd hg1 hgB hyr m (by omega)
  have hdm := hyr _ (getD_mem_list y.digits m (by omega))
  obtain ⟨pv, prng, plo, phi, pcarry, pneg⟩ :=
    multiplyOneDigit_spec x (y.digits.getD m 0) m
      (by rw [hxd]; intro d hd; simp at hd; subst hd; omega) hdm.1 hdm.2
  have hxlen1 : x.digits.length = 1 := by rw [hxd]; rfl
  rw [hxlen1] at plo phi pcarry
  have hgx : digitsVal x.digits = g := by
    rw [hxd]
    simp [digitsVal]
  rw [hgx] at pv
  have htop : 1 ≤ y.digits.getD m 0 := by
    rcases List.eq_nil_or_concat y.digits with h0 | ⟨init, t, hconcat⟩
    · exact absurd h0 hye
    · simp only [List.concat_eq_append] at hconcat
      have hinit : init.length = m := by
        have h2 := hm
        rw [hconcat] at h2
        simpa using h2
      have hgd : y.digits.getD m 0 = t := by
        rw [hconcat, ← hinit, getD_concat_self]
      have ht := hyr t (by rw [hconcat]; simp)
      have ht0 : t ≠ 0 := by
        intro h0
        apply hyl
        rw [hconcat, h0]
        simp
      rw [hgd]
      omega
  have hpne : (multiplyOneDigit x (y.digits.getD m 0) m).digits ≠ [] := by
    intro h0
    rw [h0] at plo
    simp at plo
  have hBpos : (0:ℤ) < BASE := by norm_num [BASE]
  have hpow_pos : (0:ℤ) < BASE ^ m := pow_pos hBpos m
  have hvp_ge : BASE ^ m ≤ digitsVal (multiplyOneDigit x (y.digits.getD m 0) m).digits := by
    rw [pv]
    have h1 : (1:ℤ) ≤ y.digits.getD m 0 * g := by nlinarith
    nlinarith [mul_le_mul_of_nonneg_right h1 (le_of_lt hpow_pos)]
  have hacc0 : 0 ≤ digitsVal (mulAcc x y m).digits :=
    digitsVal_nonneg _ (fun d hd => (ihrng d hd).1)
  have hval_lo : BASE ^ (max (mulAcc x y m).digits.length
      (multiplyOneDigit x (y.digits.getD m 0) m).digits.length - 1) ≤
      digitsVal (mulAcc x y m).digits +
        digitsVal (multiplyOneDigit x (y.digits.getD m 0) m).digits := by
    by_cases hlp : (multiplyOneDigit x (y.digits.getD m 0) m).digits.length = m + 2
    · have hplast := pcarry (by omega)
      have hppos := canonical_digitsVal_pos _ prng hplast hpne
      rw [hlp, show m + 2 - 1 = m + 1 by omega] at hppos
      have hmax : max (mulAcc x y m).digits.length
          (multiplyOneDigit x (y.digits.getD m 0) m).digits.length = m + 2 := by omega
      rw [hmax, show m + 2 - 1 = m + 1 by omega]
      linarith
    · have hmaxle : max (mulAcc x y m).digits.length
          (multiplyOneDigit x (y.digits.getD m 0) m).digits.length ≤ m + 1 := by omega
      have hpow : BASE ^ (max (mulAcc x y m).digits.length
          (multiplyOneDigit x (y.digits.getD m 0) m).digits.length - 1) ≤ BASE ^ m :=
        pow_le_pow_right (by norm_num [BASE]) (by omega)
      linarith
  have haddeq : (mulAcc x y m).add (multiplyOneDigit x (y.digits.getD m 0) m) =
      longAddition (mulAcc x y m) (multiplyOneDigit x (y.digits.getD m 0) m) := by
    unfold BigInteger.add
    rw [if_neg (show ¬ ((multiplyOneDigit x (y.digits.getD m 0) m).digits.isEmpty = true)
        by simp only [List.isEmpty_iff]; exact hpne),
      if_neg (show ¬ ((mulAcc x y m).negative = true ∧
        (multiplyOneDigit x (y.digits.getD m 0) m).negative = true)
        by intro hc; rw [ihneg] at hc; simp at hc),
      if_pos (show ¬ ((mulAcc x y m).negative = true) ∧
        ¬ ((multiplyOneDigit x (y.digits.getD m 0) m).negative = true)
        by exact ⟨by rw [ihneg]; simp, by rw [pneg]; simp⟩)]
  obtain ⟨lv, lc, ln⟩ :=
    longAddition_spec (mulAcc x y m) (multiplyOneDigit x (y.digits.getD m 0) m)
      ihrng prng hval_lo
  have hfold : mulAcc x y (m + 1) =
      longAddition (mulAcc x y m) (multiplyOneDigit x (y.digits.getD m 0) m) := by
    rw [mulAcc_succ, haddeq]
  have hmul : x.multiply y =
      longAddition (mulAcc x y m) (multiplyOneDigit x (y.digits.getD m 0) m) := by
    rw [multiply_eq_mulAcc, hm, hfold, hxn, hyn]
    exact setNeg_self _ ln
  rw [hmul]
  have hvres : digitsVal (longAddition (mulAcc x y m)
      (multiplyOneDigit x (y.digits.getD m 0) m)).digits = g * digitsVal y.digits := by
    rw [lv, ihval, pv]
    rw [show digitsVal y.digits = digitsVal (y.digits.take (m + 1)) by
      rw [show m + 1 = y.digits.length from hm.symm, List.take_length]]
    rw [digitsVal_take_succ y.digits m (by omega)]
    ring
  refine ⟨?_, lc, ln⟩
  rw [show val (longAddition (mulAcc x y m) (multiplyOneDigit x (y.digits.getD m 0) m)) =
      digitsVal (longAddition (mulAcc x y m)
        (multiplyOneDigit x (y.digits.getD m 0) m)).digits by
    unfold val
    rw [ln]
    simp]
  rw [hvres, show val x = g by simp [val, hxn, hgx],
    show val y = digitsVal y.digits by simp [val, hyn]]

theorem multiply_singleDigit_right (x y : BigInteger) (hx : Canonical x)
    (hxn : x.negative = false) (hyn : y.negative = false) (d : ℤ)
    (hyd : y.digits = [d]) (hd1 : 1 ≤ d) (hdB : d < BASE) :
    val (x.multiply y) = val x * val y ∧ Canonical (x.multiply y) ∧
      (x.multiply y).negative = false := by
  obtain ⟨hxr, hxl, _⟩ := hx
  have hylen : y.digits.length = 1 := by rw [hyd]; rfl
  have hgd : y.digits.getD 0 0 = d := by rw [hyd]; rfl
  have hvy : val y = d := by
    simp [val, hyn, hyd, digitsVal]
  obtain ⟨pv, prng, plo, phi, pcarry, pneg⟩ :=
    multiplyOneDigit_spec x (y.digits.getD 0 0) 0 hxr (by rw [hgd]; omega)
      (by rw [hgd]; exact hdB)
  have hacc0 : mulAcc x y 0 = jsZERO := by simp [mulAcc]
  have hfold : mulAcc x y 1 = jsZERO.add (multiplyOneDigit x (y.digits.getD 0 0) 0) := by
    rw [show (1:ℕ) = 0 + 1 from rfl, mulAcc_succ, hacc0]
  by_cases hxe : x.digits = []
  · have hpd : (multiplyOneDigit x (y.digits.getD 0 0) 0).digits = [] := by
      show List.replicate 0 0 ++ mulDigitAux x.digits (y.digits.getD 0 0) 0 = []
      rw [hxe]
      simp [mulDigitAux]
    have hadd0 : jsZERO.add (multiplyOneDigit x (y.digits.getD 0 0) 0) = jsZERO := by
      unfold BigInteger.add
      rw [if_pos (show (multiplyOneDigit x (y.digits.getD 0 0) 0).digits.isEmpty = true by
        rw [List.isEmpty_iff]; exact hpd)]
    have hres : x.multiply y = { jsZERO with negative := false } := by
      rw [multiply_eq_mulAcc, hylen, hfold, hadd0, hxn, hyn]
      rfl
    rw [hres]
    have hvx : val x = 0 := by simp [val, hxe, digitsVal]
    refine ⟨?_, ?_, rfl⟩
    · rw [hvx]
      simp [val, jsZERO, digitsVal]
    · exact ⟨by simp [jsZERO], by simp [jsZERO], fun _ => rfl⟩
  · have hpne : (multiplyOneDigit x (y.digits.getD 0 0) 0).digits ≠ [] := by
      intro h0
      rw [h0] at plo
      simp at plo
      exact hxe (by simpa [List.length_eq_zero] using plo)
    have hxlen1 : 1 ≤ x.digits.length := by
      cases hh : x.digits with
      | nil => exact absurd hh hxe
      | cons a l => simp [hh]
    have hvx_ge := canonical_digitsVal_pos x.digits hxr hxl hxe
    have hBpos : (0:ℤ) < BASE := by norm_num [BASE]
    have hval_lo : BASE ^ (max (jsZERO).digits.length
        (multiplyOneDigit x (y.digits.getD 0 0) 0).digits.length - 1) ≤
        digitsVal (jsZERO).digits +
          digitsVal (multiplyOneDigit x (y.digits.getD 0 0) 0).digits := by
      have hz : digitsVal (jsZERO).digits = 0 := by simp [jsZERO, digitsVal]
      rw [hz]
      simp only [zero_add]
      have hzl : (jsZERO).digits.length = 0 := by simp [jsZERO]
      rw [hzl]
      simp only [Nat.zero_max]
      by_cases hlp : (multiplyOneDigit x (y.digits.getD 0 0) 0).digits.length =
          0 + x.digits.length + 1
      · have hplast := pcarry hlp
        have hppos := canonical_digitsVal_pos _ prng hplast hpne
        calc BASE ^ ((multiplyOneDigit x (y.digits.getD 0 0) 0).digits.length - 1) ≤
            digitsVal (multiplyOneDigit x (y.digits.getD 0 0) 0).digits := hppos
        _ = _ := rfl
      · have hlp' : (multiplyOneDigit x (y.digits.getD 0 0) 0).digits.length =
            x.digits.length := by omega
        rw [hlp', pv, hgd]
        have h1 : BASE ^ (x.digits.length - 1) ≤ digitsVal x.digits := hvx_ge
        have h2 : (0:ℤ) ≤ BASE ^ (x.digits.length - 1) := by positivity
        nlinarith
    have haddeq : jsZERO.add (multiplyOneDigit x (y.digits.getD 0 0) 0) =
        longAddition jsZERO (multiplyOneDigit x (y.digits.getD 0 0) 0) := by
      unfold BigInteger.add
      rw [if_neg (show ¬ ((multiplyOneDigit x (y.digits.getD 0 0) 0).digits.isEmpty = true)
          by simp only [List.isEmpty_iff]; exact hpne),
        if_neg (show ¬ ((jsZERO).negative = true ∧
          (multiplyOneDigit x (y.digits.getD 0 0) 0).negative = true)
          by intro hc; exact absurd hc.1 (by simp [jsZERO])),
        if_pos (show ¬ ((jsZERO).negative = true) ∧
          ¬ ((multiplyOneDigit x (y.digits.getD 0 0) 0).negative = true)
          by exact ⟨by simp [jsZERO], by rw [pneg]; simp⟩)]
    obtain ⟨lv, lc, ln⟩ := longAddition_spec jsZERO (multiplyOneDigit x (y.digits.getD 0 0) 0)
      (by simp [jsZERO]) prng hval_lo
    have hres : x.multiply y =
        longAddition jsZERO (multiplyOneDigit x (y.digits.getD 0 0) 0) := by
      rw [multiply_eq_mulAcc, hylen, hfold, haddeq, hxn, hyn]
      exact setNeg_self _ ln
    rw [hres]
    refine ⟨?_, lc, ln⟩
    rw [show val (longAddition jsZERO (multiplyOneDigit x (y.digits.getD 0 0) 0)) =
        digitsVal (longAddition jsZERO (multiplyOneDigit x (y.digits.getD 0 0) 0)).digits by
      unfold val
      rw [ln]
      simp]
    rw [lv, pv, hgd, hvy]
    rw [show digitsVal (jsZERO).digits = 0 by simp [jsZERO, digitsVal],
      show val x = digitsVal x.digits by simp [val, hxn]]
    ring

theorem toDigitsF_zero (f : ℕ) : toDigitsF f 0 = [] := by
  cases f <;> simp [toDigitsF]

theorem toDigitsF_spec : ∀ (f n : ℕ), n ≤ f →
    digitsVal (toDigitsF f n) = n ∧ (∀ d ∈ toDigitsF f n, 0 ≤ d ∧ d < BASE) ∧
    (toDigitsF f n).getLast? ≠ some 0 := by
  intro f
  induction f with
  | zero =>
    intro n hn
    have h0 : n = 0 := by omega
    subst h0
    simp [toDigitsF, digitsVal]
  | succ f ih =>
    intro n hn
    by_cases hz : n = 0
    · subst hz
      simp [toDigitsF, digitsVal]
    · have hred : toDigitsF (f + 1) n =
          ((n % 1000000 : ℕ) : ℤ) :: toDigitsF f (n / 1000000) := by
        simp [toDigitsF, hz]
      have hrec : n / 1000000 ≤ f := by omega
      obtain ⟨ihv, ihr, ihl⟩ := ih (n / 1000000) hrec
      rw [hred]
      refine ⟨?_, ?_, ?_⟩
      · unfold digitsVal
        rw [ihv]
        norm_num [BASE]
        omega
      · intro e he
        simp only [List.mem_cons] at he
        rcases he with rfl | he
        · refine ⟨Int.natCast_nonneg _, ?_⟩
          have h2 : n % 1000000 < 1000000 := Nat.mod_lt _ (by norm_num)
          calc ((n % 1000000 : ℕ) : ℤ) < ((1000000 : ℕ) : ℤ) := by exact_mod_cast h2
          _ = BASE := by norm_num [BASE]
        · exact ihr e he
      · by_cases hq : n / 1000000 = 0
        · rw [hq, toDigitsF_zero]
          simp
          omega
        · have hne : toDigitsF f (n / 1000000) ≠ [] := by
            intro h0
            rw [h0] at ihv
            simp [digitsVal] at ihv
            omega
          rw [getLast?_cons_ne_nil hne]
          exact ihl

theorem fromNumber_spec (n : ℤ) : val (fromNumber n) = n ∧ Canonical (fromNumber n) := by
  obtain ⟨hv, hr, hl⟩ := toDigitsF_spec n.natAbs n.natAbs le_rfl
  have hdig : (fromNumber n).digits = toDigitsF n.natAbs n.natAbs := rfl
  have hneg : (fromNumber n).negative = decide (n < 0) := rfl
  constructor
  · unfold val
    rw [hneg, hdig, hv]
    by_cases h : n < 0
    · rw [if_pos (by simpa using h)]
      omega
    · rw [if_neg (by simpa using h)]
      omega
  · refine ⟨by rw [hdig]; exact hr, by rw [hdig]; exact hl, ?_⟩
    intro hd
    rw [hdig] at hd
    have h2 : ((n.natAbs : ℕ) : ℤ) = 0 := by
      rw [← hv, hd]
      simp [digitsVal]
    have hn0 : n = 0 := by omega
    subst hn0
    rfl

theorem divStep_exact (d n c : ℤ) (hd0 : 0 ≤ d) (hdB : d < BASE) (hn0 : 0 < n)
    (hnB : n < BASE) (hc0 : 0 ≤ c) (hcn : c < n) :
    roundQ (qadd (roundQ (qmul ((BASE : ℤ) : ℚ) ((c : ℤ) : ℚ))) ((d : ℤ) : ℚ)) =
      ((BASE * c + d : ℤ) : ℚ) ∧
    qfloor (roundQ (qdiv ((BASE * c + d : ℤ) : ℚ) ((n : ℤ) : ℚ))) = (BASE * c + d) / n ∧
    qsub ((BASE * c + d : ℤ) : ℚ) (qmul ((n : ℤ) : ℚ)
      ((qfloor (qdiv ((BASE * c + d : ℤ) : ℚ) ((n : ℤ) : ℚ)) : ℤ) : ℚ)) =
      (((BASE * c + d) % n : ℤ) : ℚ) := by
  have hB : (BASE : ℤ) = 1000000 := rfl
  have hr0 : 0 ≤ BASE * c + d := by nlinarith
  have hr53 : BASE * c + d ≤ 2 ^ 53 := by nlinarith
  have hn53 : n ≤ 2 ^ 53 := by nlinarith
  have h1 : roundQ (qmul ((BASE : ℤ) : ℚ) ((c : ℤ) : ℚ)) = ((BASE * c : ℤ) : ℚ) := by
    rw [qmul_eq, show ((BASE : ℤ) : ℚ) * ((c : ℤ) : ℚ) = ((BASE * c : ℤ) : ℚ) by push_cast; ring]
    exact roundQ_int _ (by nlinarith) (by nlinarith)
  have h2 : roundQ (qadd (roundQ (qmul ((BASE : ℤ) : ℚ) ((c : ℤ) : ℚ))) ((d : ℤ) : ℚ)) =
      ((BASE * c + d : ℤ) : ℚ) := by
    rw [h1, qadd_eq,
      show ((BASE * c : ℤ) : ℚ) + ((d : ℤ) : ℚ) = ((BASE * c + d : ℤ) : ℚ) by
        push_cast; ring]
    exact roundQ_int _ hr0 hr53
  refine ⟨h2, ?_, ?_⟩
  · rw [qdiv_eq]
    have hcast1 : ((BASE * c + d : ℤ) : ℚ) = (((BASE * c + d).toNat : ℕ) : ℚ) := by
      exact_mod_cast congrArg (fun z : ℤ => (z : ℚ)) (Int.toNat_of_nonneg hr0).symm
    have hcast2 : ((n : ℤ) : ℚ) = ((n.toNat : ℕ) : ℚ) := by
      exact_mod_cast congrArg (fun z : ℤ => (z : ℚ)) (Int.toNat_of_nonneg (le_of_lt hn0)).symm
    rw [hcast1, hcast2]
    rw [floorDivExact _ _ (by omega) (by omega) (by omega)]
    rw [Int.ofNat_div, Int.toNat_of_nonneg hr0, Int.toNat_of_nonneg (le_of_lt hn0)]
    exact Int.tdiv_eq_ediv hr0 (le_of_lt hn0)
  · rw [qdiv_eq, qfloor_eq]
    have hfl : ⌊((BASE * c + d : ℤ) : ℚ) / ((n : ℤ) : ℚ)⌋ = (BASE * c + d) / n := by
      rw [show ((n : ℤ) : ℚ) = ((n.toNat : ℕ) : ℚ) by
        exact_mod_cast congrArg (fun z : ℤ => (z : ℚ))
          (Int.toNat_of_nonneg (le_of_lt hn0)).symm]
      rw [Rat.floor_intCast_div_natCast, Int.toNat_of_nonneg (le_of_lt hn0)]
    rw [hfl, qsub_eq, qmul_eq]
    rw [show ((n : ℤ) : ℚ) * (((BASE * c + d) / n : ℤ) : ℚ) =
        ((n * ((BASE * c + d) / n) : ℤ) : ℚ) by push_cast; ring]
    rw [show (((BASE * c + d) % n : ℤ) : ℚ) =
        ((BASE * c + d : ℤ) : ℚ) - ((n * ((BASE * c + d) / n) : ℤ) : ℚ) by
      rw [show (BASE * c + d) % n = BASE * c + d - n * ((BASE * c + d) / n) from
        Int.emod_def _ _]
      push_cast
      ring]

theorem divNativeAux_spec : ∀ (ds : List ℤ) (n c : ℤ),
    (∀ d ∈ ds, 0 ≤ d ∧ d < BASE) → 0 < n → n < BASE → 0 ≤ c → c < n →
    digitsVal (divNativeAux ds n ((c : ℤ) : ℚ)).1 =
      (c * BASE ^ ds.length + digitsVal ds.reverse) / n ∧
    (∀ q ∈ (divNativeAux ds n ((c : ℤ) : ℚ)).1, 0 ≤ q ∧ q < BASE) ∧
    (divNativeAux ds n ((c : ℤ) : ℚ)).1.length = ds.length := by
  intro ds
  induction ds with
  | nil =>
    intro n c hr hn0 hnB hc0 hcn
    refine ⟨?_, by simp [divNativeAux], by simp [divNativeAux]⟩
    show digitsVal [] = (c * BASE ^ 0 + digitsVal ([] : List ℤ)) / n
    rw [show digitsVal ([] : List ℤ) = 0 from rfl]
    rw [show c * BASE ^ 0 + 0 = c by ring]
    rw [Int.ediv_eq_zero_of_lt hc0 hcn]
  | cons d ds ih =>
    intro n c hr hn0 hnB hc0 hcn
    have hd := hr d (by simp)
    obtain ⟨hstep1, hstep2, hstep3⟩ := divStep_exact d n c hd.1 hd.2 hn0 hnB hc0 hcn
    have hc2a : 0 ≤ (BASE * c + d) % n := Int.emod_nonneg _ (by omega)
    have hc2b : (BASE * c + d) % n < n := Int.emod_lt_of_pos _ hn0
    obtain ⟨ihv, ihr, ihlen⟩ := ih n ((BASE * c + d) % n)
      (fun e he => hr e (by simp [he])) hn0 hnB hc2a hc2b
    have hred : divNativeAux (d :: ds) n ((c : ℤ) : ℚ) =
        ((divNativeAux ds n (((BASE * c + d) % n : ℤ) : ℚ)).1 ++ [(BASE * c + d) / n],
          (divNativeAux ds n (((BASE * c + d) % n : ℤ) : ℚ)).2) := by
      simp only [divNativeAux]
      rw [hstep1, hstep3, hstep2]
    rw [hred]
    have hrn : n * ((BASE * c + d) / n) + (BASE * c + d) % n = BASE * c + d :=
      Int.ediv_add_emod _ _
    have hq0 : 0 ≤ (BASE * c + d) / n := Int.ediv_nonneg (by nlinarith) (by omega)
    have hqB : (BASE * c + d) / n < BASE := by
      apply Int.ediv_lt_of_lt_mul hn0
      nlinarith
    refine ⟨?_, ?_, ?_⟩
    · rw [digitsVal_append, ihv, ihlen]
      rw [show digitsVal [(BASE * c + d) / n] = (BASE * c + d) / n by simp [digitsVal]]
      rw [show (d :: ds).reverse = ds.reverse ++ [d] by simp]
      rw [digitsVal_append]
      rw [show digitsVal [d] = d by simp [digitsVal]]
      have hlrev : ds.reverse.length = ds.length := by simp
      rw [hlrev]
      have hnum : c * BASE ^ (d :: ds).length +
          (digitsVal ds.reverse + BASE ^ ds.length * d) =
          ((BASE * c + d) % n * BASE ^ ds.length + digitsVal ds.reverse) +
            (((BASE * c + d) / n) * BASE ^ ds.length) * n := by
        have hx : (BASE * c + d) % n = BASE * c + d - n * ((BASE * c + d) / n) := by
          omega
        rw [hx, List.length_cons, pow_succ]
        ring
      rw [hnum, Int.add_mul_ediv_right _ _ (by omega)]
      ring
    · intro q hq
      rw [List.mem_append] at hq
      rcases hq with hq | hq
      · exact ihr q hq
      · simp at hq
        subst hq
        exact ⟨hq0, hqB⟩
    · simp [ihlen]

theorem divideByNativeNumber_spec (a : BigInteger) (n : ℤ) (ha : Canonical a)
    (han : a.negative = false) (hn0 : 0 < n) (hnB : n < BASE) :
    divideByNativeNumber a n =
      .ok ⟨stripLeadingZeroDigits (divNativeAux a.digits.reverse n 0).1, false, none⟩ ∧
    Canonical (⟨stripLeadingZeroDigits (divNativeAux a.digits.reverse n 0).1, false, none⟩
      : BigInteger) ∧
    val (⟨stripLeadingZeroDigits (divNativeAux a.digits.reverse n 0).1, false, none⟩
      : BigInteger) = val a / n := by
  obtain ⟨har, hal, _⟩ := ha
  have hc0 : ((0:ℤ) : ℚ) = (0 : ℚ) := by norm_num
  obtain ⟨dv, dr, dlen⟩ := divNativeAux_spec a.digits.reverse n 0
    (fun d hd => har d (by simpa using hd)) hn0 hnB le_rfl hn0
  rw [hc0] at dv dr dlen
  refine ⟨?_, ?_, ?_⟩
  · unfold divideByNativeNumber
    rw [if_neg (by omega : ¬ n = 0)]
    rw [abs_of_pos hn0, han, show (decide (n < 0)) = false by simp; omega]
    rfl
  · refine ⟨?_, strip_getLast_ne _, fun _ => rfl⟩
    intro d hd
    exact dr d (strip_mem _ _ hd)
  · show (if false = true then (-1:ℤ) else 1) *
        digitsVal (stripLeadingZeroDigits (divNativeAux a.digits.reverse n 0).1) = val a / n
    rw [if_neg (by simp), one_mul, digitsVal_strip, dv]
    rw [show a.digits.reverse.reverse = a.digits by simp]
    rw [show val a = digitsVal a.digits by simp [val, han]]
    norm_num

theorem smallModAux_spec : ∀ (ds : List ℤ) (m c : ℤ), 0 < m → 0 ≤ c → c < m →
    (∀ d ∈ ds, 0 ≤ d ∧ d < BASE) →
    smallModAux ds m c = (c * BASE ^ ds.length + digitsVal ds.reverse) % m := by
  intro ds
  induction ds with
  | nil =>
    intro m c hm hc0 hcm _
    show c = (c * BASE ^ 0 + digitsVal ([] : List ℤ)) % m
    rw [show digitsVal ([] : List ℤ) = 0 from rfl,
      show c * BASE ^ 0 + 0 = c by ring, Int.emod_eq_of_lt hc0 hcm]
  | cons d ds ih =>
    intro m c hm hc0 hcm hr
    have hd := hr d (by simp)
    have hs0 : 0 ≤ c * BASE + d := by
      have h2 : (0:ℤ) ≤ c * BASE := mul_nonneg hc0 (by norm_num [BASE])
      linarith
    have htm : Int.tmod (c * BASE + d) m = (c * BASE + d) % m := by
      rw [Int.tmod_eq_emod hs0 (by omega)]
    have hred : smallModAux (d :: ds) m c =
        smallModAux ds m ((c * BASE + d) % m) := by
      simp only [smallModAux]
      rw [htm]
    rw [hred, ih m _ hm (Int.emod_nonneg _ (by omega)) (Int.emod_lt_of_pos _ hm)
      (fun e he => hr e (by simp [he]))]
    have hcong : ((c * BASE + d) % m * BASE ^ ds.length + digitsVal ds.reverse) % m =
        ((c * BASE + d) * BASE ^ ds.length + digitsVal ds.reverse) % m := by
      have h1 : (c * BASE + d) % m ≡ c * BASE + d [ZMOD m] := Int.emod_emod_of_dvd _ dvd_rfl
      exact (h1.mul_right _).add_right _
    rw [hcong]
    rw [show (d :: ds).reverse = ds.reverse ++ [d] by simp, digitsVal_append,
      show digitsVal [d] = d by simp [digitsVal],
      show ds.reverse.length = ds.length by simp, List.length_cons, pow_succ]
    ring_nf

theorem modulo_by_small_spec (a : BigInteger) (r : ℤ) (fuel : ℕ) (ha : Canonical a)
    (han : a.negative = false) (hr2 : 2 ≤ r) (hrB : r < BASE) :
    ∃ m : BigInteger, a.modulo (fromNumber r) fuel = .ok m ∧ Canonical m ∧
      m.negative = false ∧ val m = val a % r := by
  obtain ⟨hrv, hrc⟩ := fromNumber_spec r
  have hBval : BASE = (1000000 : ℤ) := rfl
  have hrneg : (fromNumber r).negative = false := by
    show decide (r < 0) = false
    simp
    omega
  have hrd_ne : (fromNumber r).digits ≠ [] := by
    intro h0
    have h1 : val (fromNumber r) = 0 := by simp [val, h0, digitsVal]
    omega
  have hva0 : 0 ≤ val a := by
    rw [show val a = digitsVal a.digits by simp [val, han]]
    exact digitsVal_nonneg _ (fun d hd => (ha.1 d hd).1)
  have hvabs : val a.abs = val a := by
    rw [val_abs a ha, abs_of_nonneg hva0]
  have hcabs : Canonical a.abs := canonical_abs a ha
  have hrabs_c : Canonical (fromNumber r).abs := canonical_abs _ hrc
  have hrabs_v : val (fromNumber r).abs = r := by
    rw [val_abs _ hrc, hrv, abs_of_nonneg (by omega)]
  have hcm : Canonical jsMAX_NATIVE := by decide
  have hvm : val jsMAX_NATIVE = 2 ^ 53 := by decide
  simp only [BigInteger.modulo]
  rw [if_neg (show ¬ ((fromNumber r).digits.isEmpty = true) by
    simp only [List.isEmpty_iff]; exact hrd_ne)]
  rw [compare_val a.abs (fromNumber r).abs hcabs hrabs_c, hvabs, hrabs_v]
  by_cases hlt : val a < r
  · rw [if_pos hlt, if_pos (by norm_num : (-1:ℤ) < 0)]
    refine ⟨a.abs, rfl, hcabs, rfl, ?_⟩
    rw [hvabs, Int.emod_eq_of_lt hva0 hlt]
  · rw [if_neg hlt]
    rw [if_neg (show ¬ ((if r < val a then (1:ℤ) else 0) < 0) by
      split_ifs <;> norm_num)]
    rw [compare_val a.abs jsMAX_NATIVE hcabs hcm, hvabs, hvm]
    by_cases h53 : val a < 2 ^ 53
    · rw [if_pos h53, if_pos (by norm_num : (-1:ℤ) < 0)]
      rw [toNumber_ok a ha (by rw [abs_of_nonneg hva0]; omega)]
      simp only [JRes.bind]
      rw [toNumber_ok (fromNumber r) hrc (by rw [hrv, abs_of_nonneg (by omega)]; nlinarith)]
      simp only [JRes.bind]
      rw [hrv]
      have htm : Int.tmod (val a) r = val a % r := Int.tmod_eq_emod hva0 (by omega)
      have hm0 : 0 ≤ val a % r := Int.emod_nonneg _ (by omega)
      have hmabs : (((Int.tmod (val a) r).natAbs : ℕ) : ℤ) = val a % r := by
        rw [htm]
        omega
      refine ⟨fromNumber ((Int.tmod (val a) r).natAbs), rfl,
        (fromNumber_spec _).2, ?_, ?_⟩
      · show decide ((((Int.tmod (val a) r).natAbs : ℕ) : ℤ) < 0) = false
        rw [hmabs]
        simp
        omega
      · rw [(fromNumber_spec _).1, hmabs]
    · rw [if_neg h53]
      rw [if_neg (show ¬ ((if 2 ^ 53 < val a then (1:ℤ) else 0) < 0) by
        split_ifs <;> norm_num)]
      rw [compare_val (fromNumber r).abs jsBASE_BIG hrabs_c (by decide), hrabs_v,
        show val jsBASE_BIG = 1000000 by decide]
      rw [if_pos (by omega : r < 1000000), if_pos (by norm_num : (-1:ℤ) < 0)]
      rw [toNumber_ok (fromNumber r) hrc (by rw [hrv, abs_of_nonneg (by omega)]; nlinarith)]
      simp only [JRes.bind]
      rw [hrv]
      have hsm : smallModAux a.digits.reverse r 0 = val a % r := by
        rw [smallModAux_spec a.digits.reverse r 0 (by omega) le_rfl (by omega)
          (fun d hd => ha.1 d (by simpa using hd))]
        rw [show a.digits.reverse.reverse = a.digits by simp]
        rw [show val a = digitsVal a.digits by simp [val, han]]
        ring_nf
      have hm0 : 0 ≤ val a % r := Int.emod_nonneg _ (by omega)
      refine ⟨fromNumber (smallModAux a.digits.reverse r 0), rfl,
        (fromNumber_spec _).2, ?_, ?_⟩
      · show decide (smallModAux a.digits.reverse r 0 < 0) = false
        rw [hsm]
        simp
        omega
      · rw [(fromNumber_spec _).1, hsm]

theorem divide_by_small_spec (a : BigInteger) (r : ℤ) (fuel : ℕ) (ha : Canonical a)
    (han : a.negative = false) (hr2 : 2 ≤ r) (hrB : r < BASE) :
    ∃ q : BigInteger, a.divide (fromNumber r) fuel = .ok q ∧ Canonical q ∧
      q.negative = false ∧ val q = val a / r := by
  obtain ⟨hrv, hrc⟩ := fromNumber_spec r
  have hrB2 : r < 1000000 := by
    rw [show BASE = (1000000:ℤ) from rfl] at hrB
    exact hrB
  have hrneg : (fromNumber r).negative = false := by
    show decide (r < 0) = false
    simp
    omega
  have hva0 : 0 ≤ val a := by
    rw [show val a = digitsVal a.digits by simp [val, han]]
    exact digitsVal_nonneg _ (fun d hd => (ha.1 d hd).1)
  have hvabs : val a.abs = val a := by
    rw [val_abs a ha, abs_of_nonneg hva0]
  have hcabs : Canonical a.abs := canonical_abs a ha
  have hrabs_c : Canonical (fromNumber r).abs := canonical_abs _ hrc
  have hrabs_v : val (fromNumber r).abs = r := by
    rw [val_abs _ hrc, hrv, abs_of_nonneg (by omega)]
  have hcm : Canonical jsMAX_NATIVE := by decide
  have hvm : val jsMAX_NATIVE = 2 ^ 53 := by decide
  simp only [BigInteger.divide]
  rw [compare_val a.abs (fromNumber r).abs hcabs hrabs_c, hvabs, hrabs_v]
  by_cases hlt : val a < r
  · rw [if_pos hlt, if_pos (by norm_num : (-1:ℤ) < 0)]
    refine ⟨jsZERO, rfl, by decide, rfl, ?_⟩
    rw [show val jsZERO = 0 by decide, Int.ediv_eq_zero_of_lt hva0 hlt]
  · rw [if_neg hlt]
    rw [if_neg (show ¬ ((if r < val a then (1:ℤ) else 0) < 0) by
      split_ifs <;> norm_num)]
    rw [compare_val a.abs jsMAX_NATIVE hcabs hcm, hvabs, hvm]
    have hq0 : 0 ≤ val a / r := Int.ediv_nonneg hva0 (by omega)
    by_cases h53 : val a < 2 ^ 53
    · rw [if_pos h53, if_pos (by norm_num : (-1:ℤ) < 0)]
      rw [toNumber_ok a ha (by rw [abs_of_nonneg hva0]; omega)]
      simp only [JRes.bind]
      rw [toNumber_ok (fromNumber r) hrc (by rw [hrv, abs_of_nonneg (by omega)]; omega)]
      simp only [JRes.bind]
      rw [hrv]
      rw [if_neg (by omega : ¬ r = 0)]
      rw [han, hrneg]
      rw [show (xor false false) = false from rfl]
      rw [if_neg (by simp : ¬ (false = true))]
      have hfd : qfloor (roundQ (qdiv (((val a).natAbs : ℤ) : ℚ) ((r.natAbs : ℤ) : ℚ))) =
          val a / r := by
        rw [qdiv_eq]
        rw [show (((val a).natAbs : ℤ) : ℚ) = (((val a).natAbs : ℕ) : ℚ) from
            Int.cast_natCast _,
          show ((r.natAbs : ℤ) : ℚ) = ((r.natAbs : ℕ) : ℚ) from Int.cast_natCast _]
        rw [floorDivExact _ _ (by omega) (by omega) (by omega)]
        rw [Int.ofNat_div]
        rw [Int.natAbs_of_nonneg hva0, Int.natAbs_of_nonneg (by omega : (0:ℤ) ≤ r)]
        exact Int.tdiv_eq_ediv hva0 (by omega)
      rw [hfd, one_mul]
      refine ⟨fromNumber (val a / r), rfl, (fromNumber_spec _).2, ?_, ?_⟩
      · show decide (val a / r < 0) = false
        simp
        omega
      · exact (fromNumber_spec _).1
    · rw [if_neg h53]
      rw [if_neg (show ¬ ((if 2 ^ 53 < val a then (1:ℤ) else 0) < 0) by
        split_ifs <;> norm_num)]
      rw [compare_val (fromNumber r).abs jsMAX_NATIVE hrabs_c hcm, hrabs_v, hvm]
      rw [if_pos (by omega : r < 2 ^ 53), if_pos (by norm_num : (-1:ℤ) < 0)]
      rw [toNumber_ok (fromNumber r) hrc (by rw [hrv, abs_of_nonneg (by omega)]; omega)]
      simp only [JRes.bind]
      rw [hrv]
      obtain ⟨hdeq, hdc, hdv⟩ := divideByNativeNumber_spec a r ha han (by omega) hrB
      rw [hdeq]
      exact ⟨_, rfl, hdc, rfl, hdv⟩

/-- The numeric value of a digit-character string, least-significant
character first. -/
def charsVal (r : ℤ) : List Char → ℤ
  | [] => 0
  | c :: cs => charValJS c + r * charsVal r cs

theorem charsVal_append (r : ℤ) : ∀ (xs ys : List Char),
    charsVal r (xs ++ ys) = charsVal r xs + r ^ xs.length * charsVal r ys := by
  intro xs
  induction xs with
  | nil =>
    intro ys
    simp [charsVal]
  | cons c cs ih =>
    intro ys
    simp only [List.cons_append, charsVal, List.length_cons, pow_succ, List.append_eq]
    rw [ih]
    ring

theorem charVal_digitChar (d : ℤ) (h0 : 0 ≤ d) (h36 : d < 36) :
    charValJS (digitCharJS d) = d := by
  have h : ∀ k ∈ List.range 36, charValJS (digitCharJS ((k : ℕ) : ℤ)) = ((k : ℕ) : ℤ) := by
    decide
  have h2 := h d.toNat (by rw [List.mem_range]; omega)
  rwa [Int.toNat_of_nonneg h0] at h2

theorem digitChar_ne_minus (d : ℤ) (h0 : 0 ≤ d) (h36 : d < 36) :
    digitCharJS d ≠ '-' := by
  have h : ∀ k ∈ List.range 36, digitCharJS ((k : ℕ) : ℤ) ≠ '-' := by decide
  have h2 := h d.toNat (by rw [List.mem_range]; omega)
  rwa [Int.toNat_of_nonneg h0] at h2

theorem charVal_decimal (c : Char) (h : '0' ≤ c ∧ c ≤ '9') :
    charValJS c = ((c.toNat - 48 : ℕ) : ℤ) ∧ 0 ≤ charValJS c ∧ charValJS c < 10 := by
  refine ⟨by simp [charValJS, h], ?_, ?_⟩
  · rw [show charValJS c = ((c.toNat - 48 : ℕ) : ℤ) by simp [charValJS, h]]
    exact Int.natCast_nonneg _
  · rw [show charValJS c = ((c.toNat - 48 : ℕ) : ℤ) by simp [charValJS, h]]
    obtain ⟨h1, h2⟩ := h
    rw [Char.le_def] at h1 h2
    have : c.toNat ≤ 57 := h2
    omega

theorem charVal_zero_char : charValJS '0' = 0 := by decide

theorem charsVal_zero_of_all_zero (r : ℤ) : ∀ (s : List Char),
    (∀ c ∈ s, c = '0') → charsVal r s = 0 := by
  intro s
  induction s with
  | nil => intro _; rfl
  | cons c cs ih =>
    intro h
    have hc := h c (by simp)
    subst hc
    rw [show charsVal r ('0' :: cs) = charValJS '0' + r * charsVal r cs from rfl,
      charVal_zero_char, ih (fun e he => h e (by simp [he]))]
    ring

theorem representsZero_all (s : List Char) (h : representsZero s = true) :
    ∀ c ∈ s, c = '0' := by
  intro c hc
  unfold representsZero at h
  rw [List.all_eq_true] at h
  have := h c hc
  simpa using this

theorem decChar_facts (k : ℕ) (hk : k < 10) :
    ('0' ≤ Char.ofNat (48 + k) ∧ Char.ofNat (48 + k) ≤ '9') ∧
      charValJS (Char.ofNat (48 + k)) = k := by
  interval_cases k <;> exact ⟨by decide, by decide⟩

theorem charsVal_bound : ∀ (s : List Char),
    (∀ c ∈ s, 0 ≤ charValJS c ∧ charValJS c < 10) →
    0 ≤ charsVal 10 s ∧ charsVal 10 s < 10 ^ s.length := by
  intro s
  induction s with
  | nil =>
    intro _
    norm_num [charsVal]
  | cons c cs ih =>
    intro h
    have hc := h c (by simp)
    obtain ⟨ih0, ih1⟩ := ih (fun e he => h e (by simp [he]))
    rw [show charsVal 10 (c :: cs) = charValJS c + 10 * charsVal 10 cs from rfl]
    constructor
    · linarith
    · rw [List.length_cons, pow_succ]
      nlinarith

theorem natToCharsF_spec : ∀ (f n : ℕ), n ≤ f →
    (∀ c ∈ natToCharsF f n, '0' ≤ c ∧ c ≤ '9') ∧
    charsVal 10 (natToCharsF f n).reverse = n ∧
    natToCharsF f n ≠ [] ∧
    (1 ≤ n → 10 ^ ((natToCharsF f n).length - 1) ≤ n ∧
      n < 10 ^ (natToCharsF f n).length) := by
  intro f
  induction f with
  | zero =>
    intro n hn
    have h0 : n = 0 := by omega
    subst h0
    refine ⟨by decide, by decide, by decide, by omega⟩
  | succ f ih =>
    intro n hn
    by_cases hlt : n < 10
    · have hred : natToCharsF (f + 1) n = [Char.ofNat (48 + n)] := by
        simp [natToCharsF, hlt]
      obtain ⟨⟨hc1, hc2⟩, hcv⟩ := decChar_facts n hlt
      rw [hred]
      refine ⟨?_, ?_, by simp, ?_⟩
      · intro c hc
        simp at hc
        subst hc
        exact ⟨hc1, hc2⟩
      · rw [show ([Char.ofNat (48 + n)]).reverse = [Char.ofNat (48 + n)] from rfl,
          show charsVal 10 [Char.ofNat (48 + n)] =
            charValJS (Char.ofNat (48 + n)) + 10 * 0 from rfl, hcv]
        ring
      · intro h1
        simp only [List.length_singleton]
        omega
    · have hred : natToCharsF (f + 1) n =
          natToCharsF f (n / 10) ++ [Char.ofNat (48 + n % 10)] := by
        simp [natToCharsF, hlt]
      have hrec : n / 10 ≤ f := by omega
      obtain ⟨ihc, ihv, ihne, ihlen⟩ := ih (n / 10) hrec
      have hm10 : n % 10 < 10 := Nat.mod_lt _ (by norm_num)
      obtain ⟨⟨hc1, hc2⟩, hcv⟩ := decChar_facts (n % 10) hm10
      obtain ⟨hlo, hhi⟩ := ihlen (by omega)
      rw [hred]
      refine ⟨?_, ?_, by simp, ?_⟩
      · intro c hc
        rw [List.mem_append] at hc
        rcases hc with hc | hc
        · exact ihc c hc
        · simp at hc
          subst hc
          exact ⟨hc1, hc2⟩
      · rw [List.reverse_append]
        rw [show ([Char.ofNat (48 + n % 10)]).reverse = [Char.ofNat (48 + n % 10)]
          from rfl]
        rw [List.singleton_append,
          show charsVal 10 (Char.ofNat (48 + n % 10) :: (natToCharsF f (n / 10)).reverse) =
            charValJS (Char.ofNat (48 + n % 10)) +
              10 * charsVal 10 (natToCharsF f (n / 10)).reverse from rfl,
          hcv, ihv]
        push_cast
        omega
      · intro _
        rw [List.length_append, List.length_singleton]
        have hlenne : 1 ≤ (natToCharsF f (n / 10)).length := by
          cases hc : natToCharsF f (n / 10) with
          | nil => exact absurd hc ihne
          | cons a l => simp [hc]
        have hps : (10:ℕ) ^ ((natToCharsF f (n / 10)).length - 1 + 1) =
            10 * 10 ^ ((natToCharsF f (n / 10)).length - 1) := by
          rw [pow_succ]
          ring
        have hps2 : (10:ℕ) ^ ((natToCharsF f (n / 10)).length + 1) =
            10 * 10 ^ (natToCharsF f (n / 10)).length := by
          rw [pow_succ]
          ring
        constructor
        · rw [show (natToCharsF f (n / 10)).length + 1 - 1 =
            (natToCharsF f (n / 10)).length - 1 + 1 by omega, hps]
          omega
        · rw [hps2]
          omega

theorem natToChars_spec (n : ℕ) :
    (∀ c ∈ natToChars n, '0' ≤ c ∧ c ≤ '9') ∧
    charsVal 10 (natToChars n).reverse = n ∧
    natToChars n ≠ [] ∧
    (1 ≤ n → 10 ^ ((natToChars n).length - 1) ≤ n ∧ n < 10 ^ (natToChars n).length) :=
  natToCharsF_spec n n le_rfl

theorem padTo6_spec (d : ℤ) (h0 : 0 ≤ d) (hB : d < BASE) :
    (∀ c ∈ padTo6 d, '0' ≤ c ∧ c ≤ '9') ∧
    (padTo6 d).length = 6 ∧
    charsVal 10 (padTo6 d).reverse = d := by
  have hBi : BASE = (1000000 : ℤ) := rfl
  have hsum0 : (0:ℤ) ≤ d + BASE := by omega
  have hit : intToChars (d + BASE) = natToChars (d + BASE).toNat := by
    unfold intToChars
    rw [if_neg (by omega)]
  have hn := (d + BASE).toNat
  obtain ⟨hch, hval, hne, hlen⟩ := natToChars_spec (d + BASE).toNat
  have hnlo : 1000000 ≤ (d + BASE).toNat := by omega
  have hnhi : (d + BASE).toNat < 2000000 := by omega
  obtain ⟨hblo, hbhi⟩ := hlen (by omega)
  have hL7 : (natToChars (d + BASE).toNat).length = 7 := by
    have h6 : 6 < (natToChars (d + BASE).toNat).length := by
      by_contra hcon
      have hle : (natToChars (d + BASE).toNat).length ≤ 6 := by omega
      have := Nat.pow_le_pow_right (show 1 ≤ 10 by norm_num) hle
      omega
    have h8 : (natToChars (d + BASE).toNat).length - 1 < 7 := by
      by_contra hcon
      have hge : 7 ≤ (natToChars (d + BASE).toNat).length - 1 := by omega
      have := Nat.pow_le_pow_right (show 1 ≤ 10 by norm_num) hge
      omega
    omega
  obtain ⟨hd0, t, hsplit⟩ : ∃ hd0 t, natToChars (d + BASE).toNat = hd0 :: t := by
    cases hc : natToChars (d + BASE).toNat with
    | nil => exact absurd hc hne
    | cons a l => exact ⟨a, l, rfl⟩
  have htlen : t.length = 6 := by
    have := hL7
    rw [hsplit] at this
    simpa using this
  have hpd : padTo6 d = t := by
    unfold padTo6
    rw [hit, hsplit]
    rfl
  have htch : ∀ c ∈ t, '0' ≤ c ∧ c ≤ '9' := by
    intro c hc
    exact hch c (by rw [hsplit]; simp [hc])
  have hhdch := hch hd0 (by rw [hsplit]; simp)
  have htb := charsVal_bound t.reverse (by
    intro c hc
    rw [List.mem_reverse] at hc
    obtain ⟨hcc1, hcc2⟩ := (charVal_decimal c (htch c hc))
    exact ⟨hcc2.1, hcc2.2⟩)
  have hhv := charVal_decimal hd0 hhdch
  refine ⟨by rw [hpd]; exact htch, by rw [hpd]; exact htlen, ?_⟩
  rw [hpd]
  have hv2 : charsVal 10 (hd0 :: t).reverse = ((d + BASE).toNat : ℤ) := by
    rw [hsplit] at hval
    exact hval
  rw [show (hd0 :: t).reverse = t.reverse ++ [hd0] by simp] at hv2
  rw [charsVal_append] at hv2
  have hrl : t.reverse.length = 6 := by simpa using htlen
  rw [hrl] at hv2
  have hone : charsVal 10 [hd0] = charValJS hd0 := by
    rw [show charsVal 10 [hd0] = charValJS hd0 + 10 * charsVal 10 [] from rfl]
    rw [show charsVal 10 ([] : List Char) = 0 from rfl]
    ring
  rw [hone] at hv2
  have hcast : ((d + BASE).toNat : ℤ) = d + 1000000 := by omega
  rw [hcast] at hv2
  rw [hrl] at htb
  have hhr : 0 ≤ charValJS hd0 ∧ charValJS hd0 < 10 := hhv.2
  norm_num at hv2 htb
  omega

theorem low_fold_spec : ∀ (ds : List ℤ) (acc : List Char),
    (∀ d ∈ ds, 0 ≤ d ∧ d < BASE) →
    (∀ c ∈ acc, '0' ≤ c ∧ c ≤ '9') →
    (∀ c ∈ ds.foldl (fun a d => padTo6 d ++ a) acc, '0' ≤ c ∧ c ≤ '9') ∧
    (ds.foldl (fun a d => padTo6 d ++ a) acc).length = 6 * ds.length + acc.length ∧
    charsVal 10 (ds.foldl (fun a d => padTo6 d ++ a) acc).reverse =
      charsVal 10 acc.reverse + 10 ^ acc.length * digitsVal ds := by
  intro ds
  induction ds with
  | nil =>
    intro acc _ hacc
    refine ⟨hacc, by simp, ?_⟩
    rw [show ([] : List ℤ).foldl (fun a d => padTo6 d ++ a) acc = acc from rfl]
    rw [show digitsVal ([] : List ℤ) = 0 from rfl]
    ring
  | cons d ds ih =>
    intro acc hds hacc
    have hd := hds d (by simp)
    obtain ⟨pch, plen, pval⟩ := padTo6_spec d hd.1 hd.2
    have hacc2 : ∀ c ∈ padTo6 d ++ acc, '0' ≤ c ∧ c ≤ '9' := by
      intro c hc
      rw [List.mem_append] at hc
      rcases hc with hc | hc
      · exact pch c hc
      · exact hacc c hc
    obtain ⟨ihc, ihl, ihv⟩ := ih (padTo6 d ++ acc) (fun e he => hds e (by simp [he])) hacc2
    have hred : (d :: ds).foldl (fun a d => padTo6 d ++ a) acc =
        ds.foldl (fun a d => padTo6 d ++ a) (padTo6 d ++ acc) := rfl
    rw [hred]
    refine ⟨ihc, ?_, ?_⟩
    · rw [ihl, List.length_append, plen, List.length_cons]
      ring
    · rw [ihv]
      rw [show (padTo6 d ++ acc).reverse = acc.reverse ++ (padTo6 d).reverse by simp]
      rw [charsVal_append, pval]
      rw [List.length_append, plen, List.length_reverse]
      rw [show digitsVal (d :: ds) = d + BASE * digitsVal ds from rfl]
      rw [show BASE = (10:ℤ) ^ 6 by norm_num [BASE]]
      rw [pow_add]
      ring

theorem decimalBuild_spec (a : BigInteger) (ha : Canonical a) (han : a.negative = false)
    (hne : a.digits ≠ []) :
    (∀ c ∈ decimalBuild a, '0' ≤ c ∧ c ≤ '9') ∧
    charsVal 10 (decimalBuild a).reverse = val a ∧
    decimalBuild a ≠ [] := by
  obtain ⟨har, hal, _⟩ := ha
  rcases List.eq_nil_or_concat a.digits with h0 | ⟨init, t, hconcat⟩
  · exact absurd h0 hne
  simp only [List.concat_eq_append] at hconcat
  have hinitlen : a.digits.length - 1 = init.length := by
    rw [hconcat]
    simp
  have htake : a.digits.take (a.digits.length - 1) = init := by
    rw [hconcat, show (init ++ [t]).length - 1 = init.length by simp]
    exact List.take_left init [t]
  have hgd : a.digits.getD (a.digits.length - 1) 0 = t := by
    rw [hconcat, show (init ++ [t]).length - 1 = init.length by simp]
    exact getD_concat_self init t
  have ht := har t (by rw [hconcat]; simp)
  have ht0 : t ≠ 0 := by
    intro h0
    apply hal
    rw [hconcat, h0]
    simp
  have hitc : intToChars t = natToChars t.toNat := by
    unfold intToChars
    rw [if_neg (by omega)]
  obtain ⟨tch, tval, tne, _⟩ := natToChars_spec t.toNat
  obtain ⟨lch, llen, lval⟩ := low_fold_spec init [] (fun d hd =>
    har d (by rw [hconcat]; simp [hd])) (by simp)
  have hdb : decimalBuild a = natToChars t.toNat ++
      init.foldl (fun a d => padTo6 d ++ a) [] := by
    unfold decimalBuild
    rw [han, htake, hgd, hitc]
    simp
  rw [hdb]
  refine ⟨?_, ?_, ?_⟩
  · intro c hc
    rw [List.mem_append] at hc
    rcases hc with hc | hc
    · exact tch c hc
    · exact lch c hc
  · rw [List.reverse_append, charsVal_append, List.length_reverse, llen]
    rw [show charsVal 10 (init.foldl (fun a d => padTo6 d ++ a) []).reverse =
        digitsVal init by
      rw [lval]
      simp [charsVal]]
    rw [tval]
    rw [show val a = digitsVal a.digits by simp [val, han], hconcat, digitsVal_append]
    rw [show digitsVal [t] = t by simp [digitsVal]]
    rw [show ((t.toNat : ℕ) : ℤ) = t by omega]
    rw [show BASE = (10:ℤ) ^ 6 by norm_num [BASE]]
    rw [List.length_nil, ← pow_mul]
    ring
  · intro h0
    rw [List.append_eq_nil] at h0
    exact tne h0.1

theorem fromNumber_single (g : ℤ) (h1 : 0 < g) (hB : g < BASE) :
    (fromNumber g).digits = [g] := by
  have hB2 : g.natAbs < 1000000 := by
    rw [show BASE = (1000000 : ℤ) from rfl] at hB
    omega
  have hdig : (fromNumber g).digits = toDigitsF g.natAbs g.natAbs := rfl
  rw [hdig]
  obtain ⟨f, hf⟩ : ∃ f, g.natAbs = f + 1 := ⟨g.natAbs - 1, by omega⟩
  rw [hf]
  rw [show toDigitsF (f + 1) (f + 1) =
      (((f + 1) % 1000000 : ℕ) : ℤ) :: toDigitsF f ((f + 1) / 1000000) by
    simp [toDigitsF]]
  rw [Nat.mod_eq_of_lt (by omega), Nat.div_eq_of_lt (by omega), toDigitsF_zero]
  rw [show ((f + 1 : ℕ) : ℤ) = g by omega]

theorem valueOfAux_spec (r : ℤ) (hr2 : 2 ≤ r) (hrB : r < BASE) :
    ∀ (cs : List Char) (result multiplier : BigInteger),
    Canonical result → result.negative = false →
    Canonical multiplier → multiplier.negative = false → multiplier.digits ≠ [] →
    (∀ c ∈ cs, 0 ≤ charValJS c ∧ charValJS c < BASE) →
    val (valueOfAux (fromNumber r) cs result multiplier) =
      val result + val multiplier * charsVal r cs ∧
    Canonical (valueOfAux (fromNumber r) cs result multiplier) ∧
    (valueOfAux (fromNumber r) cs result multiplier).negative = false := by
  intro cs
  induction cs with
  | nil =>
    intro result multiplier hres hresn _ _ _ _
    refine ⟨?_, hres, hresn⟩
    rw [show valueOfAux (fromNumber r) [] result multiplier = result from rfl]
    rw [show charsVal r [] = 0 from rfl]
    ring
  | cons c cs ih =>
    intro result multiplier hres hresn hmul hmuln hmule hch
    have hc := hch c (by simp)
    obtain ⟨hrv, hrc⟩ := fromNumber_spec r
    have hrneg : (fromNumber r).negative = false := by
      show decide (r < 0) = false
      simp
      omega
    have hrd : (fromNumber r).digits = [r] := fromNumber_single r (by omega) hrB
    obtain ⟨m2v, m2c, m2n⟩ := multiply_singleDigit_right multiplier (fromNumber r)
      hmul hmuln hrneg r hrd (by omega) hrB
    have hmulpos : 0 < val multiplier := by
      rw [show val multiplier = digitsVal multiplier.digits by simp [val, hmuln]]
      have h1 := canonical_digitsVal_pos multiplier.digits hmul.1 hmul.2.1 hmule
      have h2 : (0:ℤ) < BASE ^ (multiplier.digits.length - 1) :=
        pow_pos (by norm_num [BASE]) _
      linarith
    have hm2pos : 0 < val (multiplier.multiply (fromNumber r)) := by
      rw [m2v, hrv]
      nlinarith
    have hm2ne : (multiplier.multiply (fromNumber r)).digits ≠ [] := by
      intro h0
      have h1 : val (multiplier.multiply (fromNumber r)) = 0 := by
        simp [val, h0, digitsVal]
      omega
    by_cases hz : charValJS c = 0
    · have hbz : (fromNumber (charValJS c)).isZero = true := by
        rw [hz]
        decide
      have hred : valueOfAux (fromNumber r) (c :: cs) result multiplier =
          valueOfAux (fromNumber r) cs result (multiplier.multiply (fromNumber r)) := by
        simp only [valueOfAux]
        rw [hbz]
        simp
      rw [hred]
      obtain ⟨iv, ic, in2⟩ := ih result (multiplier.multiply (fromNumber r)) hres hresn
        m2c m2n hm2ne (fun e he => hch e (by simp [he]))
      refine ⟨?_, ic, in2⟩
      rw [iv, m2v, hrv]
      rw [show charsVal r (c :: cs) = charValJS c + r * charsVal r cs from rfl, hz]
      ring
    · have hg1 : 1 ≤ charValJS c := by omega
      have hbd : (fromNumber (charValJS c)).digits = [charValJS c] :=
        fromNumber_single _ (by omega) hc.2
      have hbz : (fromNumber (charValJS c)).isZero = false := by
        show (fromNumber (charValJS c)).digits.isEmpty = false
        rw [hbd]
        rfl
      have hbneg : (fromNumber (charValJS c)).negative = false := by
        show decide (charValJS c < 0) = false
        simp
        omega
      obtain ⟨pv, pc, pn⟩ := multiply_singleDigit_left (fromNumber (charValJS c))
        multiplier (charValJS c) hbd hg1 hc.2 hbneg hmul hmuln hmule
      obtain ⟨av, ac, an⟩ := add_nonneg_spec result
        ((fromNumber (charValJS c)).multiply multiplier) hres pc hresn pn
      have hred : valueOfAux (fromNumber r) (c :: cs) result multiplier =
          valueOfAux (fromNumber r) cs
            (result.add ((fromNumber (charValJS c)).multiply multiplier))
            (multiplier.multiply (fromNumber r)) := by
        simp only [valueOfAux]
        rw [hbz]
        simp
      rw [hred]
      obtain ⟨iv, ic, in2⟩ := ih _ _ ac an m2c m2n hm2ne
        (fun e he => hch e (by simp [he]))
      refine ⟨?_, ic, in2⟩
      rw [iv, av, pv, m2v, hrv]
      rw [show val (fromNumber (charValJS c)) = charValJS c from
        (fromNumber_spec (charValJS c)).1]
      rw [show charsVal r (c :: cs) = charValJS c + r * charsVal r cs from rfl]
      ring

theorem toStringLoop_spec : ∀ (f : ℕ) (cv : BigInteger) (acc : List Char)
    (r : ℤ) (fuel0 : ℕ), 2 ≤ r → r ≤ 36 → Canonical cv → cv.negative = false →
    (val cv).toNat ≤ f →
    ∃ s : List Char,
      toStringLoop (fromNumber r) fuel0 f cv acc = .ok (s ++ acc) ∧
      charsVal r s.reverse = val cv ∧
      (∀ c ∈ s, 0 ≤ charValJS c ∧ charValJS c < r ∧ c ≠ '-') ∧
      (∀ c ∈ s, charValJS c = 0 → c = '0') := by
  intro f
  induction f with
  | zero =>
    intro cv acc r fuel0 hr2 hr36 hcv hcvn hval
    have hva0 : 0 ≤ val cv := by
      rw [show val cv = digitsVal cv.digits by simp [val, hcvn]]
      exact digitsVal_nonneg _ (fun d hd => (hcv.1 d hd).1)
    have hv0 : val cv = 0 := by omega
    have hdd : cv.digits = [] := digits_nil_of_val_zero cv hcv hv0
    have hzz : cv.isZero = true := by
      show cv.digits.isEmpty = true
      rw [hdd]
      rfl
    refine ⟨[], ?_, by rw [hv0]; rfl, by simp, by simp⟩
    simp only [toStringLoop]
    rw [if_pos hzz]
    simp
  | succ f ih =>
    intro cv acc r fuel0 hr2 hr36 hcv hcvn hval
    have hva0 : 0 ≤ val cv := by
      rw [show val cv = digitsVal cv.digits by simp [val, hcvn]]
      exact digitsVal_nonneg _ (fun d hd => (hcv.1 d hd).1)
    by_cases hz : cv.digits = []
    · have hv0 : val cv = 0 := by simp [val, hz, digitsVal]
      have hzz : cv.isZero = true := by
        show cv.digits.isEmpty = true
        rw [hz]
        rfl
      refine ⟨[], ?_, by rw [hv0]; rfl, by simp, by simp⟩
      simp only [toStringLoop]
      rw [if_pos hzz]
      simp
    · have hzz : cv.isZero = false := by
        show cv.digits.isEmpty = false
        cases hdd : cv.digits with
        | nil => exact absurd hdd hz
        | cons a l => rfl
      have hvpos : 0 < val cv := by
        rw [show val cv = digitsVal cv.digits by simp [val, hcvn]]
        have h1 := canonical_digitsVal_pos cv.digits hcv.1 hcv.2.1 hz
        have h2 : (0:ℤ) < BASE ^ (cv.digits.length - 1) := pow_pos (by norm_num [BASE]) _
        linarith
      have hrB : r < BASE := by
        rw [show BASE = (1000000 : ℤ) from rfl]
        omega
      obtain ⟨m, hmeq, hmc, hmn, hmv⟩ := modulo_by_small_spec cv r fuel0 hcv hcvn hr2 hrB
      obtain ⟨q, hqeq, hqc, hqn, hqv⟩ := divide_by_small_spec cv r fuel0 hcv hcvn hr2 hrB
      have hdigit0 : 0 ≤ val cv % r := Int.emod_nonneg _ (by omega)
      have hdigitlt : val cv % r < r := Int.emod_lt_of_pos _ (by omega)
      have htn : m.toNumber = .ok (val cv % r) := by
        rw [← hmv]
        apply toNumber_ok m hmc
        rw [hmv, abs_of_nonneg hdigit0]
        have : (2:ℤ) ^ 53 = 9007199254740992 := by norm_num
        omega
      have hq0 : 0 ≤ val q := by
        rw [hqv]
        exact Int.ediv_nonneg hva0 (by omega)
      have hqlt : val q < val cv := by
        rw [hqv]
        apply Int.ediv_lt_of_lt_mul (by omega)
        nlinarith
      obtain ⟨s', hs'eq, hs'v, hs'r, hs'z⟩ := ih q (digitCharJS (val cv % r) :: acc) r fuel0
        hr2 hr36 hqc hqn (by omega)
      refine ⟨s' ++ [digitCharJS (val cv % r)], ?_, ?_, ?_, ?_⟩
      · simp only [toStringLoop]
        rw [if_neg (show ¬ cv.isZero = true by rw [hzz]; simp)]
        rw [hmeq]
        simp only [JRes.bind]
        rw [htn]
        simp only [JRes.bind]
        rw [hqeq]
        simp only [JRes.bind]
        rw [hs'eq]
        simp
      · rw [List.reverse_append,
          show ([digitCharJS (val cv % r)]).reverse = [digitCharJS (val cv % r)] from rfl,
          List.singleton_append,
          show charsVal r (digitCharJS (val cv % r) :: s'.reverse) =
            charValJS (digitCharJS (val cv % r)) + r * charsVal r s'.reverse from rfl,
          charVal_digitChar _ hdigit0 (by omega), hs'v, hqv]
        exact Int.emod_add_ediv (val cv) r
      · intro c hcmem
        rw [List.mem_append] at hcmem
        rcases hcmem with hcm | hcm
        · exact hs'r c hcm
        · simp at hcm
          subst hcm
          exact ⟨by rw [charVal_digitChar _ hdigit0 (by omega)]; omega,
            by rw [charVal_digitChar _ hdigit0 (by omega)]; omega,
            digitChar_ne_minus _ hdigit0 (by omega)⟩
      · intro c hcmem hc0
        rw [List.mem_append] at hcmem
        rcases hcmem with hcm | hcm
        · exact hs'z c hcm hc0
        · simp at hcm
          subst hcm
          rw [charVal_digitChar _ hdigit0 (by omega)] at hc0
          rw [hc0]
          decide

theorem valueOf_not_minus (s : List Char) (base : ℤ) (hnz : representsZero s = false)
    (hm : s.head? ≠ some '-') :
    valueOf s base =
      valueOfAux (fromNumber base) s.reverse { jsZERO with negative := false } jsONE := by
  unfold valueOf
  rw [if_neg (show ¬ representsZero s = true by rw [hnz]; simp)]
  split
  · exfalso
    apply hm
    rfl
  · rfl

theorem valueOf_spec_pos (r : ℤ) (hr2 : 2 ≤ r) (hrB : r < BASE) (s : List Char)
    (hs : ∀ c ∈ s, 0 ≤ charValJS c ∧ charValJS c < BASE ∧ c ≠ '-')
    (hnz : representsZero s = false) :
    val (valueOf s r) = charsVal r s.reverse ∧ Canonical (valueOf s r) ∧
    (valueOf s r).negative = false := by
  have hne : s ≠ [] := by
    intro h
    rw [h] at hnz
    exact absurd hnz (by decide)
  have hhead : s.head? ≠ some '-' := by
    cases s with
    | nil => exact absurd rfl hne
    | cons c cs =>
      intro h
      simp at h
      exact (hs c (by simp)).2.2 h
  rw [valueOf_not_minus s r hnz hhead]
  obtain ⟨v, cn, ng⟩ := valueOfAux_spec r hr2 hrB s.reverse
    { jsZERO with negative := false } jsONE (by decide) rfl (by decide) (by decide) (by decide)
    (fun c hc => ⟨(hs c (List.mem_reverse.mp hc)).1, (hs c (List.mem_reverse.mp hc)).2.1⟩)
  refine ⟨?_, cn, ng⟩
  rw [v, show val { jsZERO with negative := false } = 0 from by decide,
    show val jsONE = 1 from by decide]
  ring

/-- C7 (amended): the format/parse round-trip `valueOf(a.toString(r), r)` is
the identity on canonical non-negative values whose cached decimal string, if
present, is a digit string denoting the value, for every base `r ∈ [2, 36]`:
printing succeeds and parsing the printed string in the same base yields a
canonical, non-negative value equal to `a`.  (For negative values the sign is
lost in `valueOf`, see the counterexample.) -/
theorem c7_amended_roundtrip (a : BigInteger) (r : ℤ) (fuel : ℕ)
    (ha : Canonical a) (han : a.negative = false) (hr2 : 2 ≤ r) (hr36 : r ≤ 36)
    (hcache : a.numberString = none ∨ ∃ s0, a.numberString = some s0 ∧
      (∀ c ∈ s0, '0' ≤ c ∧ c ≤ '9') ∧ charsVal 10 s0.reverse = val a)
    (hfuel : (val a).toNat ≤ fuel) :
    ∃ s, a.toString r fuel = .ok s ∧ (valueOf s r).equals a = true ∧
      Canonical (valueOf s r) ∧ (valueOf s r).negative = false := by
  have hrB : r < BASE := by
    rw [show BASE = (1000000 : ℤ) from rfl]
    omega
  have hva0 : 0 ≤ val a := by
    rw [show val a = digitsVal a.digits by simp [val, han]]
    exact digitsVal_nonneg _ (fun d hd => (ha.1 d hd).1)
  unfold BigInteger.toString
  rw [if_neg (show ¬ (r < 2 ∨ 36 < r) by omega)]
  by_cases hz : a.digits = []
  · have hzz : a.isZero = true := by
      show a.digits.isEmpty = true
      rw [hz]
      rfl
    rw [if_pos hzz]
    have hvz : valueOf ['0'] r = jsZERO := by
      unfold valueOf
      rw [if_pos (show representsZero ['0'] = true from by decide)]
    refine ⟨['0'], rfl, ?_, ?_, ?_⟩
    · rw [hvz, equals_iff_val jsZERO a (by decide) ha,
        show val jsZERO = 0 from by decide]
      simp [val, hz, digitsVal]
    · rw [hvz]
      decide
    · rw [hvz]
      rfl
  · have hzz : a.isZero = false := by
      show a.digits.isEmpty = false
      cases hdd : a.digits with
      | nil => exact absurd hdd hz
      | cons x l => rfl
    rw [if_neg (show ¬ a.isZero = true by rw [hzz]; simp)]
    have hvpos : 0 < val a := by
      rw [show val a = digitsVal a.digits by simp [val, han]]
      have h1 := canonical_digitsVal_pos a.digits ha.1 ha.2.1 hz
      have h2 : (0:ℤ) < BASE ^ (a.digits.length - 1) := pow_pos (by norm_num [BASE]) _
      linarith
    have hfin : ∀ s : List Char,
        (∀ c ∈ s, 0 ≤ charValJS c ∧ charValJS c < BASE ∧ c ≠ '-') →
        charsVal r s.reverse = val a →
        (valueOf s r).equals a = true ∧ Canonical (valueOf s r) ∧
          (valueOf s r).negative = false := by
      intro s hchars hval
      have hnz : representsZero s = false := by
        cases hrs : representsZero s
        · rfl
        · exfalso
          have hall := representsZero_all s hrs
          have h0 : charsVal r s.reverse = 0 :=
            charsVal_zero_of_all_zero r s.reverse
              (fun c hc => hall c (List.mem_reverse.mp hc))
          omega
      obtain ⟨v, cn, ng⟩ := valueOf_spec_pos r hr2 hrB s hchars hnz
      refine ⟨?_, cn, ng⟩
      rw [equals_iff_val _ _ cn ha, v, hval]
    by_cases hr10 : r = 10
    · subst hr10
      rw [if_pos rfl]
      rcases hcache with hnone | ⟨s0, hsome, hdec, hv10⟩
      · rw [hnone]
        obtain ⟨hchars, hval10, _⟩ := decimalBuild_spec a ha han hz
        refine ⟨decimalBuild a, rfl, hfin (decimalBuild a) ?_ hval10⟩
        intro c hc
        have h1 := hchars c hc
        obtain ⟨_, h0c, h10c⟩ := charVal_decimal c h1
        refine ⟨h0c, by rw [show BASE = (1000000:ℤ) from rfl]; omega, ?_⟩
        intro hminus
        rw [hminus] at h1
        exact absurd h1.1 (by decide)
      · rw [hsome]
        refine ⟨s0, rfl, hfin s0 ?_ hv10⟩
        intro c hc
        have h1 := hdec c hc
        obtain ⟨_, h0c, h10c⟩ := charVal_decimal c h1
        refine ⟨h0c, by rw [show BASE = (1000000:ℤ) from rfl]; omega, ?_⟩
        intro hminus
        rw [hminus] at h1
        exact absurd h1.1 (by decide)
    · rw [if_neg hr10]
      obtain ⟨s, hseq, hsv, hsr, _⟩ := toStringLoop_spec fuel a [] r fuel hr2 hr36 ha han hfuel
      rw [List.append_nil] at hseq
      refine ⟨s, hseq, hfin s ?_ hsv⟩
      intro c hc
      obtain ⟨h0c, hrc, hmc⟩ := hsr c hc
      exact ⟨h0c, by rw [show BASE = (1000000:ℤ) from rfl]; omega, hmc⟩

/-- The amended C7 theorem instantiated at `a = 12345`, `r = 16`:
`toString` prints a hexadecimal string whose parse equals `12345`. -/
theorem c7_amended_roundtrip_witness :
    ∃ s, (fromNumber 12345).toString 16 12345 = .ok s ∧
      (valueOf s 16).equals (fromNumber 12345) = true ∧
      Canonical (valueOf s 16) ∧ (valueOf s 16).negative = false :=
  c7_amended_roundtrip (fromNumber 12345) 16 12345 (by decide) (by decide) (by decide)
    (by decide) (Or.inr ⟨['1', '2', '3', '4', '5'], by decide, by decide, by decide⟩)
    (by decide)

theorem roundQ_bounds (x : ℚ) (hx : 0 ≤ x) :
    x * ((2 ^ 53 - 1) / 2 ^ 53) ≤ roundQ x ∧ roundQ x ≤ x * ((2 ^ 53 + 1) / 2 ^ 53) := by
  rcases eq_or_lt_of_le hx with h | h
  · rw [← h, roundQ_zero]
    norm_num
  · have he := roundQ_err x h
    rw [abs_le] at he
    obtain ⟨h1, h2⟩ := he
    constructor
    · rw [show x * ((2 ^ 53 - 1) / 2 ^ 53) = x - x / 2 ^ 53 by ring]
      linarith
    · rw [show x * ((2 ^ 53 + 1) / 2 ^ 53) = x + x / 2 ^ 53 by ring]
      linarith

theorem fp_chain_upper (u a v : ℚ) (hu : 0 < u) (ha : 0 ≤ a) (hv : 0 < v) :
    0 ≤ roundQ (roundQ (u + roundQ a) / roundQ v) ∧
    roundQ (roundQ (u + roundQ a) / roundQ v) ≤ ((u + a) / v) * ((2 ^ 53 + 8) / 2 ^ 53) := by
  obtain ⟨hA1, hA2⟩ := roundQ_bounds a ha
  have hApos : 0 ≤ roundQ a := le_trans (by positivity) hA1
  have hS : 0 < u + roundQ a := by linarith
  obtain ⟨hP1, hP2⟩ := roundQ_bounds (u + roundQ a) (le_of_lt hS)
  have hPub : roundQ (u + roundQ a) ≤
      (u + a * ((2 ^ 53 + 1) / 2 ^ 53)) * ((2 ^ 53 + 1) / 2 ^ 53) := by
    refine le_trans hP2 ?_
    apply mul_le_mul_of_nonneg_right _ (by norm_num)
    linarith
  have hPpos : 0 ≤ roundQ (u + roundQ a) := le_trans (by positivity) hP1
  obtain ⟨hQ1, hQ2⟩ := roundQ_bounds v (le_of_lt hv)
  have hQpos : 0 < roundQ v := lt_of_lt_of_le (by positivity) hQ1
  have hTnum0 : (0:ℚ) ≤ (u + a * ((2 ^ 53 + 1) / 2 ^ 53)) * ((2 ^ 53 + 1) / 2 ^ 53) := by
    have : (0:ℚ) ≤ a * ((2 ^ 53 + 1) / 2 ^ 53) := by positivity
    positivity
  have hT : roundQ (u + roundQ a) / roundQ v ≤
      ((u + a * ((2 ^ 53 + 1) / 2 ^ 53)) * ((2 ^ 53 + 1) / 2 ^ 53)) /
        (v * ((2 ^ 53 - 1) / 2 ^ 53)) :=
    div_le_div hTnum0 hPub (by positivity) hQ1
  have hTpos : 0 ≤ roundQ (u + roundQ a) / roundQ v := div_nonneg hPpos (le_of_lt hQpos)
  obtain ⟨hF1, hF2⟩ := roundQ_bounds _ hTpos
  refine ⟨le_trans (by positivity) hF1, ?_⟩
  have hstep1 : roundQ (roundQ (u + roundQ a) / roundQ v) ≤
      (((u + a * ((2 ^ 53 + 1) / 2 ^ 53)) * ((2 ^ 53 + 1) / 2 ^ 53)) /
        (v * ((2 ^ 53 - 1) / 2 ^ 53))) * ((2 ^ 53 + 1) / 2 ^ 53) :=
    le_trans hF2 (mul_le_mul_of_nonneg_right hT (by norm_num))
  refine le_trans hstep1 ?_
  have hstep2 : u + a * ((2 ^ 53 + 1) / 2 ^ 53) ≤ (u + a) * ((2 ^ 53 + 1) / 2 ^ 53) := by
    have hu1 : u ≤ u * ((2 ^ 53 + 1) / 2 ^ 53) :=
      le_mul_of_one_le_right (le_of_lt hu) (by norm_num)
    nlinarith
  have hnum : (u + a * ((2 ^ 53 + 1) / 2 ^ 53)) * ((2 ^ 53 + 1) / 2 ^ 53) ≤
      ((u + a) * ((2 ^ 53 + 1) / 2 ^ 53)) * ((2 ^ 53 + 1) / 2 ^ 53) :=
    mul_le_mul_of_nonneg_right hstep2 (by norm_num)
  have hden : (0:ℚ) < v * ((2 ^ 53 - 1) / 2 ^ 53) := by positivity
  have hstep3 : (((u + a * ((2 ^ 53 + 1) / 2 ^ 53)) * ((2 ^ 53 + 1) / 2 ^ 53)) /
        (v * ((2 ^ 53 - 1) / 2 ^ 53))) * ((2 ^ 53 + 1) / 2 ^ 53) ≤
      ((((u + a) * ((2 ^ 53 + 1) / 2 ^ 53)) * ((2 ^ 53 + 1) / 2 ^ 53)) /
        (v * ((2 ^ 53 - 1) / 2 ^ 53))) * ((2 ^ 53 + 1) / 2 ^ 53) :=
    mul_le_mul_of_nonneg_right ((div_le_div_right hden).mpr hnum) (by norm_num)
  refine le_trans hstep3 ?_
  have heq : ((((u + a) * ((2 ^ 53 + 1) / 2 ^ 53)) * ((2 ^ 53 + 1) / 2 ^ 53)) /
        (v * ((2 ^ 53 - 1) / 2 ^ 53))) * ((2 ^ 53 + 1) / 2 ^ 53) =
      ((u + a) / v) * (((2 ^ 53 + 1) / 2 ^ 53) * ((2 ^ 53 + 1) / 2 ^ 53) *
        ((2 ^ 53 + 1) / 2 ^ 53) / ((2 ^ 53 - 1) / 2 ^ 53)) := by
    field_simp
    ring
  rw [heq]
  apply mul_le_mul_of_nonneg_left _ (div_nonneg (by linarith) (le_of_lt hv))
  norm_num

theorem mulDigitAux_val : ∀ (ds : List ℤ) (g c : ℤ), (∀ d ∈ ds, 0 ≤ d) → 0 ≤ g → 0 ≤ c →
    digitsVal (mulDigitAux ds g c) = g * digitsVal ds + c := by
  intro ds
  induction ds with
  | nil =>
    intro g c _ _ _
    by_cases hc : c = 0
    · subst hc
      simp [mulDigitAux, digitsVal]
    · rw [show mulDigitAux [] g c = [c] by simp [mulDigitAux, hc]]
      simp [digitsVal]
  | cons d ds ih =>
    intro g c hd hg hc
    have hd0 : 0 ≤ d := hd d (by simp)
    have hx0 : 0 ≤ g * d + c := add_nonneg (mul_nonneg hg hd0) hc
    obtain ⟨hmod, hdiv⟩ := tmodBase_split (g * d + c) hx0
    rw [show mulDigitAux (d :: ds) g c =
        Int.tmod (g * d + c) BASE ::
          mulDigitAux ds g (Int.fdiv (g * d + c) BASE) from rfl]
    rw [show digitsVal (Int.tmod (g * d + c) BASE ::
          mulDigitAux ds g (Int.fdiv (g * d + c) BASE)) =
        Int.tmod (g * d + c) BASE +
          BASE * digitsVal (mulDigitAux ds g (Int.fdiv (g * d + c) BASE)) from rfl]
    rw [ih g _ (fun e he => hd e (by simp [he])) hg
      (by rw [hdiv]; exact Int.ediv_nonneg hx0 (by norm_num [BASE]))]
    rw [hmod, hdiv, show digitsVal (d :: ds) = d + BASE * digitsVal ds from rfl]
    linear_combination Int.emod_add_ediv (g * d + c) BASE

theorem multiplyOneDigit_val (number : BigInteger) (g : ℤ) (mag : ℕ)
    (hr : ∀ d ∈ number.digits, 0 ≤ d) (hg : 0 ≤ g) :
    val (multiplyOneDigit number g mag) = g * digitsVal number.digits * BASE ^ mag := by
  rw [show val (multiplyOneDigit number g mag) =
      digitsVal (multiplyOneDigit number g mag).digits by simp [val, multiplyOneDigit]]
  rw [show (multiplyOneDigit number g mag).digits =
      List.replicate mag 0 ++ mulDigitAux number.digits g 0 from rfl]
  rw [digitsVal_append, digitsVal_replicate_zero,
    mulDigitAux_val number.digits g 0 hr hg le_rfl]
  simp [List.length_replicate]
  ring

theorem getD_last (ds : List ℤ) (h : ds ≠ []) :
    ds.getLast? = some (ds.getD (ds.length - 1) 0) := by
  rcases List.eq_nil_or_concat ds with h0 | ⟨init, t, rfl⟩
  · exact absurd h0 h
  · simp only [List.concat_eq_append]
    rw [getLast?_append_ne_nil init [t] (by simp)]
    rw [show (init ++ [t]).length - 1 = init.length by simp]
    rw [getD_concat_self]
    rfl

theorem firstTwoDigits_eq (x : BigInteger) (h2 : 2 ≤ x.digits.length) :
    firstTwoDigits x = x.digits.getD (x.digits.length - 1) 0 * BASE +
      x.digits.getD (x.digits.length - 2) 0 := by
  unfold firstTwoDigits
  rw [if_neg (by omega), if_pos (by omega)]

theorem firstTwoDigits_spec (x : BigInteger) (hr : ∀ d ∈ x.digits, 0 ≤ d ∧ d < BASE)
    (hl : x.digits.getLast? ≠ some 0) (h2 : 2 ≤ x.digits.length) :
    BASE ≤ firstTwoDigits x ∧ firstTwoDigits x < BASE ^ 2 ∧
    firstTwoDigits x * BASE ^ (x.digits.length - 2) ≤ digitsVal x.digits ∧
    digitsVal x.digits < (firstTwoDigits x + 1) * BASE ^ (x.digits.length - 2) := by
  have hne : x.digits ≠ [] := List.ne_nil_of_length_pos (by omega)
  have htake : x.digits.take x.digits.length = x.digits := List.take_length x.digits
  have hd1 : digitsVal x.digits = digitsVal (x.digits.take (x.digits.length - 1)) +
      x.digits.getD (x.digits.length - 1) 0 * BASE ^ (x.digits.length - 1) := by
    have h := digitsVal_take_succ x.digits (x.digits.length - 1) (by omega)
    rw [show x.digits.length - 1 + 1 = x.digits.length by omega, htake] at h
    exact h
  have hd2 : digitsVal (x.digits.take (x.digits.length - 1)) =
      digitsVal (x.digits.take (x.digits.length - 2)) +
      x.digits.getD (x.digits.length - 2) 0 * BASE ^ (x.digits.length - 2) := by
    have h := digitsVal_take_succ x.digits (x.digits.length - 2) (by omega)
    rw [show x.digits.length - 2 + 1 = x.digits.length - 1 by omega] at h
    exact h
  have hlow0 : 0 ≤ digitsVal (x.digits.take (x.digits.length - 2)) :=
    digitsVal_nonneg _ (fun d hd => (hr d (List.mem_of_mem_take hd)).1)
  have hlowlt : digitsVal (x.digits.take (x.digits.length - 2)) <
      BASE ^ (x.digits.length - 2) := by
    have h := digitsVal_lt_pow (x.digits.take (x.digits.length - 2))
      (fun d hd => hr d (List.mem_of_mem_take hd))
    rwa [List.length_take, min_eq_left (by omega)] at h
  have hd1r := hr _ (getD_mem_list x.digits (x.digits.length - 1) (by omega))
  have hd2r := hr _ (getD_mem_list x.digits (x.digits.length - 2) (by omega))
  have hd1pos : 1 ≤ x.digits.getD (x.digits.length - 1) 0 := by
    have hgl := getD_last x.digits hne
    rw [hgl] at hl
    have : x.digits.getD (x.digits.length - 1) 0 ≠ 0 := by
      intro h0
      rw [h0] at hl
      exact hl rfl
    omega
  have hft := firstTwoDigits_eq x h2
  have hBpos : (0:ℤ) < BASE := by norm_num [BASE]
  have hpow : BASE ^ (x.digits.length - 1) = BASE ^ (x.digits.length - 2) * BASE := by
    rw [show x.digits.length - 1 = x.digits.length - 2 + 1 by omega, pow_succ]
  have hpw0 : (0:ℤ) < BASE ^ (x.digits.length - 2) := pow_pos hBpos _
  refine ⟨?_, ?_, ?_, ?_⟩
  · rw [hft]
    nlinarith [hd1r.1, hd2r.1]
  · rw [hft, sq]
    nlinarith [hd1r.2, hd2r.2]
  · rw [hft, hd1, hd2, hpow]
    nlinarith
  · rw [hft, hd1, hd2, hpow]
    nlinarith

theorem digitsVal_three_lower (x : BigInteger) (hr : ∀ d ∈ x.digits, 0 ≤ d ∧ d < BASE)
    (h3 : 3 ≤ x.digits.length) :
    (firstTwoDigits x * BASE + x.digits.getD (x.digits.length - 3) 0) *
      BASE ^ (x.digits.length - 3) ≤ digitsVal x.digits := by
  have htake : x.digits.take x.digits.length = x.digits := List.take_length x.digits
  have hd1 : digitsVal x.digits = digitsVal (x.digits.take (x.digits.length - 1)) +
      x.digits.getD (x.digits.length - 1) 0 * BASE ^ (x.digits.length - 1) := by
    have h := digitsVal_take_succ x.digits (x.digits.length - 1) (by omega)
    rw [show x.digits.length - 1 + 1 = x.digits.length by omega, htake] at h
    exact h
  have hd2 : digitsVal (x.digits.take (x.digits.length - 1)) =
      digitsVal (x.digits.take (x.digits.length - 2)) +
      x.digits.getD (x.digits.length - 2) 0 * BASE ^ (x.digits.length - 2) := by
    have h := digitsVal_take_succ x.digits (x.digits.length - 2) (by omega)
    rw [show x.digits.length - 2 + 1 = x.digits.length - 1 by omega] at h
    exact h
  have hd3 : digitsVal (x.digits.take (x.digits.length - 2)) =
      digitsVal (x.digits.take (x.digits.length - 3)) +
      x.digits.getD (x.digits.length - 3) 0 * BASE ^ (x.digits.length - 3) := by
    have h := digitsVal_take_succ x.digits (x.digits.length - 3) (by omega)
    rw [show x.digits.length - 3 + 1 = x.digits.length - 2 by omega] at h
    exact h
  have hlow0 : 0 ≤ digitsVal (x.digits.take (x.digits.length - 3)) :=
    digitsVal_nonneg _ (fun d hd => (hr d (List.mem_of_mem_take hd)).1)
  have hft := firstTwoDigits_eq x (by omega)
  have hBpos : (0:ℤ) < BASE := by norm_num [BASE]
  have hp1 : BASE ^ (x.digits.length - 1) = BASE ^ (x.digits.length - 3) * (BASE * BASE) := by
    rw [show x.digits.length - 1 = x.digits.length - 3 + 1 + 1 by omega, pow_succ, pow_succ]
    ring
  have hp2 : BASE ^ (x.digits.length - 2) = BASE ^ (x.digits.length - 3) * BASE := by
    rw [show x.digits.length - 2 = x.digits.length - 3 + 1 by omega, pow_succ]
  rw [hd1, hd2, hd3, hft, hp1, hp2]
  nlinarith

theorem trialDigit_two_eq (dividend : BigInteger) (ftv : ℤ)
    (hU0 : 0 ≤ firstTwoDigits dividend) (hU53 : firstTwoDigits dividend ≤ 2 ^ 53)
    (hV0 : 0 < ftv) (hV53 : ftv ≤ 2 ^ 53) :
    trialDigit dividend ftv false = firstTwoDigits dividend / ftv := by
  simp only [trialDigit]
  rw [if_neg (show ¬ (false = true ∧ 2 < dividend.digits.length) by simp)]
  rw [qdiv_eq]
  rw [show ((firstTwoDigits dividend : ℤ) : ℚ) =
      (((firstTwoDigits dividend).toNat : ℕ) : ℚ) by
    exact_mod_cast congrArg (fun z : ℤ => (z : ℚ)) (Int.toNat_of_nonneg hU0).symm]
  rw [show ((ftv : ℤ) : ℚ) = ((ftv.toNat : ℕ) : ℚ) by
    exact_mod_cast congrArg (fun z : ℤ => (z : ℚ)) (Int.toNat_of_nonneg (le_of_lt hV0)).symm]
  rw [floorDivExact _ _ (by omega) (by omega) (by omega)]
  rw [Int.ofNat_div, Int.toNat_of_nonneg hU0, Int.toNat_of_nonneg (le_of_lt hV0)]
  exact Int.tdiv_eq_ediv hU0 (le_of_lt hV0)

theorem trialDigit_three_bounds (dividend : BigInteger) (ftv : ℤ)
    (h3 : 2 < dividend.digits.length)
    (hU : 0 < firstTwoDigits dividend)
    (hw : 0 ≤ dividend.digits.getD (dividend.digits.length - 3) 0)
    (hV : 0 < ftv) :
    0 ≤ trialDigit dividend ftv true ∧
    ((trialDigit dividend ftv true : ℤ) : ℚ) ≤
      (((firstTwoDigits dividend * BASE +
          dividend.digits.getD (dividend.digits.length - 3) 0 : ℤ) : ℚ) /
        ((ftv : ℤ) : ℚ)) * ((2 ^ 53 + 8) / 2 ^ 53) := by
  have hBq : (0:ℚ) < ((BASE : ℤ) : ℚ) := by norm_num [BASE]
  have hUq : (0:ℚ) < ((firstTwoDigits dividend : ℤ) : ℚ) := by exact_mod_cast hU
  have hwq : (0:ℚ) ≤ ((dividend.digits.getD (dividend.digits.length - 3) 0 : ℤ) : ℚ) := by
    exact_mod_cast hw
  have hVq : (0:ℚ) < ((ftv : ℤ) : ℚ) := by exact_mod_cast hV
  have hred : trialDigit dividend ftv true =
      qfloor (roundQ (qdiv
        (roundQ (qadd ((firstTwoDigits dividend : ℤ) : ℚ)
          (roundQ (qdiv ((dividend.digits.getD (dividend.digits.length - 3) 0 : ℤ) : ℚ)
            ((BASE : ℤ) : ℚ)))))
        (roundQ (qdiv ((ftv : ℤ) : ℚ) ((BASE : ℤ) : ℚ))))) := by
    simp only [trialDigit]
    rw [if_pos (show True ∧ 2 < dividend.digits.length from ⟨trivial, h3⟩)]
  rw [hred]
  simp only [qdiv_eq, qadd_eq]
  obtain ⟨hfp0, hfpub⟩ := fp_chain_upper ((firstTwoDigits dividend : ℤ) : ℚ)
    (((dividend.digits.getD (dividend.digits.length - 3) 0 : ℤ) : ℚ) / ((BASE : ℤ) : ℚ))
    (((ftv : ℤ) : ℚ) / ((BASE : ℤ) : ℚ))
    hUq (div_nonneg hwq (le_of_lt hBq)) (div_pos hVq hBq)
  rw [qfloor_eq]
  constructor
  · exact Int.floor_nonneg.mpr hfp0
  · refine le_trans (Int.floor_le _) (le_trans hfpub ?_)
    apply mul_le_mul_of_nonneg_right _ (by norm_num)
    rw [show (((firstTwoDigits dividend : ℤ) : ℚ) +
        ((dividend.digits.getD (dividend.digits.length - 3) 0 : ℤ) : ℚ) / ((BASE : ℤ) : ℚ)) /
          (((ftv : ℤ) : ℚ) / ((BASE : ℤ) : ℚ)) =
        (((firstTwoDigits dividend : ℤ) : ℚ) * ((BASE : ℤ) : ℚ) +
          ((dividend.digits.getD (dividend.digits.length - 3) 0 : ℤ) : ℚ)) /
          ((ftv : ℤ) : ℚ) by
      field_simp]
    apply le_of_eq
    push_cast
    ring_nf

/-- C2: in the general long-division loop (shared by `divide` and `modulo`),
the trial digit overshoots the true quotient digit by at most one.  At any
loop state — canonical non-negative working dividend and divisor, divisor of
at least two digit groups, and the position/flag relation the loop maintains
(`pos = #dividend - #divisor` with the two-digit estimate when the flag is
off; `pos = #dividend - #divisor - 1` with the three-digit estimate and a
leading dividend part at most the leading divisor part when the flag is on) —
if the product `divisor * qt` shifted to `pos` exceeds the working dividend,
then the product recomputed with `qt - 1` no longer does: one decrement
always suffices and a second correction is never needed. -/
theorem c2_trial_digit_single_correction (dividend divisor : BigInteger) (pos : ℤ)
    (flag : Bool)
    (hD : Canonical dividend) (hDn : dividend.negative = false)
    (hv : Canonical divisor) (hvn : divisor.negative = false)
    (hm : 2 ≤ divisor.digits.length) (hpos : 0 ≤ pos)
    (hflagf : flag = false →
      pos = (dividend.digits.length : ℤ) - (divisor.digits.length : ℤ))
    (hflagt : flag = true →
      pos = (dividend.digits.length : ℤ) - (divisor.digits.length : ℤ) - 1 ∧
      firstTwoDigits dividend ≤ firstTwoDigits divisor) :
    val dividend < val (multiplyOneDigit divisor
      (trialDigit dividend (firstTwoDigits divisor) flag) pos.toNat) →
    val (multiplyOneDigit divisor
      (trialDigit dividend (firstTwoDigits divisor) flag - 1) pos.toNat) ≤ val dividend := by
  intro Hcorr
  by_contra hc
  push_neg at hc
  obtain ⟨hDr, hDl, _⟩ := hD
  obtain ⟨hvr, hvl, _⟩ := hv
  have hBpos : (0:ℤ) < BASE := by norm_num [BASE]
  have hBl : BASE = (1000000:ℤ) := rfl
  have hDval : val dividend = digitsVal dividend.digits := by simp [val, hDn]
  have hD0 : 0 ≤ digitsVal dividend.digits := digitsVal_nonneg _ (fun d hd => (hDr d hd).1)
  obtain ⟨hVB, hV2, hvlb, hvub⟩ := firstTwoDigits_spec divisor hvr hvl hm
  have hVBl : (1000000:ℤ) ≤ firstTwoDigits divisor := by rw [← hBl]; exact hVB
  have hV2l : firstTwoDigits divisor < 1000000000000 := by
    rw [show (BASE:ℤ) ^ 2 = 1000000000000 from by norm_num [BASE]] at hV2
    exact hV2
  rw [hDval] at Hcorr hc
  cases flag with
  | false =>
    have hposf := hflagf rfl
    have hkm : divisor.digits.length ≤ dividend.digits.length := by omega
    have hk2 : 2 ≤ dividend.digits.length := le_trans hm hkm
    obtain ⟨hUB, hU2, hDlb, _⟩ := firstTwoDigits_spec dividend hDr hDl hk2
    have hUBl : (1000000:ℤ) ≤ firstTwoDigits dividend := by rw [← hBl]; exact hUB
    have hU2l : firstTwoDigits dividend < 1000000000000 := by
      rw [show (BASE:ℤ) ^ 2 = 1000000000000 from by norm_num [BASE]] at hU2
      exact hU2
    have hqt : trialDigit dividend (firstTwoDigits divisor) false =
        firstTwoDigits dividend / firstTwoDigits divisor :=
      trialDigit_two_eq dividend _ (by omega) (by omega) (by omega) (by omega)
    rw [hqt] at Hcorr hc
    set q := firstTwoDigits dividend / firstTwoDigits divisor with hqdef
    have hq0 : 0 ≤ q := Int.ediv_nonneg (by omega) (by omega)
    rw [multiplyOneDigit_val divisor q pos.toNat (fun d hd => (hvr d hd).1) hq0] at Hcorr
    have hq1 : 1 ≤ q := by
      by_contra h
      push_neg at h
      have hz : q = 0 := by omega
      rw [hz] at Hcorr
      simp at Hcorr
      omega
    rw [multiplyOneDigit_val divisor (q - 1) pos.toNat (fun d hd => (hvr d hd).1)
      (by omega)] at hc
    have hq2 : 2 ≤ q := by
      by_contra h
      push_neg at h
      have hz : q = 1 := by omega
      rw [hz] at hc
      norm_num at hc
      omega
    have hpowc : BASE ^ (divisor.digits.length - 2) * BASE ^ pos.toNat =
        BASE ^ (dividend.digits.length - 2) := by
      rw [← pow_add]
      congr 1
      omega
    have hkey : firstTwoDigits dividend < (q - 1) * (firstTwoDigits divisor + 1) := by
      have e1 : (q - 1) * digitsVal divisor.digits * BASE ^ pos.toNat <
          (q - 1) * ((firstTwoDigits divisor + 1) * BASE ^ (divisor.digits.length - 2)) *
            BASE ^ pos.toNat :=
        mul_lt_mul_of_pos_right (mul_lt_mul_of_pos_left hvub (by omega)) (pow_pos hBpos _)
      have e2 : firstTwoDigits dividend * BASE ^ (dividend.digits.length - 2) <
          (q - 1) * (firstTwoDigits divisor + 1) * BASE ^ (dividend.digits.length - 2) := by
        calc firstTwoDigits dividend * BASE ^ (dividend.digits.length - 2)
            ≤ digitsVal dividend.digits := hDlb
          _ < (q - 1) * digitsVal divisor.digits * BASE ^ pos.toNat := hc
          _ < (q - 1) * ((firstTwoDigits divisor + 1) * BASE ^ (divisor.digits.length - 2)) *
              BASE ^ pos.toNat := e1
          _ = (q - 1) * (firstTwoDigits divisor + 1) * BASE ^ (dividend.digits.length - 2) := by
              rw [← hpowc]
              ring
      exact lt_of_mul_lt_mul_right e2 (le_of_lt (pow_pos hBpos _))
    have hqV : q * firstTwoDigits divisor ≤ firstTwoDigits dividend := by
      have h1 := Int.emod_add_ediv (firstTwoDigits dividend) (firstTwoDigits divisor)
      have h2 := Int.emod_nonneg (firstTwoDigits dividend)
        (show firstTwoDigits divisor ≠ 0 by omega)
      rw [hqdef]
      linarith
    have hq_lb : 1000002 ≤ q := by
      have hadd := Int.add_one_le_iff.mpr hkey
      rw [show (q - 1) * (firstTwoDigits divisor + 1) =
          q * firstTwoDigits divisor + q - firstTwoDigits divisor - 1 from by ring] at hadd
      linarith
    have hscale : 1000002 * firstTwoDigits divisor ≤ q * firstTwoDigits divisor :=
      mul_le_mul_of_nonneg_right hq_lb (by omega)
    linarith
  | true =>
    obtain ⟨hpost, hUV⟩ := hflagt rfl
    have hk3 : 2 < dividend.digits.length := by omega
    obtain ⟨hUB, hU2, _, _⟩ := firstTwoDigits_spec dividend hDr hDl (by omega)
    have hwmem := hDr _ (getD_mem_list dividend.digits (dividend.digits.length - 3) (by omega))
    obtain ⟨hqt0, hqtub⟩ := trialDigit_three_bounds dividend (firstTwoDigits divisor) hk3
      (by omega) hwmem.1 (by omega)
    have hD3 := digitsVal_three_lower dividend hDr (by omega)
    set N := trialDigit dividend (firstTwoDigits divisor) true with hNdef
    set U := firstTwoDigits dividend with hUdef
    set V := firstTwoDigits divisor with hVdef
    set w := dividend.digits.getD (dividend.digits.length - 3) 0 with hwdef
    rw [multiplyOneDigit_val divisor N pos.toNat (fun d hd => (hvr d hd).1) hqt0] at Hcorr
    have hN1 : 1 ≤ N := by
      by_contra h
      push_neg at h
      have hz : N = 0 := by omega
      rw [hz] at Hcorr
      simp at Hcorr
      omega
    rw [multiplyOneDigit_val divisor (N - 1) pos.toNat (fun d hd => (hvr d hd).1)
      (by omega)] at hc
    have hN2 : 2 ≤ N := by
      by_contra h
      push_neg at h
      have hz : N = 1 := by omega
      rw [hz] at hc
      norm_num at hc
      omega
    have hpowc : BASE ^ (divisor.digits.length - 2) * BASE ^ pos.toNat =
        BASE ^ (dividend.digits.length - 3) := by
      rw [← pow_add]
      congr 1
      omega
    have hkey1 : U * BASE + w < (N - 1) * (V + 1) := by
      have e1 : (N - 1) * digitsVal divisor.digits * BASE ^ pos.toNat <
          (N - 1) * ((V + 1) * BASE ^ (divisor.digits.length - 2)) * BASE ^ pos.toNat :=
        mul_lt_mul_of_pos_right (mul_lt_mul_of_pos_left hvub (by omega)) (pow_pos hBpos _)
      have e2 : (U * BASE + w) * BASE ^ (dividend.digits.length - 3) <
          (N - 1) * (V + 1) * BASE ^ (dividend.digits.length - 3) := by
        calc (U * BASE + w) * BASE ^ (dividend.digits.length - 3)
            ≤ digitsVal dividend.digits := hD3
          _ < (N - 1) * digitsVal divisor.digits * BASE ^ pos.toNat := hc
          _ < (N - 1) * ((V + 1) * BASE ^ (divisor.digits.length - 2)) *
              BASE ^ pos.toNat := e1
          _ = (N - 1) * (V + 1) * BASE ^ (dividend.digits.length - 3) := by
              rw [← hpowc]
              ring
      exact lt_of_mul_lt_mul_right e2 (le_of_lt (pow_pos hBpos _))
    have hkey2 : N * V * 9007199254740992 ≤
        (U * 1000000 + w) * (9007199254740992 + 8) := by
      have hVq : (0:ℚ) < ((V : ℤ) : ℚ) := by
        exact_mod_cast (show (0:ℤ) < V by omega)
      have h1 : ((N : ℤ) : ℚ) * (((V : ℤ) : ℚ) * 2 ^ 53) ≤
          ((((U * BASE + w : ℤ) : ℚ)) / ((V : ℤ) : ℚ) * ((2 ^ 53 + 8) / 2 ^ 53)) *
            (((V : ℤ) : ℚ) * 2 ^ 53) :=
        mul_le_mul_of_nonneg_right hqtub (by positivity)
      have h2 : ((((U * BASE + w : ℤ) : ℚ)) / ((V : ℤ) : ℚ) * ((2 ^ 53 + 8) / 2 ^ 53)) *
            (((V : ℤ) : ℚ) * 2 ^ 53) = (((U * BASE + w : ℤ) : ℚ)) * (2 ^ 53 + 8) := by
        field_simp
      rw [h2] at h1
      have h3 : (N * V * 9007199254740992 : ℤ) ≤ ((U * BASE + w) * (9007199254740992 + 8) : ℤ) := by
        have h4 : ((N * V * 9007199254740992 : ℤ) : ℚ) ≤
            (((U * BASE + w) * (9007199254740992 + 8) : ℤ) : ℚ) := by
          push_cast
          push_cast at h1
          nlinarith [h1]
        exact_mod_cast h4
      rw [hBl] at h3
      exact h3
    have hU3l : U * 1000000 + w ≤ V * 1000000 + 999999 := by
      have h1 : U * 1000000 ≤ V * 1000000 := mul_le_mul_of_nonneg_right hUV (by norm_num)
      have h2 := hwmem.2
      rw [hBl] at h2
      linarith
    have hadd1 : U * 1000000 + w + 1 ≤ N * V + N - V - 1 := by
      have h := Int.add_one_le_iff.mpr hkey1
      rw [show (N - 1) * (V + 1) = N * V + N - V - 1 from by ring] at h
      rw [hBl] at h
      exact h
    have hNle : N ≤ 1000001 := by
      by_contra hx
      push_neg at hx
      have hs : 1000002 * V * 9007199254740992 ≤ N * V * 9007199254740992 :=
        mul_le_mul_of_nonneg_right
          (mul_le_mul_of_nonneg_right (by omega) (by omega)) (by norm_num)
      linarith
    linarith

/-- The C2 theorem at a concrete loop state (three-digit estimate, flag on,
`pos = 0`): the trial digit is `878634`, one above the true digit `878633`;
the first product exceeds the working dividend and the decremented product
does not. -/
theorem c2_trial_digit_single_correction_witness :
    val (multiplyOneDigit ⟨[332885, 490120, 328393, 698273, 1], false, none⟩
      (trialDigit ⟨[79088, 388564, 685798, 687619, 492160, 1], false, none⟩
        (firstTwoDigits ⟨[332885, 490120, 328393, 698273, 1], false, none⟩) true - 1)
      (0 : ℤ).toNat) ≤ val ⟨[79088, 388564, 685798, 687619, 492160, 1], false, none⟩ :=
  c2_trial_digit_single_correction
    ⟨[79088, 388564, 685798, 687619, 492160, 1], false, none⟩
    ⟨[332885, 490120, 328393, 698273, 1], false, none⟩ 0 true
    (by decide) rfl (by decide) rfl (by decide) (by decide)
    (by decide) (by decide) (by decide)
